import Mathlib

/-!
# polepp: paths, path component iteration and document iteration

A shallow embedding of `includes/path.hpp` and `includes/storage.hpp`.

* `std::string` is a list of characters (`Str`); `size_type` values are natural numbers,
  and `std::string::npos` is the largest 64-bit value.
* A live `POLE::DirEntry` is a record of its address and attributes; a `const POLE::DirEntry*`
  that may be `NULL` is an `Option DirEntry`, compared by address; the entries that the
  provider hands out in its listings are live (non-null).
* Loops run with a bound on the number of iterations (`fuel`); the theorems give the bound
  from which the result no longer depends on it.
* Member functions guarded by `assert` return `Option`: `none` is a failed assertion.
* The POLE storage provider (`pole/pole.h`) is a parameter: a record of its observable answers.
  Where a member only forwards to the provider (changing the current directory, the byte
  cursor of a stream), the provider's operation is modelled from the specification and marked
  as such.
-/

namespace ole

/-- A `std::string`, as its sequence of characters. -/
abbrev Str := List Char

/-- The value `std::string::npos`, the largest `size_type` (64 bits). -/
def npos : Nat := 2 ^ 64 - 1

/-- The character `str[i]` of `operator[]`: the terminating NUL at `i = size()`. -/
def char_at (str : Str) (i : Nat) : Char := str.getD i (Char.ofNat 0)

/-- The string `str.substr(pos, n)`: at most `n` characters starting at `pos`. -/
def substr (str : Str) (pos n : Nat) : Str := (str.drop pos).take n

/-- Index of the first occurrence of `c` in a character sequence. -/
def first_index (c : Char) : Str → Option Nat
  | [] => none
  | x :: xs => if x = c then some 0 else (first_index c xs).map (· + 1)

/-- Index of the last occurrence of `c` in a character sequence. -/
def last_index (c : Char) : Str → Option Nat
  | [] => none
  | x :: xs =>
    match last_index c xs with
    | some i => some (i + 1)
    | none => if x = c then some 0 else none

/-- The search `str.find(c, pos)`: first index `i ≥ pos` with `str[i] = c`;
`none` is `npos`. -/
def find (str : Str) (c : Char) (pos : Nat) : Option Nat :=
  (first_index c (str.drop pos)).map (· + pos)

/-- The search `str.find_last_of(c, pos)`: last index `i ≤ pos` with `str[i] = c`;
`none` is `npos`. -/
def find_last_of (str : Str) (c : Char) (pos : Nat) : Option Nat :=
  last_index c (str.take (pos + 1))

/-- The order `operator<` of `std::string`: lexicographic on the character codes. -/
def str_lt : Str → Str → Bool
  | [], [] => false
  | [], _ :: _ => true
  | _ :: _, [] => false
  | a :: as, b :: bs =>
    if a.toNat < b.toNat then true
    else if b.toNat < a.toNat then false
    else str_lt as bs

/-- A live `POLE::DirEntry`: its address, which is its identity, and the attributes that the
accessors `name()`, `dir()`, `file()`, `root()` and `size()` report. -/
structure DirEntry where
  addr : Nat
  name : Str
  dir : Bool
  file : Bool
  root : Bool
  size : Nat
deriving DecidableEq, Repr

/-- Equality of two `const POLE::DirEntry*` values, `none` being `NULL`. -/
def ptr_eq (a b : Option DirEntry) : Bool :=
  a.map (fun e => e.addr) == b.map (fun e => e.addr)

/-- Modelled from the spec: the state of a `POLE::Stream` (a class of the POLE library, not
among the sources), the byte cursor of one entry: the bytes of the entry, the separate get
and put positions, and the end-of-stream and failure indicators. -/
structure Stream where
  content : Str
  get_pos : Nat
  put_pos : Nat
  eof_bit : Bool
  fail_bit : Bool
deriving DecidableEq, Repr

/-- Modelled from the spec: the values of `POLE::Storage::result()`, whose declaration is in
`pole/pole.h` and not among the sources: the success value `POLE::Storage::Ok`, or a failure
with its code. -/
inductive StorageResult where
  | Ok
  | failure (code : Nat)
deriving DecidableEq, Repr

/-- The answers of a `POLE::Storage` in one state of the provider: `listEntries` lists the
children of the current directory and `listAll` every entry below the root, in the order of
the provider; `getEntry` resolves a name that is absolute or relative to the current
directory. The fields `parent`, `children` and `resolve` describe the entry tree seen from
any directory: the parent link of an entry, the listing of a directory, and the resolution
of a name relative to a directory; `stream` is the cursor the provider hands out for a
name; `result` is the result of the last operation. -/
structure Storage where
  current_entry : Option DirEntry
  root_entry : Option DirEntry
  listEntries : List DirEntry
  listAll : List DirEntry
  fullName : DirEntry → Str
  getEntry : Str → Option DirEntry
  parent : DirEntry → Option DirEntry := fun _ => none
  children : DirEntry → List DirEntry := fun _ => []
  resolve : DirEntry → Str → Option DirEntry := fun _ _ => none
  stream : Str → Bool → Option Stream := fun _ _ => none
  result : StorageResult := StorageResult.Ok

/-- The class `basic_compound_document`: the pointer `m_storage`, `none` being `NULL`. -/
structure basic_compound_document where
  m_storage : Option Storage

/-- The class `basic_path`: the pointer `m_entry` to a live entry. -/
structure basic_path where
  m_entry : DirEntry
deriving DecidableEq, Repr

/-- The member `basic_compound_document::absolute_path(p)`; `none` when `assert(m_storage)`
fails. -/
def basic_compound_document.absolute_path (doc : basic_compound_document) (p : basic_path) :
    Option Str :=
  match doc.m_storage with
  | none => none
  | some storage => some (storage.fullName p.m_entry)

namespace basic_path

/-- The function `basic_path::leaf_pos(str, end_pos)`; `end_pos` is the past-the-end position.
The argument `end_pos-1` of `find_last_of` wraps to `npos` when `end_pos` is `0`. -/
def leaf_pos (str : Str) (end_pos : Nat) : Nat :=
  if end_pos ≠ 0 ∧ char_at str (end_pos - 1) = '/' then
    end_pos - 1
  else
    match find_last_of str '/' (if end_pos = 0 then npos else end_pos - 1) with
    | none => 0
    | some pos => pos + 1

/-- The body of `basic_path::branch` once `absolute` has been resolved. -/
def branch_of (absolute : Str) : Str :=
  let end_pos := leaf_pos absolute absolute.length
  let end_pos :=
    if end_pos ≠ 0 ∧ char_at absolute (end_pos - 1) = '/' ∧ end_pos ≠ 1 then end_pos - 1
    else end_pos
  substr absolute 0 end_pos

/-- The class `basic_path::iterator`. -/
structure iterator where
  m_name : Str
  m_full_path : Str
  m_pos : Nat
deriving DecidableEq, Repr

namespace iterator

/-- The function `iterator::first_name(src)`: the characters before the first `'/'`,
or `"/"` itself when `src` starts with `'/'`. -/
def first_name (src : Str) : Str :=
  let target := src.takeWhile (fun ch => ch ≠ '/')
  if target.length ≠ src.length then
    if target.length = 0 then target ++ ['/'] else target
  else target

/-- The constructor `iterator()`. -/
def mk_default : iterator := { m_name := [], m_full_path := [], m_pos := 0 }

/-- The constructor `iterator(full_path)`. -/
def of_string (full_path : Str) : iterator :=
  { m_name := first_name full_path, m_full_path := full_path, m_pos := 0 }

/-- The member `dereference()`; `none` when `assert(m_pos < m_full_path.length())` fails. -/
def dereference (it : iterator) : Option Str :=
  if it.m_pos < it.m_full_path.length then some it.m_name else none

/-- The member `equal(rhs)`. -/
def equal (it rhs : iterator) : Bool :=
  (it.m_full_path == rhs.m_full_path && it.m_pos == rhs.m_pos) ||
    (it.m_pos == it.m_full_path.length && rhs.m_pos == rhs.m_full_path.length)

/-- The member `increment()`; `none` when `assert(m_pos < m_full_path.length())` fails. -/
def increment (it : iterator) : Option iterator :=
  if it.m_pos < it.m_full_path.length then
    let m_pos := it.m_pos + it.m_name.length
    if m_pos = it.m_full_path.length then
      some { it with m_pos := m_pos, m_name := [] }
    else
      let m_pos := if char_at it.m_full_path m_pos = '/' then m_pos + 1 else m_pos
      let end_pos :=
        match find it.m_full_path '/' m_pos with
        | none => it.m_full_path.length
        | some e => e
      some { it with m_pos := m_pos, m_name := substr it.m_full_path m_pos (end_pos - m_pos) }
  else none

/-- The member `decrement()`; `none` when `assert(m_pos)` fails. -/
def decrement (it : iterator) : Option iterator :=
  if it.m_pos ≠ 0 then
    let end_pos := it.m_pos
    let end_pos :=
      if char_at it.m_full_path (end_pos - 1) = '/' ∧ end_pos ≠ 1 then end_pos - 1 else end_pos
    let m_pos := leaf_pos it.m_full_path end_pos
    some { it with m_pos := m_pos, m_name := substr it.m_full_path m_pos (end_pos - m_pos) }
  else none

/-- The iterator after `n` applications of `operator++`. -/
def increment_n : Nat → iterator → Option iterator
  | 0, it => some it
  | n + 1, it => (increment_n n it).bind increment

/-- The loop `for (; it != end(); ++it) out.push_back(*it)` run with a bound on the number
of iterations; `none` when the bound is used up or an assertion fails. -/
def collect : Nat → iterator → Option (List Str)
  | 0, _ => none
  | fuel + 1, it =>
    if equal it mk_default then some []
    else
      match dereference it, increment it with
      | some name, some next => (collect fuel next).map (fun rest => name :: rest)
      | _, _ => none

/-- The algorithm `std::lexicographical_compare(first1, last1, first2, last2)` over path
component iterators, run with a bound on the number of iterations; `none` when the bound is
used up or an assertion fails. -/
def lexicographical_compare : Nat → iterator → iterator → iterator → iterator → Option Bool
  | 0, _, _, _, _ => none
  | fuel + 1, first1, last1, first2, last2 =>
    if !(equal first1 last1) && !(equal first2 last2) then
      match dereference first1, dereference first2 with
      | some x, some y =>
        if str_lt x y then some true
        else if str_lt y x then some false
        else
          match increment first1, increment first2 with
          | some next1, some next2 => lexicographical_compare fuel next1 last1 next2 last2
          | _, _ => none
      | _, _ => none
    else some (equal first1 last1 && !(equal first2 last2))

end iterator

/-- The member `absolute(doc)`. -/
def absolute (p : basic_path) (doc : basic_compound_document) : Option Str :=
  doc.absolute_path p

/-- The member `leaf()`. -/
def leaf (p : basic_path) : Str := p.m_entry.name

/-- The member `branch(doc)`. -/
def branch (p : basic_path) (doc : basic_compound_document) : Option Str :=
  (doc.absolute_path p).map branch_of

/-- The member `begin(doc)`. -/
def begin (p : basic_path) (doc : basic_compound_document) : Option iterator :=
  (doc.absolute_path p).map iterator.of_string

/-- The member `end()`. -/
def end_ (_p : basic_path) : iterator := iterator.mk_default

/-- The member `operator<`, with the document handed to `begin`. -/
def lt (fuel : Nat) (doc : basic_compound_document) (p rhs : basic_path) : Option Bool :=
  match begin p doc, begin rhs doc with
  | some first1, some first2 =>
    iterator.lexicographical_compare fuel first1 (end_ p) first2 (end_ rhs)
  | _, _ => none

/-- The member `operator==`: `!(*this < rhs) && !(rhs < *this)`. -/
def eq (fuel : Nat) (doc : basic_compound_document) (p rhs : basic_path) : Option Bool :=
  match lt fuel doc p rhs with
  | none => none
  | some true => some false
  | some false => (lt fuel doc rhs p).map (fun r => !r)

/-- The member `operator!=`. -/
def ne (fuel : Nat) (doc : basic_compound_document) (p rhs : basic_path) : Option Bool :=
  (eq fuel doc p rhs).map (fun r => !r)

/-- The member `operator>`. -/
def gt (fuel : Nat) (doc : basic_compound_document) (p rhs : basic_path) : Option Bool :=
  lt fuel doc rhs p

/-- The member `operator<=`. -/
def le (fuel : Nat) (doc : basic_compound_document) (p rhs : basic_path) : Option Bool :=
  (lt fuel doc rhs p).map (fun r => !r)

/-- The member `operator>=`. -/
def ge (fuel : Nat) (doc : basic_compound_document) (p rhs : basic_path) : Option Bool :=
  (lt fuel doc p rhs).map (fun r => !r)

end basic_path

namespace basic_compound_document

/-- The class `basic_compound_document::iterator`. -/
structure iterator where
  m_parent : Option DirEntry
  m_paths : List basic_path
  m_pos : Nat
deriving DecidableEq, Repr

namespace iterator

/-- The constructor `iterator()`: the end iterator. -/
def mk_default : iterator := { m_parent := none, m_paths := [], m_pos := 0 }

/-- The constructor `iterator(storage, dir_iterator)`; `none` when `assert(storage)` fails. -/
def mk_from (storage : Option Storage) (dir_iterator : Bool) : Option iterator :=
  match storage with
  | none => none
  | some st =>
    let entries := if dir_iterator then st.listEntries else st.listAll
    let m_paths := entries.map basic_path.mk
    let m_parent := if dir_iterator then st.current_entry else st.root_entry
    some { m_parent := if m_paths.isEmpty then none else m_parent, m_paths := m_paths, m_pos := 0 }

/-- The member `dereference()`; `none` when `assert(m_paths.size() > m_pos)` fails. -/
def dereference (it : iterator) : Option basic_path :=
  if it.m_paths.length > it.m_pos then it.m_paths[it.m_pos]? else none

/-- The member `equal(rhs)`. -/
def equal (it rhs : iterator) : Bool :=
  it.m_pos == rhs.m_pos && ptr_eq it.m_parent rhs.m_parent

/-- The member `increment()`; `none` when `assert(m_pos < m_paths.size())` fails. -/
def increment (it : iterator) : Option iterator :=
  if it.m_pos < it.m_paths.length then
    let m_pos := it.m_pos + 1
    if m_pos = it.m_paths.length then
      some { m_parent := none, m_paths := [], m_pos := 0 }
    else some { it with m_pos := m_pos }
  else none

/-- The iterator after `n` applications of `operator++`. -/
def increment_n : Nat → iterator → Option iterator
  | 0, it => some it
  | n + 1, it => (increment_n n it).bind increment

end iterator

/-- The member `dir_begin()`. -/
def dir_begin (doc : basic_compound_document) : Option iterator :=
  iterator.mk_from doc.m_storage true

/-- The member `dir_end()`. -/
def dir_end (_doc : basic_compound_document) : iterator := iterator.mk_default

/-- The member `doc_begin()`. -/
def doc_begin (doc : basic_compound_document) : Option iterator :=
  iterator.mk_from doc.m_storage false

/-- The member `doc_end()`. -/
def doc_end (_doc : basic_compound_document) : iterator := iterator.mk_default

/-- The loop of `find_in_current_directory`, from the iterator `it`, run with a bound on the
number of iterations; `none` when the bound is used up or an assertion fails. -/
def find_in_current_directory_loop (doc : basic_compound_document) (path : Str) :
    Nat → iterator → Option iterator
  | 0, _ => none
  | fuel + 1, it =>
    if !(iterator.equal it (dir_end doc)) then
      match iterator.dereference it with
      | none => none
      | some p =>
        if basic_path.leaf p = path then some it
        else
          match iterator.increment it with
          | none => none
          | some next => find_in_current_directory_loop doc path fuel next
    else some it

/-- The member `find_in_current_directory(path)`. -/
def find_in_current_directory (fuel : Nat) (doc : basic_compound_document) (path : Str) :
    Option iterator :=
  (dir_begin doc).bind (find_in_current_directory_loop doc path fuel)

/-- The member `entry_from_string(name)`; `none` when `assert(m_storage)` fails, `some none`
when the provider returns `NULL`. -/
def entry_from_string (doc : basic_compound_document) (name : Str) : Option (Option DirEntry) :=
  doc.m_storage.map (fun storage => storage.getEntry name)

/-- The loop of `find_in_document`, from the iterator `it`, run with a bound on the number of
iterations; `none` when the bound is used up or an assertion fails. -/
def find_in_document_loop (doc : basic_compound_document) (path : Str) :
    Nat → iterator → Option iterator
  | 0, _ => none
  | fuel + 1, it =>
    if !(iterator.equal it (doc_end doc)) then
      match iterator.dereference it with
      | none => none
      | some p =>
        match basic_path.absolute p doc with
        | none => none
        | some name =>
          if name = path then some it
          else
            match iterator.increment it with
            | none => none
            | some next => find_in_document_loop doc path fuel next
    else some it

/-- The member `find_in_document(path)`. -/
def find_in_document (fuel : Nat) (doc : basic_compound_document) (path : Str) :
    Option iterator :=
  match entry_from_string doc path with
  | none => none
  | some none => some (doc_end doc)
  | some (some _) => (doc_begin doc).bind (find_in_document_loop doc path fuel)

end basic_compound_document

/-! ## Well-formed absolute names -/

/-- A path segment: non-empty and free of `'/'`. -/
def is_segment (n : Str) : Prop := n ≠ [] ∧ '/' ∉ n

/-- The string `"/" + n1 + "/" + n2 + ... + "/" + nk`. -/
def slashes : List Str → Str
  | [] => []
  | n :: ns => '/' :: n ++ slashes ns

/-- The well-formed absolute name with the segments `ns`: `"/"` for the root, and
`"/" + n1 + "/" + ... + "/" + nk` otherwise. -/
def absolute_name (ns : List Str) : Str :=
  match ns with
  | [] => ['/']
  | _ :: _ => slashes ns

/-- The strings `xs` joined with the separator `sep` between consecutive elements. -/
def join_with (sep : Str) : List Str → Str
  | [] => []
  | [x] => x
  | x :: y :: ys => x ++ sep ++ join_with sep (y :: ys)

namespace basic_path.iterator

/-- The begin position of the well-formed name with segments `ns`: at the root token. -/
def root_state (ns : List Str) : iterator :=
  { m_name := ['/'], m_full_path := absolute_name ns, m_pos := 0 }

/-- The position at the segment `n` of the name with segments `front ++ n :: back`. -/
def mid_state (front : List Str) (n : Str) (back : List Str) : iterator :=
  { m_name := n, m_full_path := slashes (front ++ n :: back),
    m_pos := (slashes front).length + 1 }

/-- The end position of the well-formed name with segments `ns`. -/
def end_state (ns : List Str) : iterator :=
  { m_name := [], m_full_path := absolute_name ns, m_pos := (absolute_name ns).length }

end basic_path.iterator

instance is_segment_decidable : DecidablePred is_segment :=
  fun n => inferInstanceAs (Decidable (n ≠ [] ∧ '/' ∉ n))

/-! ## A sample document

The root holds the directory `Macros`, which holds the file `VBA` of 128 bytes. -/

/-- The root entry of the sample document. -/
def sample_root : DirEntry :=
  { addr := 0, name := "Root Entry".toList, dir := true, file := false, root := true, size := 0 }

/-- The directory `/Macros` of the sample document. -/
def sample_macros : DirEntry :=
  { addr := 1, name := "Macros".toList, dir := true, file := false, root := false, size := 0 }

/-- The file `/Macros/VBA` of the sample document. -/
def sample_vba : DirEntry :=
  { addr := 2, name := "VBA".toList, dir := false, file := true, root := false, size := 128 }

/-- Name resolution in the sample document, relative to the directory `dir`. -/
def sample_resolve (dir : DirEntry) (name : Str) : Option DirEntry :=
  if name = "/".toList then some sample_root
  else if name = "/Macros".toList ∨ (dir.addr = 0 ∧ name = "Macros".toList) then
    some sample_macros
  else if name = "/Macros/VBA".toList ∨ (dir.addr = 1 ∧ name = "VBA".toList) then
    some sample_vba
  else none

/-- The listing of the directory `dir` of the sample document. -/
def sample_children (dir : DirEntry) : List DirEntry :=
  if dir.addr = 0 then [sample_macros]
  else if dir.addr = 1 then [sample_vba]
  else []

/-- The provider of the sample document, the root being the current directory. -/
def sample_storage : Storage :=
  { current_entry := some sample_root
    root_entry := some sample_root
    listEntries := sample_children sample_root
    listAll := [sample_macros, sample_vba]
    fullName := fun e =>
      if e.addr = 0 then "/".toList
      else if e.addr = 1 then "/Macros".toList
      else "/Macros/VBA".toList
    getEntry := sample_resolve sample_root
    parent := fun e =>
      if e.addr = 1 then some sample_root
      else if e.addr = 2 then some sample_macros
      else none
    children := sample_children
    resolve := sample_resolve
    stream := fun name _ =>
      if name = "/Macros/VBA".toList then
        some { content := List.replicate 128 (Char.ofNat 0), get_pos := 0, put_pos := 0,
               eof_bit := false, fail_bit := false }
      else none }

/-- The sample document. -/
def sample_doc : basic_compound_document := { m_storage := some sample_storage }

/-- The sample provider after the current directory has moved to `/Macros`: the entries of
the document are the same, the current entry and its listing differ. -/
def macros_current_storage : Storage :=
  { sample_storage with current_entry := some sample_macros, listEntries := [sample_vba] }

/-- The document over `macros_current_storage`. -/
def macros_current_doc : basic_compound_document := { m_storage := some macros_current_storage }

/-- The provider of a document that holds only its root. -/
def root_only_storage : Storage :=
  { current_entry := some sample_root
    root_entry := some sample_root
    listEntries := []
    listAll := []
    fullName := fun _ => "/".toList
    getEntry := fun name => if name = "/".toList then some sample_root else none }

/-- The document that holds only its root. -/
def root_only_doc : basic_compound_document := { m_storage := some root_only_storage }

/-! ## Directory and document iteration -/

namespace basic_compound_document.iterator

/-- The loop `for (; it != end; ++it) out.push_back(*it)` over a directory or document
iterator, run with a bound on the number of iterations; `none` when the bound is used up or
an assertion fails. -/
def collect : Nat → iterator → Option (List basic_path)
  | 0, _ => none
  | fuel + 1, it =>
    if equal it mk_default then some []
    else
      match dereference it, increment it with
      | some p, some next => (collect fuel next).map (fun rest => p :: rest)
      | _, _ => none

/-- The iterator states that arise by construction and increments over providers whose
`current_entry()` and `root_entry()` are not `NULL`. -/
inductive reachable : iterator → Prop
  | sentinel : reachable mk_default
  | constructed (st : Storage) (dir_iterator : Bool) (it : iterator) :
      st.current_entry ≠ none → st.root_entry ≠ none →
      mk_from (some st) dir_iterator = some it → reachable it
  | incremented (it next : iterator) :
      reachable it → increment it = some next → reachable next

end basic_compound_document.iterator

/-! ## Attributes, listings and navigation -/

namespace basic_path

/-- The member `entry_size()`. -/
def entry_size (p : basic_path) : Nat := p.m_entry.size

/-- The member `is_root()`. -/
def is_root (p : basic_path) : Bool := p.m_entry.root

/-- The member `is_directory()`. -/
def is_directory (p : basic_path) : Bool := p.m_entry.dir

/-- The member `is_file()`. -/
def is_file (p : basic_path) : Bool := p.m_entry.file

/-- The member `unnamed()`. -/
def unnamed (p : basic_path) : Bool := p.m_entry.name.isEmpty

end basic_path

/-- Modelled from the spec: `POLE::Storage::enterDirectory(directory)`, whose code is in the
POLE library and not among the sources. It moves the current directory to the named
subdirectory, and fails (returns false, no state change) if the name does not resolve to a
directory. -/
def Storage.enterDirectory (st : Storage) (directory : Str) : Bool × Storage :=
  match st.getEntry directory with
  | none => (false, st)
  | some e =>
    if e.dir then
      (true, { st with current_entry := some e, listEntries := st.children e,
                       getEntry := st.resolve e })
    else (false, st)

/-- Modelled from the spec: `POLE::Storage::leaveDirectory()`, whose code is in the POLE
library and not among the sources. It moves the current directory to its parent, and is a
no-op at the root. -/
def Storage.leaveDirectory (st : Storage) : Storage :=
  if ptr_eq st.current_entry st.root_entry then st
  else
    match st.current_entry with
    | none => st
    | some cur =>
      match st.parent cur with
      | none => st
      | some up =>
        { st with current_entry := some up, listEntries := st.children up,
                  getEntry := st.resolve up }

namespace basic_compound_document

/-- The member `exists(name)`; `none` when `assert(m_storage)` fails. -/
def exists_name (doc : basic_compound_document) (name : Str) : Option Bool :=
  (entry_from_string doc name).map (fun e => e.isSome)

/-- The member `exists(p)`. -/
def exists_path (_doc : basic_compound_document) (_p : basic_path) : Bool := true

/-- The member `is_directory(name)`. -/
def is_directory_name (doc : basic_compound_document) (name : Str) : Option Bool :=
  (entry_from_string doc name).map (fun e =>
    match e with
    | some e => e.dir
    | none => false)

/-- The member `is_directory(p)`. -/
def is_directory_path (_doc : basic_compound_document) (p : basic_path) : Bool :=
  p.is_directory

/-- The member `is_file(name)`. -/
def is_file_name (doc : basic_compound_document) (name : Str) : Option Bool :=
  (entry_from_string doc name).map (fun e =>
    match e with
    | some e => e.file
    | none => false)

/-- The member `is_file(p)`. -/
def is_file_path (_doc : basic_compound_document) (p : basic_path) : Bool := p.is_file

/-- The member `entry_size(name)`. -/
def entry_size_name (doc : basic_compound_document) (name : Str) : Option Nat :=
  (entry_from_string doc name).map (fun e =>
    match e with
    | some e => e.size
    | none => 0)

/-- The member `entry_size(p)`. -/
def entry_size_path (_doc : basic_compound_document) (p : basic_path) : Nat := p.entry_size

/-- The member `current_dir_relative()`; `none` when an assertion fails. -/
def current_dir_relative (doc : basic_compound_document) : Option Str :=
  match doc.m_storage with
  | none => none
  | some storage =>
    match storage.current_entry with
    | none => none
    | some e => some e.name

/-- The member `current_dir_absolute()`; `none` when an assertion fails. -/
def current_dir_absolute (doc : basic_compound_document) : Option Str :=
  match doc.m_storage with
  | none => none
  | some storage =>
    match storage.current_entry with
    | none => none
    | some e => doc.absolute_path (basic_path.mk e)

/-- The member `current_path()`; `none` when an assertion fails. -/
def current_path (doc : basic_compound_document) : Option basic_path :=
  match doc.m_storage with
  | none => none
  | some storage =>
    match storage.current_entry with
    | none => none
    | some e => some (basic_path.mk e)

/-- The loop `for (it = entries.begin(); it != entries.end(); ++it)
paths.push_back(path(*it))`. -/
def push_back_all : List DirEntry → List basic_path → List basic_path
  | [], paths => paths
  | e :: entries, paths => push_back_all entries (paths ++ [basic_path.mk e])

/-- The member `entries_in_current_dir(paths)`: the vector `paths` after the call; `none`
when `assert(m_storage)` fails. -/
def entries_in_current_dir (doc : basic_compound_document) (paths : List basic_path) :
    Option (List basic_path) :=
  doc.m_storage.map (fun storage => push_back_all storage.listEntries paths)

/-- The member `entries_in_document(paths)`: the vector `paths` after the call; `none` when
`assert(m_storage)` fails. -/
def entries_in_document (doc : basic_compound_document) (paths : List basic_path) :
    Option (List basic_path) :=
  doc.m_storage.map (fun storage => push_back_all storage.listAll paths)

/-- The member `enter_directory(directory)`: the result and the document after the call;
`none` when `assert(m_storage)` fails. -/
def enter_directory (doc : basic_compound_document) (directory : Str) :
    Option (Bool × basic_compound_document) :=
  doc.m_storage.map (fun storage =>
    ((storage.enterDirectory directory).1, { m_storage := some (storage.enterDirectory directory).2 }))

/-- The member `leave_directory()`: the document after the call; `none` when
`assert(m_storage)` fails. -/
def leave_directory (doc : basic_compound_document) : Option basic_compound_document :=
  doc.m_storage.map (fun storage => { m_storage := some storage.leaveDirectory })

end basic_compound_document

/-! ## Streams -/

/-- The directions `std::ios::beg`, `std::ios::cur` and `std::ios::end` of a seek. -/
inductive seekdir where
  | beg
  | cur
  | end_
deriving DecidableEq, Repr

namespace Stream

/-- Modelled from the spec: `POLE::Stream::size()`, the current byte length of the content
(the class `POLE::Stream` is in the POLE library and not among the sources). -/
def size (s : Stream) : Nat := s.content.length

/-- Modelled from the spec: `POLE::Stream::read(buf, n)`, missing with `POLE::Stream`. It
transfers up to `n` bytes at the get cursor and returns the count transferred and the bytes;
a short transfer sets the end-of-stream indicator. -/
def read (s : Stream) (n : Nat) : Nat × Str × Stream :=
  let data := (s.content.drop s.get_pos).take n
  (data.length, data,
    { s with get_pos := s.get_pos + data.length, eof_bit := decide (data.length < n) })

/-- Modelled from the spec: `POLE::Stream::write(buf, n)`, missing with `POLE::Stream`. It
transfers up to `n` bytes of `buf` at the put cursor, inside the current size (a stream is
not resized on overflow), and returns the count transferred; a short transfer sets the
failure indicator. -/
def write (s : Stream) (buf : Str) (n : Nat) : Nat × Stream :=
  let data := (buf.take n).take (s.content.length - s.put_pos)
  (data.length,
    { s with
      content := s.content.take s.put_pos ++ data ++ s.content.drop (s.put_pos + data.length)
      put_pos := s.put_pos + data.length
      fail_bit := decide (data.length < n) })

/-- Modelled from the spec: the position that a seek by `off` from `way` names, for a cursor
now at `pos` (part of `POLE::Stream`, missing from the sources). -/
def seek_target (s : Stream) (pos : Nat) (off : Int) (way : seekdir) : Nat :=
  match way with
  | seekdir.beg => Int.toNat off
  | seekdir.cur => Int.toNat (pos + off)
  | seekdir.end_ => Int.toNat (s.content.length + off)

/-- Modelled from the spec: `POLE::Stream::seekg(off, way)`, missing with `POLE::Stream`. It
positions the get cursor and leaves the put cursor alone. -/
def seekg (s : Stream) (off : Int) (way : seekdir) : Stream :=
  { s with get_pos := seek_target s s.get_pos off way }

/-- Modelled from the spec: `POLE::Stream::seekp(off, way)`, missing with `POLE::Stream`. It
positions the put cursor and leaves the get cursor alone. -/
def seekp (s : Stream) (off : Int) (way : seekdir) : Stream :=
  { s with put_pos := seek_target s s.put_pos off way }

/-- Modelled from the spec: `POLE::Stream::seek(off, way, mode)`, missing with
`POLE::Stream`. It positions the get cursor when `mode` has `std::ios::in` and the put cursor
when it has `std::ios::out`, and returns the position reached. -/
def seek (s : Stream) (off : Int) (way : seekdir) (mode_in mode_out : Bool) : Nat × Stream :=
  let s1 := if mode_in then seekg s off way else s
  let s2 := if mode_out then seekp s1 off way else s1
  (if mode_out then s2.put_pos else s2.get_pos, s2)

/-- Modelled from the spec: `POLE::Stream::reserve(size)`, missing with `POLE::Stream`. It
grows the content to `size` bytes when that is more than it has, the new bytes being
unspecified (`junk`), and does nothing otherwise; `ok` is whether the provider manages to
grow, which the spec leaves open. -/
def reserve (s : Stream) (size : Nat) (junk : Nat → Char) (ok : Bool) : Bool × Stream :=
  if size ≤ s.content.length then (true, s)
  else if ok then
    let fresh := (List.range (size - s.content.length)).map (fun i => junk (s.content.length + i))
    (true, { s with content := s.content ++ fresh })
  else (false, s)

/-- Modelled from the spec: `POLE::Stream::resize(size, val)`, missing with `POLE::Stream`.
It sets the content length to exactly `size`, truncating on shrink and filling new bytes with
`val`; `ok` is whether the provider succeeds, which the spec leaves open. -/
def resize (s : Stream) (size : Nat) (val : Char) (ok : Bool) : Bool × Stream :=
  if ok then
    let fresh := List.replicate (size - s.content.length) val
    (true, { s with content := s.content.take size ++ fresh })
  else (false, s)

end Stream

/-- The class `ole::stream`: the reference `m_stream` to the cursor of the provider. -/
structure stream where
  m_stream : Stream
deriving DecidableEq, Repr

namespace stream

/-- The member `fail()`. -/
def fail (s : stream) : Bool := s.m_stream.fail_bit

/-- The member `eof()`. -/
def eof (s : stream) : Bool := s.m_stream.eof_bit

/-- The member `tellg()`. -/
def tellg (s : stream) : Nat := s.m_stream.get_pos

/-- The member `tellp()`. -/
def tellp (s : stream) : Nat := s.m_stream.put_pos

/-- The member `size()`. -/
def size (s : stream) : Nat := s.m_stream.size

/-- The member `read(buf, n)`: the count, the bytes stored in `buf`, and the stream after
the call. -/
def read (s : stream) (n : Nat) : Nat × Str × stream :=
  ((s.m_stream.read n).1, (s.m_stream.read n).2.1, { m_stream := (s.m_stream.read n).2.2 })

/-- The member `write(buf, n)`: the count and the stream after the call. -/
def write (s : stream) (buf : Str) (n : Nat) : Nat × stream :=
  ((s.m_stream.write buf n).1, { m_stream := (s.m_stream.write buf n).2 })

/-- The member `seek(off, way, mode)`. -/
def seek (s : stream) (off : Int) (way : seekdir) (mode_in mode_out : Bool) : Nat × stream :=
  ((s.m_stream.seek off way mode_in mode_out).1,
    { m_stream := (s.m_stream.seek off way mode_in mode_out).2 })

/-- The member `seekg(off, way)`. -/
def seekg (s : stream) (off : Int) (way : seekdir) : stream :=
  { m_stream := s.m_stream.seekg off way }

/-- The member `seekp(off, way)`. -/
def seekp (s : stream) (off : Int) (way : seekdir) : stream :=
  { m_stream := s.m_stream.seekp off way }

/-- The member `reserve(size)`: the result and the stream after the call. -/
def reserve (s : stream) (size : Nat) (junk : Nat → Char) (ok : Bool) : Bool × stream :=
  ((s.m_stream.reserve size junk ok).1, { m_stream := (s.m_stream.reserve size junk ok).2 })

/-- The member `resize(size, val)`: the result and the stream after the call. -/
def resize (s : stream) (size : Nat) (val : Char) (ok : Bool) : Bool × stream :=
  ((s.m_stream.resize size val ok).1, { m_stream := (s.m_stream.resize size val ok).2 })

end stream

namespace basic_compound_document

/-- The member `stream(name, reuse)`: `some none` is the empty `auto_ptr`; `none` when
`assert(m_storage)` fails. -/
def stream_name (doc : basic_compound_document) (name : Str) (reuse : Bool) :
    Option (Option stream) :=
  doc.m_storage.map (fun storage => (storage.stream name reuse).map stream.mk)

/-- The member `stream(p, reuse)`. -/
def stream_path (doc : basic_compound_document) (p : basic_path) (reuse : Bool) :
    Option (Option stream) :=
  match doc.m_storage, basic_path.absolute p doc with
  | some storage, some name => some ((storage.stream name reuse).map stream.mk)
  | _, _ => none

end basic_compound_document

/-- A stream over an entry without content. -/
def empty_stream : stream :=
  { m_stream := { content := [], get_pos := 0, put_pos := 0, eof_bit := false,
                  fail_bit := false } }

/-! ## Construction and validity -/

namespace basic_compound_document

/-- The constructor `basic_compound_document(filename, mode, create)`; `open_storage` is the
constructor `POLE::Storage(filename, mode, create)` of the provider. -/
def of_filename (open_storage : Str → Nat → Bool → Storage) (filename : Str) (mode : Nat)
    (create : Bool) : basic_compound_document :=
  if filename.isEmpty then { m_storage := none }
  else { m_storage := some (open_storage filename mode create) }

/-- The member `good()`. -/
def good (doc : basic_compound_document) : Bool :=
  match doc.m_storage with
  | none => false
  | some storage => storage.result == StorageResult.Ok

end basic_compound_document

/-- The sample provider with the whole-document listing in another order, so that the two
listings differ at their first entry. -/
def reordered_storage : Storage :=
  { sample_storage with listAll := [sample_vba, sample_macros] }

/-- The document over `reordered_storage`. -/
def reordered_doc : basic_compound_document := { m_storage := some reordered_storage }

/-! ## Positions of a path component iterator -/

namespace basic_path.iterator

/-- The positions reached from `begin` over the string `s` by increments and decrements, each
applied where its assertion holds. -/
inductive visited (s : Str) : iterator → Prop
  | start : visited s (of_string s)
  | forward (it next : iterator) : visited s it → increment it = some next → visited s next
  | backward (it prev : iterator) : visited s it → decrement it = some prev → visited s prev

/-- The shape of a position reached by increments: it starts a token (at the start of the
path or right after a slash), its component is the substring at the position, free of
slashes unless it is the root token, and ends at the end of the path or before a slash. -/
def at_token (it : iterator) : Prop :=
  (it.m_pos = 0 ∨ char_at it.m_full_path (it.m_pos - 1) = '/') ∧
  ('/' ∉ it.m_name ∨ (it.m_pos = 0 ∧ it.m_name = ['/'])) ∧
  (it.m_pos + it.m_name.length = it.m_full_path.length ∨
    char_at it.m_full_path (it.m_pos + it.m_name.length) = '/' ∨
    (it.m_pos = 0 ∧ it.m_name = ['/'])) ∧
  it.m_name = substr it.m_full_path it.m_pos it.m_name.length ∧
  it.m_pos + it.m_name.length ≤ it.m_full_path.length

end basic_path.iterator

/-! ## Orders and the iterator invariant -/

/-- The lexicographic order on sequences over the order `lt`: the first sequence is smaller
when it is a proper prefix of the second, or is smaller at the first place where they differ. -/
def lex_lt {α : Type} (lt : α → α → Bool) : List α → List α → Bool
  | [], [] => false
  | [], _ :: _ => true
  | _ :: _, [] => false
  | a :: as, b :: bs =>
    if lt a b then true
    else if lt b a then false
    else lex_lt lt as bs

/-- The order of `unsigned char` values, by which `std::string` compares characters. -/
def char_lt (a b : Char) : Bool := decide (a.toNat < b.toNat)

/-- The invariant of a path component iterator: the cached component lies inside the path,
and away from the end it is non-empty unless the position is at a slash. -/
def basic_path.iterator.valid (it : basic_path.iterator) : Prop :=
  it.m_pos + it.m_name.length ≤ it.m_full_path.length ∧
  (it.m_pos < it.m_full_path.length →
    it.m_name ≠ [] ∨ char_at it.m_full_path it.m_pos = '/')

/-! ## Strings -/

open basic_path basic_path.iterator

theorem char_at_append_cons (pre : Str) (c : Char) (rest : Str) :
    char_at (pre ++ c :: rest) pre.length = c := by
  induction pre with
  | nil => rfl
  | cons x xs ih => simpa [char_at] using ih

theorem substr_append (pre m rest : Str) :
    substr (pre ++ m ++ rest) pre.length m.length = m := by
  simp [substr, List.append_assoc]

theorem first_index_none (c : Char) (m : Str) (h : c ∉ m) : first_index c m = none := by
  induction m with
  | nil => rfl
  | cons x xs ih =>
    simp only [List.mem_cons, not_or] at h
    have hx : x ≠ c := fun e => h.1 e.symm
    simp [first_index, hx, ih h.2]

theorem first_index_append_cons (c : Char) (m rest : Str) (h : c ∉ m) :
    first_index c (m ++ c :: rest) = some m.length := by
  induction m with
  | nil => simp [first_index]
  | cons x xs ih =>
    simp only [List.mem_cons, not_or] at h
    have hx : x ≠ c := fun e => h.1 e.symm
    simp [first_index, hx, ih h.2]

theorem last_index_none (c : Char) (m : Str) (h : c ∉ m) : last_index c m = none := by
  induction m with
  | nil => rfl
  | cons x xs ih =>
    simp only [List.mem_cons, not_or] at h
    have hx : x ≠ c := fun e => h.1 e.symm
    simp [last_index, hx, ih h.2]

theorem last_index_append_cons (c : Char) (pre m : Str) (h : c ∉ m) :
    last_index c (pre ++ c :: m) = some pre.length := by
  induction pre with
  | nil => simp [last_index, last_index_none c m h]
  | cons x xs ih => simp [last_index, ih]

theorem find_none (pre m : Str) (h : '/' ∉ m) : find (pre ++ m) '/' pre.length = none := by
  simp [find, first_index_none _ m h]

theorem find_some (pre m rest : Str) (h : '/' ∉ m) :
    find (pre ++ m ++ '/' :: rest) '/' pre.length = some (pre.length + m.length) := by
  simp [find, List.append_assoc, first_index_append_cons _ m rest h, Nat.add_comm]

theorem find_last_of_some (pre m rest : Str) (h : '/' ∉ m) :
    find_last_of (pre ++ '/' :: m ++ rest) '/' (pre.length + m.length) = some pre.length := by
  have e : (pre ++ '/' :: m ++ rest).take (pre.length + m.length + 1) = pre ++ '/' :: m := by
    have : pre.length + m.length + 1 = (pre ++ '/' :: m).length := by simp; omega
    rw [this, List.take_left']
    rfl
  simp only [find_last_of, e]
  exact last_index_append_cons _ pre m h

theorem is_segment_last (n : Str) (h : is_segment n) :
    ∃ n' c, n = n' ++ [c] ∧ c ≠ '/' := by
  rcases List.eq_nil_or_concat n with e | ⟨n', c, e⟩
  · exact absurd e h.1
  · rw [List.concat_eq_append] at e
    refine ⟨n', c, e, ?_⟩
    intro hc
    apply h.2
    rw [e, hc]
    simp

theorem is_segment_head (n : Str) (h : is_segment n) :
    ∃ c n', n = c :: n' ∧ c ≠ '/' := by
  cases n with
  | nil => exact absurd rfl h.1
  | cons c n' =>
    refine ⟨c, n', rfl, ?_⟩
    intro hc
    apply h.2
    rw [hc]
    simp

/-- The last character of a segment `n` inside `pre ++ n ++ rest` is not a slash. -/
theorem char_at_segment_last (pre n rest : Str) (h : is_segment n) :
    char_at (pre ++ n ++ rest) (pre.length + n.length - 1) ≠ '/' := by
  obtain ⟨n', c, e, hc⟩ := is_segment_last n h
  subst e
  have h1 := char_at_append_cons (pre ++ n') c rest
  have e1 : pre ++ (n' ++ [c]) ++ rest = pre ++ n' ++ c :: rest := by simp
  have e2 : pre.length + (n' ++ [c]).length - 1 = (pre ++ n').length := by simp
  rw [e1, e2, h1]
  exact hc

theorem leaf_pos_segment (pre n rest : Str) (h : is_segment n) :
    leaf_pos (pre ++ '/' :: n ++ rest) (pre.length + 1 + n.length) = pre.length + 1 := by
  have h1 : char_at (pre ++ '/' :: n ++ rest) (pre.length + n.length) ≠ '/' := by
    have := char_at_segment_last (pre ++ ['/']) n rest h
    simpa [List.append_assoc] using this
  have h2 : pre.length + 1 + n.length ≠ 0 := by omega
  have h3 := find_last_of_some pre n rest h.2
  have e3 : pre.length + 1 + n.length - 1 = pre.length + n.length := by omega
  simp only [leaf_pos, h2, if_false, h1, and_false, e3, h3] 

theorem branch_of_append (b n : Str) (h : is_segment n) :
    branch_of (b ++ '/' :: n) = if b = [] then ['/'] else b := by
  have hl := leaf_pos_segment b n [] h
  simp only [List.append_nil] at hl
  have hlen : (b ++ '/' :: n).length = b.length + 1 + n.length := by simp; omega
  have hc : char_at (b ++ '/' :: n) (b.length + 1 - 1) = '/' := by
    simpa using char_at_append_cons b '/' n
  simp only [branch_of, hlen, hl, hc]
  by_cases hb : b = []
  · subst hb
    simp [substr]
  · have : b.length ≠ 0 := by simpa using hb
    simp [substr, hb, this]

/-! ## Single steps of the path component iterator -/

theorem slashes_append (a b : List Str) : slashes (a ++ b) = slashes a ++ slashes b := by
  induction a with
  | nil => rfl
  | cons x xs ih => simp [slashes, ih]

theorem slashes_shape (ns : List Str) : slashes ns = [] ∨ ∃ r, slashes ns = '/' :: r := by
  cases ns with
  | nil => exact Or.inl rfl
  | cons n ns => exact Or.inr ⟨_, rfl⟩

/-- The end of the token that starts right after `pre`: the next slash, or the length. -/
theorem find_token_end (pre m rest : Str) (hm : '/' ∉ m)
    (hrest : rest = [] ∨ ∃ r, rest = '/' :: r) :
    (match find (pre ++ m ++ rest) '/' pre.length with
      | none => (pre ++ m ++ rest).length
      | some e => e) = pre.length + m.length := by
  rcases hrest with e | ⟨r, e⟩
  · subst e
    rw [List.append_nil, find_none pre m hm]
    simp
  · subst e
    rw [find_some pre m r hm]

/-- The result of `increment` away from the end, from its two intermediate values. -/
theorem increment_eq_of (it : iterator) (p e : Nat)
    (h1 : it.m_pos < it.m_full_path.length)
    (h2 : it.m_pos + it.m_name.length ≠ it.m_full_path.length)
    (hp : (if char_at it.m_full_path (it.m_pos + it.m_name.length) = '/'
            then it.m_pos + it.m_name.length + 1 else it.m_pos + it.m_name.length) = p)
    (he : (match find it.m_full_path '/' p with
            | none => it.m_full_path.length
            | some e => e) = e) :
    increment it =
      some { m_name := substr it.m_full_path p (e - p), m_full_path := it.m_full_path,
             m_pos := p } := by
  subst hp
  subst he
  unfold increment
  rw [if_pos h1]
  simp only []
  rw [if_neg h2]

/-- The result of `decrement`, from its two intermediate values. -/
theorem decrement_eq_of (it : iterator) (ep lp : Nat) (h0 : it.m_pos ≠ 0)
    (hep : (if char_at it.m_full_path (it.m_pos - 1) = '/' ∧ it.m_pos ≠ 1
            then it.m_pos - 1 else it.m_pos) = ep)
    (hlp : leaf_pos it.m_full_path ep = lp) :
    decrement it =
      some { m_name := substr it.m_full_path lp (ep - lp), m_full_path := it.m_full_path,
             m_pos := lp } := by
  subst hep
  subst hlp
  unfold decrement
  rw [if_pos h0]

theorem increment_step (pre n m rest : Str) (hm : '/' ∉ m)
    (hrest : rest = [] ∨ ∃ r, rest = '/' :: r) :
    increment { m_name := n, m_full_path := pre ++ n ++ '/' :: m ++ rest, m_pos := pre.length } =
      some { m_name := m, m_full_path := pre ++ n ++ '/' :: m ++ rest,
             m_pos := pre.length + n.length + 1 } := by
  have e : pre ++ n ++ '/' :: m ++ rest = (pre ++ n ++ ['/']) ++ m ++ rest := by simp
  have e2 : (pre ++ n ++ ['/']).length = pre.length + n.length + 1 := by
    rw [List.length_append, List.length_append]; rfl
  have hlen : (pre ++ n ++ '/' :: m ++ rest).length =
      pre.length + n.length + 1 + m.length + rest.length := by
    simp only [List.length_append, List.length_cons]; omega
  have h3 : char_at (pre ++ n ++ '/' :: m ++ rest) (pre.length + n.length) = '/' := by
    have e1 : pre ++ n ++ '/' :: m ++ rest = (pre ++ n) ++ '/' :: (m ++ rest) := by simp
    rw [e1, ← List.length_append]
    exact char_at_append_cons (pre ++ n) '/' (m ++ rest)
  have h4 := find_token_end (pre ++ n ++ ['/']) m rest hm hrest
  have h5 := substr_append (pre ++ n ++ ['/']) m rest
  rw [← e, e2] at h4 h5
  have key := increment_eq_of
    { m_name := n, m_full_path := pre ++ n ++ '/' :: m ++ rest, m_pos := pre.length }
    (pre.length + n.length + 1) (pre.length + n.length + 1 + m.length)
    (by show pre.length < _; rw [hlen]; omega)
    (by show pre.length + n.length ≠ _; rw [hlen]; omega)
    (by show (if char_at _ (pre.length + n.length) = '/' then _ else _) = _; rw [if_pos h3])
    h4
  rw [key]
  have e3 : pre.length + n.length + 1 + m.length - (pre.length + n.length + 1) = m.length := by
    omega
  show some _ = some _
  rw [e3, h5]

theorem increment_root_step (m rest : Str) (hm : is_segment m)
    (hrest : rest = [] ∨ ∃ r, rest = '/' :: r) :
    increment { m_name := ['/'], m_full_path := '/' :: m ++ rest, m_pos := 0 } =
      some { m_name := m, m_full_path := '/' :: m ++ rest, m_pos := 1 } := by
  obtain ⟨c, m', em, hc⟩ := is_segment_head m hm
  have hlen : ('/' :: m ++ rest).length = 1 + m.length + rest.length := by
    simp only [List.length_append, List.length_cons]; omega
  have hmlen : 0 < m.length := List.length_pos.mpr hm.1
  have h3 : char_at ('/' :: m ++ rest) 1 ≠ '/' := by
    subst em; simpa [char_at] using hc
  have h4 := find_token_end ['/'] m rest hm.2 hrest
  have h5 := substr_append ['/'] m rest
  have e : ['/'] ++ m ++ rest = '/' :: m ++ rest := rfl
  have e2 : ['/'].length = 1 := rfl
  rw [e, e2] at h4 h5
  have key := increment_eq_of
    { m_name := ['/'], m_full_path := '/' :: m ++ rest, m_pos := 0 }
    1 (1 + m.length)
    (by show 0 < _; rw [hlen]; omega)
    (by show 0 + 1 ≠ _; rw [hlen]; omega)
    (by simp only [List.length_singleton, Nat.zero_add]; rw [if_neg h3])
    h4
  rw [key]
  have e3 : 1 + m.length - 1 = m.length := by omega
  show some _ = some _
  rw [e3, h5]

theorem increment_last (pre n : Str) (hn : n ≠ []) :
    increment { m_name := n, m_full_path := pre ++ n, m_pos := pre.length } =
      some { m_name := [], m_full_path := pre ++ n, m_pos := (pre ++ n).length } := by
  have h1 : pre.length < (pre ++ n).length := by
    have : 0 < n.length := List.length_pos.mpr hn
    rw [List.length_append]; omega
  unfold increment
  rw [if_pos h1]
  simp only []
  rw [if_pos (List.length_append pre n).symm, List.length_append]

theorem decrement_step (nm pre m rest : Str) (hm : is_segment m) :
    decrement { m_name := nm, m_full_path := pre ++ '/' :: m ++ '/' :: rest,
                m_pos := pre.length + 1 + m.length + 1 } =
      some { m_name := m, m_full_path := pre ++ '/' :: m ++ '/' :: rest,
             m_pos := pre.length + 1 } := by
  have h1 : char_at (pre ++ '/' :: m ++ '/' :: rest) (pre.length + 1 + m.length) = '/' := by
    have := char_at_append_cons (pre ++ '/' :: m) '/' rest
    have e1 : (pre ++ '/' :: m).length = pre.length + 1 + m.length := by
      simp only [List.length_append, List.length_cons]; omega
    rw [e1] at this
    exact this
  have h4 := leaf_pos_segment pre m ('/' :: rest) hm
  have h5 := substr_append (pre ++ ['/']) m ('/' :: rest)
  have e : pre ++ ['/'] ++ m ++ '/' :: rest = pre ++ '/' :: m ++ '/' :: rest := by simp
  have e2 : (pre ++ ['/']).length = pre.length + 1 := by simp
  rw [e, e2] at h5
  have key := decrement_eq_of
    { m_name := nm, m_full_path := pre ++ '/' :: m ++ '/' :: rest,
      m_pos := pre.length + 1 + m.length + 1 }
    (pre.length + 1 + m.length) (pre.length + 1)
    (by show pre.length + 1 + m.length + 1 ≠ 0; omega)
    (by
      show (if char_at _ (pre.length + 1 + m.length + 1 - 1) = '/' ∧
        pre.length + 1 + m.length + 1 ≠ 1 then _ else _) = _
      rw [Nat.add_sub_cancel, if_pos ⟨h1, by omega⟩])
    h4
  rw [key]
  have e3 : pre.length + 1 + m.length - (pre.length + 1) = m.length := by omega
  show some _ = some _
  rw [e3, h5]

theorem decrement_from_end (nm pre m : Str) (hm : is_segment m) :
    decrement { m_name := nm, m_full_path := pre ++ '/' :: m,
                m_pos := pre.length + 1 + m.length } =
      some { m_name := m, m_full_path := pre ++ '/' :: m, m_pos := pre.length + 1 } := by
  have h1 : char_at (pre ++ '/' :: m) (pre.length + 1 + m.length - 1) ≠ '/' := by
    have := char_at_segment_last (pre ++ ['/']) m [] hm
    simpa [List.append_assoc] using this
  have h4 := leaf_pos_segment pre m [] hm
  have h5 := substr_append (pre ++ ['/']) m []
  have e : pre ++ ['/'] ++ m ++ [] = pre ++ '/' :: m := by simp
  have e2 : (pre ++ ['/']).length = pre.length + 1 := by simp
  rw [e, e2] at h5
  rw [List.append_nil] at h4
  have key := decrement_eq_of
    { m_name := nm, m_full_path := pre ++ '/' :: m, m_pos := pre.length + 1 + m.length }
    (pre.length + 1 + m.length) (pre.length + 1)
    (by show pre.length + 1 + m.length ≠ 0; omega)
    (by
      show (if char_at _ (pre.length + 1 + m.length - 1) = '/' ∧
        pre.length + 1 + m.length ≠ 1 then _ else _) = _
      rw [if_neg (fun h => h1 h.1)])
    h4
  rw [key]
  have e3 : pre.length + 1 + m.length - (pre.length + 1) = m.length := by omega
  show some _ = some _
  rw [e3, h5]

theorem decrement_to_root (nm rest : Str) :
    decrement { m_name := nm, m_full_path := '/' :: rest, m_pos := 1 } =
      some { m_name := ['/'], m_full_path := '/' :: rest, m_pos := 0 } := by
  simp [decrement, leaf_pos, char_at, substr]

/-! ## Steps between the positions of a well-formed name -/

theorem slashes_length_snoc (front : List Str) (n : Str) :
    (slashes (front ++ [n])).length = (slashes front).length + 1 + n.length := by
  rw [slashes_append]
  simp only [slashes, List.append_nil, List.length_append, List.length_cons]
  omega

theorem slashes_split (front : List Str) (n : Str) (back : List Str) :
    slashes (front ++ n :: back) = slashes front ++ '/' :: n ++ slashes back := by
  rw [slashes_append]
  simp [slashes]

theorem of_string_absolute_name (ns : List Str) :
    of_string (absolute_name ns) = root_state ns := by
  cases ns with
  | nil => rfl
  | cons n ns => simp [of_string, root_state, absolute_name, slashes, first_name]

theorem increment_root_nil : increment (root_state []) = some (end_state []) := by
  decide

theorem increment_root_cons (n : Str) (back : List Str) (hn : is_segment n) :
    increment (root_state (n :: back)) = some (mid_state [] n back) := by
  have := increment_root_step n (slashes back) hn (slashes_shape back)
  simpa [root_state, mid_state, absolute_name, slashes] using this

theorem increment_mid_cons (front : List Str) (n m : Str) (back : List Str)
    (hm : is_segment m) :
    increment (mid_state front n (m :: back)) = some (mid_state (front ++ [n]) m back) := by
  have key := increment_step (slashes front ++ ['/']) n m (slashes back) hm.2
    (slashes_shape back)
  have e1 : slashes (front ++ n :: m :: back) =
      slashes front ++ ['/'] ++ n ++ '/' :: m ++ slashes back := by
    rw [slashes_split]; simp [slashes]
  have e2 : slashes (front ++ [n] ++ m :: back) =
      slashes front ++ ['/'] ++ n ++ '/' :: m ++ slashes back := by
    rw [List.append_assoc]; exact e1
  have e3 : (slashes front ++ ['/']).length = (slashes front).length + 1 := by simp
  have e4 : (slashes (front ++ [n])).length + 1 = (slashes front).length + 1 + n.length + 1 := by
    rw [slashes_length_snoc]
  unfold mid_state
  rw [e1, e2, e4, ← e3]
  exact key

theorem increment_mid_nil (front : List Str) (n : Str) (hn : is_segment n) :
    increment (mid_state front n []) = some (end_state (front ++ [n])) := by
  have key := increment_last (slashes front ++ ['/']) n hn.1
  have e1 : slashes (front ++ [n]) = slashes front ++ ['/'] ++ n := by
    rw [slashes_split]; simp [slashes]
  have e2 : absolute_name (front ++ [n]) = slashes (front ++ [n]) := by
    cases front <;> rfl
  have e3 : (slashes front ++ ['/']).length = (slashes front).length + 1 := by simp
  unfold mid_state end_state
  rw [e2, e1, ← e3]
  exact key

theorem increment_end (ns : List Str) : increment (end_state ns) = none := by
  simp [increment, end_state]

theorem decrement_end_nil : decrement (end_state []) = some (root_state []) := by
  decide

theorem decrement_end_snoc (front : List Str) (n : Str) (hn : is_segment n) :
    decrement (end_state (front ++ [n])) = some (mid_state front n []) := by
  have key := decrement_from_end [] (slashes front) n hn
  have e1 : slashes (front ++ [n]) = slashes front ++ '/' :: n := by
    rw [slashes_split]; simp [slashes]
  have e2 : absolute_name (front ++ [n]) = slashes (front ++ [n]) := by
    cases front <;> rfl
  have e3 : (slashes front ++ '/' :: n).length = (slashes front).length + 1 + n.length := by
    simp only [List.length_append, List.length_cons]; omega
  unfold mid_state end_state
  rw [e2, e1, e3]
  exact key

theorem decrement_mid_nil (n : Str) (back : List Str) :
    decrement (mid_state [] n back) = some (root_state (n :: back)) := by
  have := decrement_to_root n (n ++ slashes back)
  simpa [root_state, mid_state, absolute_name, slashes] using this

theorem decrement_mid_snoc (front : List Str) (m n : Str) (back : List Str)
    (hm : is_segment m) :
    decrement (mid_state (front ++ [m]) n back) = some (mid_state front m (n :: back)) := by
  have key := decrement_step n (slashes front) m (n ++ slashes back) hm
  have e1 : slashes (front ++ m :: n :: back) =
      slashes front ++ '/' :: m ++ '/' :: (n ++ slashes back) := by
    rw [slashes_split]; simp [slashes]
  have e2 : slashes (front ++ [m] ++ n :: back) =
      slashes front ++ '/' :: m ++ '/' :: (n ++ slashes back) := by
    rw [List.append_assoc]; exact e1
  have e4 : (slashes (front ++ [m])).length + 1 = (slashes front).length + 1 + m.length + 1 := by
    rw [slashes_length_snoc]
  unfold mid_state
  rw [e1, e2, e4]
  exact key

/-! ## The positions reached from the begin position of a well-formed name -/

theorem equal_mk_default (it : iterator) :
    equal it mk_default = decide (it.m_pos = it.m_full_path.length) := by
  rw [Bool.eq_iff_iff]
  simp only [equal, mk_default, Bool.or_eq_true, Bool.and_eq_true, beq_iff_eq,
    decide_eq_true_eq, List.length_nil]
  constructor
  · rintro (⟨a, b⟩ | ⟨c, _⟩)
    · rw [a, b]; rfl
    · exact c
  · intro c
    exact Or.inr ⟨c, trivial⟩

theorem mid_state_pos_lt (front : List Str) (n : Str) (back : List Str) (hn : n ≠ []) :
    (mid_state front n back).m_pos < (mid_state front n back).m_full_path.length := by
  have : 0 < n.length := List.length_pos.mpr hn
  show (slashes front).length + 1 < (slashes (front ++ n :: back)).length
  rw [slashes_split]
  simp only [List.length_append, List.length_cons]
  omega

theorem root_state_pos_lt (ns : List Str) :
    (root_state ns).m_pos < (root_state ns).m_full_path.length := by
  show 0 < (absolute_name ns).length
  cases ns with
  | nil => decide
  | cons n ns => simp [absolute_name, slashes]

theorem absolute_name_snoc (front : List Str) (n : Str) :
    absolute_name (front ++ [n]) = slashes (front ++ [n]) := by
  cases front <;> rfl

theorem absolute_name_split (front : List Str) (n : Str) (back : List Str) :
    absolute_name (front ++ n :: back) = slashes (front ++ n :: back) := by
  cases front <;> rfl

theorem increment_n_succ (j : Nat) (it : iterator) :
    increment_n (j + 1) it = (increment_n j it).bind increment := rfl

theorem increment_n_mid (front : List Str) :
    ∀ (n : Str) (back : List Str), (∀ m ∈ front ++ n :: back, is_segment m) →
      increment_n (front.length + 1) (root_state (front ++ n :: back)) =
        some (mid_state front n back) := by
  induction front using List.reverseRecOn with
  | nil =>
    intro n back h
    have hn : is_segment n := h n (by simp)
    show (some (root_state (n :: back))).bind increment = _
    exact increment_root_cons n back hn
  | append_singleton f m ih =>
    intro n back h
    have e : f ++ [m] ++ n :: back = f ++ m :: n :: back := by simp
    have hn : is_segment n := h n (by simp)
    have ih2 := ih m (n :: back) (by rw [← e]; exact h)
    have e2 : (f ++ [m]).length + 1 = (f.length + 1) + 1 := by simp
    rw [e2, increment_n_succ, e, ih2]
    show increment (mid_state f m (n :: back)) = _
    rw [increment_mid_cons f m n back hn]

theorem increment_n_end (ns : List Str) (h : ∀ m ∈ ns, is_segment m) :
    increment_n (ns.length + 1) (root_state ns) = some (end_state ns) := by
  rcases List.eq_nil_or_concat ns with e | ⟨f, n, e⟩
  · subst e
    exact increment_root_nil
  · rw [List.concat_eq_append] at e
    subst e
    have hn : is_segment n := h n (by simp)
    have h1 := increment_n_mid f n [] h
    have e2 : (f ++ [n]).length + 1 = (f.length + 1) + 1 := by simp
    rw [e2, increment_n_succ, h1]
    exact increment_mid_nil f n hn

theorem increment_n_past (ns : List Str) (h : ∀ m ∈ ns, is_segment m) (d : Nat) :
    increment_n (ns.length + 2 + d) (root_state ns) = none := by
  induction d with
  | zero =>
    show (increment_n (ns.length + 1) (root_state ns)).bind increment = none
    rw [increment_n_end ns h]
    exact increment_end ns
  | succ d ih =>
    show (increment_n (ns.length + 2 + d) (root_state ns)).bind increment = none
    rw [ih]
    rfl

theorem segments_split (ns : List Str) (i : Nat) (hi : i < ns.length) :
    ns = ns.take i ++ ns[i] :: ns.drop (i + 1) ∧ (ns.take i).length = i := by
  constructor
  · rw [← List.drop_eq_getElem_cons hi, List.take_append_drop]
  · rw [List.length_take]
    omega

/-- Every position reached from the begin position by increments is the root position, a
position at a segment, or the end position. -/
theorem reached_cases (ns : List Str) (h : ∀ m ∈ ns, is_segment m) (j : Nat) (it : iterator)
    (hr : increment_n j (root_state ns) = some it) :
    (j = 0 ∧ it = root_state ns) ∨
    (∃ front n back, ns = front ++ n :: back ∧ j = front.length + 1 ∧
      it = mid_state front n back) ∨
    (j = ns.length + 1 ∧ it = end_state ns) := by
  rcases Nat.lt_trichotomy j (ns.length + 1) with hlt | heq | hgt
  · cases j with
    | zero =>
      left
      refine ⟨rfl, ?_⟩
      have : some (root_state ns) = some it := hr
      exact (Option.some.inj this).symm
    | succ i =>
      right; left
      have hi : i < ns.length := by omega
      obtain ⟨e, hl⟩ := segments_split ns i hi
      refine ⟨ns.take i, ns[i], ns.drop (i + 1), e, by rw [hl], ?_⟩
      have h1 := increment_n_mid (ns.take i) ns[i] (ns.drop (i + 1)) (by rw [← e]; exact h)
      rw [← e, hl, hr] at h1
      exact Option.some.inj h1
  · right; right
    refine ⟨heq, ?_⟩
    rw [heq, increment_n_end ns h] at hr
    exact (Option.some.inj hr).symm
  · exfalso
    obtain ⟨d, hd⟩ : ∃ d, j = ns.length + 2 + d := ⟨j - (ns.length + 2), by omega⟩
    rw [hd, increment_n_past ns h d] at hr
    exact Option.noConfusion hr

theorem collect_end (ns : List Str) (fuel : Nat) :
    collect (fuel + 1) (end_state ns) = some [] := by
  have : equal (end_state ns) mk_default = true := by
    rw [equal_mk_default]
    simp [end_state]
  simp [collect, this]

theorem collect_mid (back : List Str) :
    ∀ (front : List Str) (n : Str) (fuel : Nat), (∀ m ∈ front ++ n :: back, is_segment m) →
      back.length + 2 ≤ fuel →
      collect fuel (mid_state front n back) = some (n :: back) := by
  induction back with
  | nil =>
    intro front n fuel h hf
    obtain ⟨f, rfl⟩ : ∃ f, fuel = f + 2 := ⟨fuel - 2, by simp at hf; omega⟩
    have hn : is_segment n := h n (by simp)
    have hlt := mid_state_pos_lt front n [] hn.1
    have h1 : equal (mid_state front n []) mk_default = false := by
      rw [equal_mk_default]
      exact decide_eq_false (Nat.ne_of_lt hlt)
    have h2 : dereference (mid_state front n []) = some n := by
      unfold dereference
      rw [if_pos hlt]
      rfl
    rw [collect, h1, h2, increment_mid_nil front n hn]
    simp [collect_end]
  | cons m back ih =>
    intro front n fuel h hf
    obtain ⟨f, rfl⟩ : ∃ f, fuel = f + 1 := ⟨fuel - 1, by simp at hf; omega⟩
    have hn : is_segment n := h n (by simp)
    have hm : is_segment m := h m (by simp)
    have hlt := mid_state_pos_lt front n (m :: back) hn.1
    have h1 : equal (mid_state front n (m :: back)) mk_default = false := by
      rw [equal_mk_default]
      exact decide_eq_false (Nat.ne_of_lt hlt)
    have h2 : dereference (mid_state front n (m :: back)) = some n := by
      unfold dereference
      rw [if_pos hlt]
      rfl
    have e : front ++ [n] ++ m :: back = front ++ n :: m :: back := by simp
    have h3 := ih (front ++ [n]) m f (by rw [e]; exact h) (by simp at hf ⊢; omega)
    rw [collect, h1, h2, increment_mid_cons front n m back hm]
    simp [h3]

theorem collect_root (ns : List Str) (h : ∀ m ∈ ns, is_segment m) (fuel : Nat)
    (hf : ns.length + 2 ≤ fuel) :
    collect fuel (root_state ns) = some (['/'] :: ns) := by
  obtain ⟨f, rfl⟩ : ∃ f, fuel = f + 1 := ⟨fuel - 1, by omega⟩
  have hlt := root_state_pos_lt ns
  have h1 : equal (root_state ns) mk_default = false := by
    rw [equal_mk_default]
    exact decide_eq_false (Nat.ne_of_lt hlt)
  have h2 : dereference (root_state ns) = some ['/'] := by
    unfold dereference
    rw [if_pos hlt]
    rfl
  cases ns with
  | nil =>
    obtain ⟨g, rfl⟩ : ∃ g, f = g + 1 := ⟨f - 1, by simp at hf; omega⟩
    rw [collect, h1, h2, increment_root_nil]
    simp [collect_end]
  | cons n back =>
    have hn : is_segment n := h n (by simp)
    have h3 := collect_mid back [] n f h (by simp at hf ⊢; omega)
    rw [collect, h1, h2, increment_root_cons n back hn]
    simp [h3]

/-! ## Path component iteration over well-formed names -/

theorem join_with_slash (n : Str) (ms : List Str) :
    join_with ['/'] (n :: ms) = n ++ slashes ms := by
  induction ms generalizing n with
  | nil => simp [join_with, slashes]
  | cons m ms ih => simp [join_with, slashes, ih]

theorem root_join_with_slash (ns : List Str) :
    ['/'] ++ join_with ['/'] ns = absolute_name ns := by
  cases ns with
  | nil => rfl
  | cons n ms => simp [join_with_slash, absolute_name, slashes]

theorem absolute_name_last (ns : List Str) (hne : ns ≠ []) (h : ∀ m ∈ ns, is_segment m) :
    ∃ pre c, absolute_name ns = pre ++ [c] ∧ c ≠ '/' ∧ pre ≠ [] := by
  rcases List.eq_nil_or_concat ns with e | ⟨f, n, e⟩
  · exact absurd e hne
  · rw [List.concat_eq_append] at e
    subst e
    obtain ⟨n', c, e2, hc⟩ := is_segment_last n (h n (by simp))
    refine ⟨slashes f ++ '/' :: n', c, ?_, hc, by simp⟩
    rw [absolute_name_snoc, slashes_split, e2]
    simp [slashes]

/-- C1: iterating the path component iterator over the well-formed absolute name
`"/" + n1 + "/" + ... + "/" + nk` from `begin` visits exactly the components
`"/", n1, ..., nk` in that order, each at a position unequal to `end()`; the increment after
the last component gives a position equal to `end()`; and no component is empty. -/
theorem path_components_of_well_formed (ns : List Str) (h : ∀ n ∈ ns, is_segment n) :
    (∀ fuel, ns.length + 2 ≤ fuel →
      collect fuel (of_string (absolute_name ns)) = some (['/'] :: ns)) ∧
    (∀ j, j ≤ ns.length →
      ∃ it c, increment_n j (of_string (absolute_name ns)) = some it ∧
        equal it mk_default = false ∧ dereference it = some c ∧
        (['/'] :: ns)[j]? = some c) ∧
    (∃ it, increment_n (ns.length + 1) (of_string (absolute_name ns)) = some it ∧
      equal it mk_default = true) ∧
    (∀ c ∈ (['/'] :: ns : List Str), c ≠ []) := by
  rw [of_string_absolute_name]
  refine ⟨collect_root ns h, ?_, ?_, ?_⟩
  · intro j hj
    cases j with
    | zero =>
      have hlt := root_state_pos_lt ns
      refine ⟨root_state ns, ['/'], rfl, ?_, ?_, by simp⟩
      · rw [equal_mk_default]
        exact decide_eq_false (Nat.ne_of_lt hlt)
      · unfold dereference
        rw [if_pos hlt]
        rfl
    | succ i =>
      have hi : i < ns.length := by omega
      obtain ⟨e, hl⟩ := segments_split ns i hi
      have h1 := increment_n_mid (ns.take i) ns[i] (ns.drop (i + 1)) (by rw [← e]; exact h)
      rw [← e, hl] at h1
      have hn : is_segment ns[i] := h _ (List.getElem_mem hi)
      have hlt := mid_state_pos_lt (ns.take i) ns[i] (ns.drop (i + 1)) hn.1
      refine ⟨_, ns[i], h1, ?_, ?_, ?_⟩
      · rw [equal_mk_default]
        exact decide_eq_false (Nat.ne_of_lt hlt)
      · unfold dereference
        rw [if_pos hlt]
        rfl
      · simp [List.getElem?_eq_getElem hi]
  · refine ⟨end_state ns, increment_n_end ns h, ?_⟩
    rw [equal_mk_default]
    simp [end_state]
  · intro c hc
    rcases List.mem_cons.mp hc with e | hm
    · rw [e]; simp
    · exact (h c hm).1

theorem path_components_of_well_formed_witness :
    (∀ n ∈ (["Macros".toList, "VBA".toList] : List Str), is_segment n) ∧
    collect 4 (of_string (absolute_name ["Macros".toList, "VBA".toList])) =
      some ["/".toList, "Macros".toList, "VBA".toList] :=
  ⟨by decide, (path_components_of_well_formed _ (by decide)).1 4 (by decide)⟩

/-- C2: for a path whose absolute name is `b + "/" + n` with `n` a segment and `b` empty or a
well-formed non-root absolute name, `branch` returns `b` when `b` is non-empty and `"/"` when
`b` is empty; so `branch` ends in `'/'` only when it is `"/"`, and with `n = leaf()`,
`branch + "/" + leaf` is the absolute name for non-empty `b` while `branch + leaf` is the
absolute name when `branch` is `"/"`. -/
theorem branch_of_well_formed (doc : basic_compound_document) (p : basic_path) (b n : Str)
    (hn : is_segment n)
    (hb : b = [] ∨ ∃ ns, ns ≠ [] ∧ (∀ m ∈ ns, is_segment m) ∧ b = absolute_name ns)
    (ha : absolute p doc = some (b ++ '/' :: n)) :
    branch p doc = some (if b = [] then ['/'] else b) ∧
    (∀ br, branch p doc = some br → br.getLast? = some '/' → br = ['/']) ∧
    (leaf p = n → ∀ br, branch p doc = some br →
      (b ≠ [] → br ++ ['/'] ++ leaf p = b ++ '/' :: n) ∧
      (br = ['/'] → br ++ leaf p = b ++ '/' :: n)) := by
  have hbr : branch p doc = some (if b = [] then ['/'] else b) := by
    have ha2 : doc.absolute_path p = some (b ++ '/' :: n) := ha
    unfold branch
    rw [ha2]
    show some (branch_of (b ++ '/' :: n)) = _
    rw [branch_of_append b n hn]
  have hroot : b ≠ [] → b ≠ ['/'] ∧ b.getLast? ≠ some '/' := by
    intro hne
    rcases hb with e | ⟨ns, hns, hseg, e⟩
    · exact absurd e hne
    · obtain ⟨pre, c, e2, hc, hpre⟩ := absolute_name_last ns hns hseg
      rw [e, e2]
      constructor
      · intro h3
        have h4 := congrArg List.length h3
        have h5 : 0 < pre.length := List.length_pos.mpr hpre
        rw [List.length_append] at h4
        simp only [List.length_singleton] at h4
        omega
      · simp only [List.getLast?_append, List.getLast?_singleton, Option.or_some, ne_eq,
          Option.some.injEq]
        simpa using hc
  refine ⟨hbr, ?_, ?_⟩
  · intro br h1 h2
    rw [hbr] at h1
    by_cases hb0 : b = []
    · rw [if_pos hb0] at h1
      exact (Option.some.inj h1).symm
    · rw [if_neg hb0] at h1
      have := Option.some.inj h1
      subst this
      exact absurd h2 (hroot hb0).2
  · intro hl br h1
    rw [hbr] at h1
    by_cases hb0 : b = []
    · rw [if_pos hb0] at h1
      have := Option.some.inj h1
      subst this
      refine ⟨fun h => absurd hb0 h, fun _ => ?_⟩
      rw [hl, hb0]
      rfl
    · rw [if_neg hb0] at h1
      have := Option.some.inj h1
      subst this
      refine ⟨fun _ => ?_, fun h => absurd h (hroot hb0).1⟩
      rw [hl]
      simp

theorem branch_of_well_formed_witness :
    is_segment "VBA".toList ∧
    absolute ⟨sample_vba⟩ sample_doc = some ("/Macros".toList ++ '/' :: "VBA".toList) ∧
    branch ⟨sample_vba⟩ sample_doc = some "/Macros".toList :=
  ⟨by decide, by decide,
    (branch_of_well_formed sample_doc ⟨sample_vba⟩ "/Macros".toList "VBA".toList (by decide)
      (Or.inr ⟨["Macros".toList], by decide, by decide, by decide⟩) (by decide)).1⟩

/-- C3: on a well-formed absolute name, `increment` and `decrement` are mutual inverses:
from every position reached from `begin` by increments that is not the end,
decrementing the incremented iterator gives back the same iterator (same position, same
component); and from every position reached by at least one increment, the end included,
incrementing the decremented iterator gives it back. -/
theorem increment_decrement_inverse (ns : List Str) (h : ∀ n ∈ ns, is_segment n)
    (j : Nat) (it : iterator)
    (hr : increment_n j (of_string (absolute_name ns)) = some it) :
    (equal it mk_default = false →
      ∃ next, increment it = some next ∧ decrement next = some it) ∧
    (0 < j → ∃ prev, decrement it = some prev ∧ increment prev = some it) := by
  rw [of_string_absolute_name] at hr
  rcases reached_cases ns h j it hr with ⟨hj, e⟩ | ⟨front, n, back, e, hj, e2⟩ | ⟨hj, e⟩
  · subst e
    refine ⟨fun _ => ?_, fun h0 => absurd hj (by omega)⟩
    cases ns with
    | nil => exact ⟨_, increment_root_nil, decrement_end_nil⟩
    | cons n back =>
      exact ⟨_, increment_root_cons n back (h n (by simp)), decrement_mid_nil n back⟩
  · subst e
    subst e2
    have hn : is_segment n := h n (by simp)
    constructor
    · intro _
      cases back with
      | nil => exact ⟨_, increment_mid_nil front n hn, decrement_end_snoc front n hn⟩
      | cons m back =>
        have hm : is_segment m := h m (by simp)
        exact ⟨_, increment_mid_cons front n m back hm, decrement_mid_snoc front n m back hn⟩
    · intro _
      rcases List.eq_nil_or_concat front with e | ⟨f, m, e⟩
      · subst e
        exact ⟨_, decrement_mid_nil n back, increment_root_cons n back hn⟩
      · rw [List.concat_eq_append] at e
        subst e
        have hm : is_segment m := h m (by simp)
        exact ⟨_, decrement_mid_snoc f m n back hm, increment_mid_cons f m n back hn⟩
  · subst e
    constructor
    · intro h1
      rw [equal_mk_default] at h1
      simp [end_state] at h1
    · intro _
      rcases List.eq_nil_or_concat ns with e | ⟨f, n, e⟩
      · subst e
        exact ⟨_, decrement_end_nil, increment_root_nil⟩
      · rw [List.concat_eq_append] at e
        subst e
        have hn : is_segment n := h n (by simp)
        exact ⟨_, decrement_end_snoc f n hn, increment_mid_nil f n hn⟩

theorem increment_decrement_inverse_witness :
    (∀ n ∈ (["Macros".toList, "VBA".toList] : List Str), is_segment n) ∧
    increment_n 3 (of_string (absolute_name ["Macros".toList, "VBA".toList])) =
      some (end_state ["Macros".toList, "VBA".toList]) ∧
    ∃ prev, decrement (end_state ["Macros".toList, "VBA".toList]) = some prev ∧
      increment prev = some (end_state ["Macros".toList, "VBA".toList]) :=
  ⟨by decide, by decide,
    (increment_decrement_inverse ["Macros".toList, "VBA".toList] (by decide) 3 _
      (by decide)).2 (by decide)⟩

/-- C5, as stated, fails: the components of `/Macros` are `"/"` and `"Macros"`, and joining
them with `'/'` gives `//Macros`. -/
theorem join_components_counterexample :
    absolute ⟨sample_macros⟩ sample_doc = some (absolute_name ["Macros".toList]) ∧
    (begin ⟨sample_macros⟩ sample_doc).bind (collect 3) =
      some ["/".toList, "Macros".toList] ∧
    join_with ['/'] ["/".toList, "Macros".toList] = "//Macros".toList ∧
    join_with ['/'] ["/".toList, "Macros".toList] ≠ absolute_name ["Macros".toList] := by
  decide

/-- C5, amended: for a path with a well-formed absolute name `a` with segments `ns`, the
components produced by iterating from `begin` to `end` are exactly the root token `"/"`
followed by the segments `ns` of `a`, and `a` is `"/"` followed by the remaining components
joined with `'/'`; joining all the components, the root token included, gives `"/" + a`
whenever `a` is not the root. -/
theorem join_components_after_root (doc : basic_compound_document) (p : basic_path)
    (ns : List Str) (h : ∀ n ∈ ns, is_segment n)
    (ha : absolute p doc = some (absolute_name ns)) (fuel : Nat) (hf : ns.length + 2 ≤ fuel) :
    ∃ it, begin p doc = some it ∧ collect fuel it = some (['/'] :: ns) ∧
      (∀ comps, collect fuel it = some comps →
        comps.head? = some ['/'] ∧ comps.tail = ns ∧
        ['/'] ++ join_with ['/'] comps.tail = absolute_name ns) ∧
      (ns ≠ [] → join_with ['/'] (['/'] :: ns) = '/' :: absolute_name ns) := by
  have ha2 : doc.absolute_path p = some (absolute_name ns) := ha
  have hb : begin p doc = some (of_string (absolute_name ns)) := by
    unfold begin
    rw [ha2]
    rfl
  have hc : collect fuel (of_string (absolute_name ns)) = some (['/'] :: ns) := by
    rw [of_string_absolute_name]
    exact collect_root ns h fuel hf
  refine ⟨of_string (absolute_name ns), hb, hc, ?_, ?_⟩
  · intro comps hcomps
    rw [hc] at hcomps
    have e := Option.some.inj hcomps
    subst e
    exact ⟨rfl, rfl, root_join_with_slash ns⟩
  · intro hne
    cases ns with
    | nil => exact absurd rfl hne
    | cons n ms => rw [join_with_slash]; rfl

theorem join_components_after_root_witness :
    (∀ n ∈ (["Macros".toList, "VBA".toList] : List Str), is_segment n) ∧
    absolute ⟨sample_vba⟩ sample_doc = some "/Macros/VBA".toList ∧
    ∃ it, begin ⟨sample_vba⟩ sample_doc = some it ∧
      collect 4 it = some ["/".toList, "Macros".toList, "VBA".toList] ∧
      (∀ comps, collect 4 it = some comps →
        comps.head? = some ['/'] ∧ comps.tail = ["Macros".toList, "VBA".toList] ∧
        ['/'] ++ join_with ['/'] comps.tail =
          absolute_name ["Macros".toList, "VBA".toList]) ∧
      ((["Macros".toList, "VBA".toList] : List Str) ≠ [] →
        join_with ['/'] (['/'] :: ["Macros".toList, "VBA".toList]) =
          '/' :: absolute_name ["Macros".toList, "VBA".toList]) :=
  ⟨by decide, by decide,
    join_components_after_root sample_doc ⟨sample_vba⟩ ["Macros".toList, "VBA".toList]
      (by decide) (by decide) 4 (by decide)⟩

/-! ## Path component iteration over arbitrary strings -/

theorem first_index_bound (c : Char) (l : Str) (i : Nat) (h : first_index c l = some i) :
    i < l.length ∧ (i = 0 → char_at l 0 = c) := by
  induction l generalizing i with
  | nil => exact Option.noConfusion h
  | cons x xs ih =>
    unfold first_index at h
    by_cases hx : x = c
    · rw [if_pos hx] at h
      have := Option.some.inj h
      subst this
      exact ⟨by simp, fun _ => by simpa [char_at] using hx⟩
    · rw [if_neg hx] at h
      cases hf : first_index c xs with
      | none => rw [hf] at h; exact Option.noConfusion h
      | some k =>
        rw [hf] at h
        simp only [Option.map_some', Option.some.injEq] at h
        subst h
        have := (ih k hf).1
        exact ⟨by simp only [List.length_cons]; omega, fun h0 => by omega⟩

theorem find_bound (s : Str) (p e : Nat) (h : find s '/' p = some e) :
    p ≤ e ∧ e < s.length ∧ (e = p → char_at s p = '/') := by
  unfold find at h
  cases hf : first_index '/' (s.drop p) with
  | none => rw [hf] at h; exact Option.noConfusion h
  | some k =>
    rw [hf] at h
    simp only [Option.map_some', Option.some.injEq] at h
    subst h
    obtain ⟨h1, h2⟩ := first_index_bound _ _ _ hf
    rw [List.length_drop] at h1
    refine ⟨by omega, by omega, ?_⟩
    intro h3
    have hk : k = 0 := by omega
    have := h2 hk
    simp only [char_at, List.getD_eq_getElem?_getD, List.getElem?_drop, Nat.add_zero] at this ⊢
    exact this

theorem first_name_length_le (s : Str) : (first_name s).length ≤ s.length := by
  have h1 : (s.takeWhile (fun ch => ch ≠ '/')).length ≤ s.length :=
    (List.takeWhile_sublist _).length_le
  unfold first_name
  simp only []
  split
  · split
    · next hne h0 =>
      rw [List.length_append, h0]
      rw [h0] at hne
      have : s.length ≠ 0 := fun h => hne h.symm
      simp only [List.length_singleton]
      omega
    · exact h1
  · exact h1

theorem valid_of_string (s : Str) : valid (of_string s) := by
  constructor
  · show 0 + (first_name s).length ≤ s.length
    have := first_name_length_le s
    omega
  · intro h0
    show first_name s ≠ [] ∨ char_at s 0 = '/'
    cases s with
    | nil => exact absurd h0 (Nat.lt_irrefl 0)
    | cons c rest =>
      by_cases hc : c = '/'
      · right; simp [char_at, hc]
      · left
        simp only [first_name, List.takeWhile_cons, ne_eq, hc, not_false_eq_true, decide_True,
          if_true]
        split <;> simp

/-- One increment from a valid position: it succeeds, keeps the path, moves strictly forward
without passing the end, and gives a valid position again. -/
theorem increment_valid (it : iterator) (hv : valid it)
    (hlt : it.m_pos < it.m_full_path.length) :
    ∃ next, increment it = some next ∧ next.m_full_path = it.m_full_path ∧
      it.m_pos < next.m_pos ∧ next.m_pos ≤ it.m_full_path.length ∧ valid next := by
  obtain ⟨hv1, hv2⟩ := hv
  by_cases h2 : it.m_pos + it.m_name.length = it.m_full_path.length
  · refine ⟨{ m_name := [], m_full_path := it.m_full_path,
              m_pos := it.m_pos + it.m_name.length }, ?_, rfl, ?_, ?_, ?_⟩
    · unfold increment
      rw [if_pos hlt]
      simp only []
      rw [if_pos h2]
    · show it.m_pos < it.m_pos + it.m_name.length
      omega
    · show it.m_pos + it.m_name.length ≤ it.m_full_path.length
      omega
    · constructor
      · show it.m_pos + it.m_name.length + 0 ≤ it.m_full_path.length
        omega
      · intro h3
        have h4 : it.m_pos + it.m_name.length < it.m_full_path.length := h3
        omega
  · have h3 : it.m_pos + it.m_name.length < it.m_full_path.length := by omega
    obtain ⟨p, hp⟩ : ∃ p, (if char_at it.m_full_path (it.m_pos + it.m_name.length) = '/'
        then it.m_pos + it.m_name.length + 1 else it.m_pos + it.m_name.length) = p := ⟨_, rfl⟩
    obtain ⟨e, he⟩ : ∃ e, (match find it.m_full_path '/' p with
        | none => it.m_full_path.length
        | some e => e) = e := ⟨_, rfl⟩
    have key := increment_eq_of it p e hlt h2 hp he
    have hp1 : it.m_pos < p ∧ p ≤ it.m_full_path.length := by
      by_cases hc : char_at it.m_full_path (it.m_pos + it.m_name.length) = '/'
      · rw [if_pos hc] at hp
        omega
      · rw [if_neg hc] at hp
        have : it.m_name ≠ [] := by
          rcases hv2 hlt with h5 | h5
          · exact h5
          · intro h6
            rw [h6] at hc
            exact absurd h5 hc
        have : 0 < it.m_name.length := List.length_pos.mpr this
        omega
    have he1 : p ≤ e ∧ e ≤ it.m_full_path.length ∧
        (e = p → p < it.m_full_path.length → char_at it.m_full_path p = '/') := by
      cases hf : find it.m_full_path '/' p with
      | none =>
        rw [hf] at he
        simp only [] at he
        refine ⟨by omega, by omega, ?_⟩
        intro h5 h6
        omega
      | some k =>
        rw [hf] at he
        simp only [] at he
        subst he
        obtain ⟨b1, b2, b3⟩ := find_bound _ _ _ hf
        exact ⟨b1, by omega, fun h5 _ => b3 h5⟩
    refine ⟨_, key, rfl, hp1.1, hp1.2, ?_⟩
    have hlen : (substr it.m_full_path p (e - p)).length = e - p := by
      unfold substr
      rw [List.length_take, List.length_drop]
      omega
    constructor
    · show p + (substr it.m_full_path p (e - p)).length ≤ it.m_full_path.length
      rw [hlen]
      omega
    · intro h5
      have h6 : p < it.m_full_path.length := h5
      show substr it.m_full_path p (e - p) ≠ [] ∨ char_at it.m_full_path p = '/'
      by_cases h7 : e = p
      · right
        exact he1.2.2 h7 h6
      · left
        intro h8
        rw [h8] at hlen
        simp only [List.length_nil] at hlen
        omega

theorem increment_n_front (j : Nat) (it : iterator) :
    increment_n (j + 1) it = (increment it).bind (increment_n j) := by
  induction j with
  | zero =>
    show increment it = _
    cases increment it <;> rfl
  | succ j ih =>
    show (increment_n (j + 1) it).bind increment = _
    rw [ih]
    cases increment it with
    | none => rfl
    | some next => rfl

/-- From a valid position the end of the path is reached after finitely many increments. -/
theorem exhaust (bound : Nat) :
    ∀ it : iterator, valid it → it.m_pos ≤ it.m_full_path.length →
      it.m_full_path.length - it.m_pos ≤ bound →
      ∃ j last, j ≤ bound ∧ increment_n j it = some last ∧
        last.m_full_path = it.m_full_path ∧ last.m_pos = it.m_full_path.length := by
  induction bound with
  | zero =>
    intro it _ hle hb
    exact ⟨0, it, Nat.le_refl 0, rfl, rfl, by omega⟩
  | succ bound ih =>
    intro it hv hle hb
    by_cases hlt : it.m_pos < it.m_full_path.length
    · obtain ⟨next, h1, h2, h3, h4, h5⟩ := increment_valid it hv hlt
      obtain ⟨j, last, hj, h6, h7, h8⟩ := ih next h5 (by rw [h2]; exact h4)
        (by rw [h2]; omega)
      refine ⟨j + 1, last, by omega, ?_, by rw [h7, h2], by rw [h8, h2]⟩
      rw [increment_n_front, h1]
      exact h6
    · exact ⟨0, it, Nat.zero_le _, rfl, rfl, by omega⟩

/-- Every position reached from `begin` by increments is valid and on the same path. -/
theorem reached_valid (s : Str) (k : Nat) :
    ∀ it, increment_n k (of_string s) = some it →
      valid it ∧ it.m_full_path = s ∧ it.m_pos ≤ s.length := by
  induction k with
  | zero =>
    intro it h
    have : some (of_string s) = some it := h
    have := Option.some.inj this
    subst this
    exact ⟨valid_of_string s, rfl, Nat.zero_le _⟩
  | succ k ih =>
    intro it h
    rw [increment_n_succ] at h
    cases hp : increment_n k (of_string s) with
    | none => rw [hp] at h; exact Option.noConfusion h
    | some prev =>
      rw [hp] at h
      have h1 : increment prev = some it := h
      obtain ⟨hv, hs, hle⟩ := ih prev hp
      have hlt : prev.m_pos < prev.m_full_path.length := by
        by_contra hn
        unfold increment at h1
        rw [if_neg hn] at h1
        exact Option.noConfusion h1
      obtain ⟨next, h2, h3, h4, h5, h6⟩ := increment_valid prev hv hlt
      rw [h1] at h2
      have := Option.some.inj h2
      subst this
      exact ⟨h6, by rw [h3, hs], by rw [← hs]; exact h5⟩

theorem equal_of_end (a b : iterator) (ha : a.m_pos = a.m_full_path.length)
    (hb : b.m_pos = b.m_full_path.length) : equal a b = true := by
  simp [equal, ha, hb]

theorem equal_comm (a b : iterator) : equal a b = equal b a := by
  rw [Bool.eq_iff_iff]
  simp only [equal, Bool.or_eq_true, Bool.and_eq_true, beq_iff_eq]
  constructor
  · rintro (⟨h1, h2⟩ | ⟨h1, h2⟩)
    · exact Or.inl ⟨h1.symm, h2.symm⟩
    · exact Or.inr ⟨h2, h1⟩
  · rintro (⟨h1, h2⟩ | ⟨h1, h2⟩)
    · exact Or.inl ⟨h1.symm, h2.symm⟩
    · exact Or.inr ⟨h2, h1⟩

/-- C4: for all strings `s` and `t`, incrementing `begin(s)` reaches the end position of `s`;
the end positions of `s` and of `t` compare equal to each other and to the sentinel
`iterator()`; every position of `s` before the end compares unequal to the sentinel; so on the
positions reached from `begin(s)` the guard `it != end()` holds exactly when
`m_pos < |s|`. -/
theorem end_positions_equal (s t : Str) :
    (∃ i last, i ≤ s.length ∧ increment_n i (of_string s) = some last ∧
      last.m_full_path = s ∧ last.m_pos = s.length) ∧
    (∀ i j es et, increment_n i (of_string s) = some es → es.m_pos = s.length →
      increment_n j (of_string t) = some et → et.m_pos = t.length →
      equal es et = true ∧ equal es mk_default = true ∧ equal mk_default es = true) ∧
    (∀ it : iterator, it.m_full_path = s → it.m_pos < s.length →
      equal it mk_default = false ∧ equal mk_default it = false) ∧
    (∀ k it, increment_n k (of_string s) = some it →
      (equal it mk_default = false ↔ it.m_pos < s.length)) := by
  refine ⟨?_, ?_, ?_, ?_⟩
  · obtain ⟨j, last, h1, h2, h3, h4⟩ :=
      exhaust s.length (of_string s) (valid_of_string s) (Nat.zero_le _) (Nat.sub_le _ _)
    exact ⟨j, last, h1, h2, h3, h4⟩
  · intro i j es et h1 h2 h3 h4
    have e1 := (reached_valid s i es h1).2.1
    have e2 := (reached_valid t j et h3).2.1
    have h5 : es.m_pos = es.m_full_path.length := by rw [e1]; exact h2
    have h6 : et.m_pos = et.m_full_path.length := by rw [e2]; exact h4
    refine ⟨equal_of_end es et h5 h6, ?_, ?_⟩
    · rw [equal_mk_default]
      exact decide_eq_true h5
    · rw [equal_comm, equal_mk_default]
      exact decide_eq_true h5
  · intro it h1 h2
    have h3 : it.m_pos ≠ it.m_full_path.length := by rw [h1]; omega
    refine ⟨?_, ?_⟩
    · rw [equal_mk_default]
      exact decide_eq_false h3
    · rw [equal_comm, equal_mk_default]
      exact decide_eq_false h3
  · intro k it h1
    obtain ⟨_, h2, h3⟩ := reached_valid s k it h1
    rw [equal_mk_default, h2]
    simp only [decide_eq_false_iff_not]
    omega

/-! ## The lexicographic order -/

theorem lex_lt_irrefl {α : Type} (lt : α → α → Bool) (irr : ∀ a, lt a a = false)
    (l : List α) : lex_lt lt l l = false := by
  induction l with
  | nil => rfl
  | cons a as ih => simp [lex_lt, irr, ih]

theorem lex_lt_trans {α : Type} (lt : α → α → Bool)
    (tr : ∀ a b c, lt a b = true → lt b c = true → lt a c = true)
    (tri : ∀ a b, lt a b = false → lt b a = false → a = b) :
    ∀ l1 l2 l3 : List α, lex_lt lt l1 l2 = true → lex_lt lt l2 l3 = true →
      lex_lt lt l1 l3 = true := by
  intro l1
  induction l1 with
  | nil =>
    intro l2 l3 h1 h2
    cases l2 with
    | nil => exact absurd h1 (by simp [lex_lt])
    | cons b bs =>
      cases l3 with
      | nil => exact absurd h2 (by simp [lex_lt])
      | cons c cs => rfl
  | cons a as ih =>
    intro l2 l3 h1 h2
    cases l2 with
    | nil => exact absurd h1 (by simp [lex_lt])
    | cons b bs =>
      cases l3 with
      | nil => exact absurd h2 (by simp [lex_lt])
      | cons c cs =>
        unfold lex_lt at h1 h2 ⊢
        cases hab : lt a b with
        | true =>
          cases hbc : lt b c with
          | true => rw [tr a b c hab hbc]; rfl
          | false =>
            rw [hbc] at h2
            cases hcb : lt c b with
            | true => rw [hcb] at h2; exact absurd h2 (by simp)
            | false =>
              have e := tri b c hbc hcb
              subst e
              rw [hab]; rfl
        | false =>
          rw [hab] at h1
          cases hba : lt b a with
          | true => rw [hba] at h1; exact absurd h1 (by simp)
          | false =>
            rw [hba] at h1
            have e := tri a b hab hba
            subst e
            cases hac : lt a c with
            | true => rfl
            | false =>
              rw [hac] at h2
              cases hca : lt c a with
              | true => rw [hca] at h2; exact absurd h2 (by simp)
              | false =>
                rw [hca] at h2
                simp only [Bool.false_eq_true, if_false] at h1 h2 ⊢
                exact ih bs cs h1 h2

theorem lex_lt_connected {α : Type} (lt : α → α → Bool)
    (tri : ∀ a b, lt a b = false → lt b a = false → a = b) :
    ∀ l1 l2 : List α, lex_lt lt l1 l2 = false → lex_lt lt l2 l1 = false → l1 = l2 := by
  intro l1
  induction l1 with
  | nil =>
    intro l2 h1 _
    cases l2 with
    | nil => rfl
    | cons b bs => exact absurd h1 (by simp [lex_lt])
  | cons a as ih =>
    intro l2 h1 h2
    cases l2 with
    | nil => exact absurd h2 (by simp [lex_lt])
    | cons b bs =>
      unfold lex_lt at h1 h2
      cases hab : lt a b with
      | true => rw [hab] at h1; exact absurd h1 (by simp)
      | false =>
        cases hba : lt b a with
        | true => rw [hba] at h2; exact absurd h2 (by simp)
        | false =>
          rw [hab, hba] at h1
          rw [hab, hba] at h2
          simp only [Bool.false_eq_true, if_false] at h1 h2
          rw [tri a b hab hba, ih bs h1 h2]

theorem lex_lt_asymm {α : Type} (lt : α → α → Bool) (irr : ∀ a, lt a a = false)
    (tr : ∀ a b c, lt a b = true → lt b c = true → lt a c = true)
    (tri : ∀ a b, lt a b = false → lt b a = false → a = b)
    (l1 l2 : List α) (h : lex_lt lt l1 l2 = true) : lex_lt lt l2 l1 = false := by
  cases h2 : lex_lt lt l2 l1 with
  | false => rfl
  | true =>
    have := lex_lt_trans lt tr tri l1 l2 l1 h h2
    rw [lex_lt_irrefl lt irr] at this
    exact absurd this (by simp)

theorem char_lt_irrefl (a : Char) : char_lt a a = false := by
  simp [char_lt]

theorem char_lt_trans (a b c : Char) (h1 : char_lt a b = true) (h2 : char_lt b c = true) :
    char_lt a c = true := by
  simp only [char_lt, decide_eq_true_eq] at *
  omega

theorem char_lt_connected (a b : Char) (h1 : char_lt a b = false) (h2 : char_lt b a = false) :
    a = b := by
  simp only [char_lt, decide_eq_false_iff_not] at *
  have h3 : a.toNat = b.toNat := by omega
  exact Char.eq_of_val_eq (UInt32.ext h3)

theorem str_lt_eq_lex (x y : Str) : str_lt x y = lex_lt char_lt x y := by
  induction x generalizing y with
  | nil => cases y <;> rfl
  | cons a as ih =>
    cases y with
    | nil => rfl
    | cons b bs =>
      unfold str_lt lex_lt
      rw [ih bs]
      simp [char_lt]

theorem str_lt_irrefl (x : Str) : str_lt x x = false := by
  rw [str_lt_eq_lex]
  exact lex_lt_irrefl char_lt char_lt_irrefl x

theorem str_lt_trans (x y z : Str) (h1 : str_lt x y = true) (h2 : str_lt y z = true) :
    str_lt x z = true := by
  rw [str_lt_eq_lex] at *
  exact lex_lt_trans char_lt char_lt_trans char_lt_connected x y z h1 h2

theorem str_lt_connected (x y : Str) (h1 : str_lt x y = false) (h2 : str_lt y x = false) :
    x = y := by
  rw [str_lt_eq_lex] at *
  exact lex_lt_connected char_lt char_lt_connected x y h1 h2

/-! ## Comparison of paths -/

theorem lex_lt_cons {α : Type} (lt : α → α → Bool) (a b : α) (as bs : List α) :
    lex_lt lt (a :: as) (b :: bs) =
      if lt a b then true else if lt b a then false else lex_lt lt as bs := rfl

theorem collect_at_end (fuel : Nat) (it : iterator) (h : it.m_pos = it.m_full_path.length) :
    collect (fuel + 1) it = some [] := by
  have : equal it mk_default = true := by
    rw [equal_mk_default]; exact decide_eq_true h
  unfold collect
  rw [if_pos this]

theorem collect_step (fuel : Nat) (it next : iterator) (h : it.m_pos < it.m_full_path.length)
    (hn : increment it = some next) :
    collect (fuel + 1) it = (collect fuel next).map (fun rest => it.m_name :: rest) := by
  have h1 : equal it mk_default = false := by
    rw [equal_mk_default]; exact decide_eq_false (Nat.ne_of_lt h)
  have h2 : dereference it = some it.m_name := by
    unfold dereference
    rw [if_pos h]
  rw [collect, h1, h2, hn]
  rfl

theorem collect_total (fuel : Nat) :
    ∀ it : iterator, valid it → it.m_pos ≤ it.m_full_path.length →
      it.m_full_path.length - it.m_pos < fuel →
      ∃ c, collect fuel it = some c ∧ (c = [] ↔ it.m_pos = it.m_full_path.length) := by
  induction fuel with
  | zero => intro it _ _ h; exact absurd h (Nat.not_lt_zero _)
  | succ fuel ih =>
    intro it hv hle hf
    by_cases he : it.m_pos = it.m_full_path.length
    · exact ⟨[], collect_at_end fuel it he, by simp [he]⟩
    · have hlt : it.m_pos < it.m_full_path.length := by omega
      obtain ⟨next, h1, h2, h3, h4, h5⟩ := increment_valid it hv hlt
      obtain ⟨r, h6, _⟩ := ih next h5 (by rw [h2]; exact h4) (by rw [h2]; omega)
      refine ⟨it.m_name :: r, ?_, by simp [he]⟩
      rw [collect_step fuel it next hlt h1, h6]
      rfl

theorem collect_mono (fuel : Nat) :
    ∀ (it : iterator) (c : List Str), collect fuel it = some c →
      ∀ more, fuel ≤ more → collect more it = some c := by
  induction fuel with
  | zero => intro it c h; exact Option.noConfusion h
  | succ fuel ih =>
    intro it c h more hm
    obtain ⟨g, rfl⟩ : ∃ g, more = g + 1 := ⟨more - 1, by omega⟩
    unfold collect at h ⊢
    by_cases he : equal it mk_default = true
    · rw [if_pos he] at h ⊢
      exact h
    · rw [if_neg he] at h ⊢
      cases hd : dereference it with
      | none => rw [hd] at h; exact Option.noConfusion h
      | some name =>
        cases hi : increment it with
        | none => rw [hd, hi] at h; exact Option.noConfusion h
        | some next =>
          rw [hd, hi] at h
          simp only [] at h ⊢
          cases hc : collect fuel next with
          | none => rw [hc] at h; exact Option.noConfusion h
          | some r =>
            rw [hc] at h
            rw [ih next r hc g (by omega)]
            exact h

theorem lexicographical_compare_refines (fuel : Nat) :
    ∀ it1 it2 : iterator, valid it1 → it1.m_pos ≤ it1.m_full_path.length →
      it1.m_full_path.length - it1.m_pos < fuel →
      valid it2 → it2.m_pos ≤ it2.m_full_path.length →
      it2.m_full_path.length - it2.m_pos < fuel →
      ∃ c1 c2, collect fuel it1 = some c1 ∧ collect fuel it2 = some c2 ∧
        lexicographical_compare fuel it1 mk_default it2 mk_default =
          some (lex_lt str_lt c1 c2) := by
  induction fuel with
  | zero => intro it1 _ _ _ h; exact absurd h (Nat.not_lt_zero _)
  | succ fuel ih =>
    intro it1 it2 hv1 hle1 hf1 hv2 hle2 hf2
    obtain ⟨c1, hc1, hn1⟩ := collect_total (fuel + 1) it1 hv1 hle1 hf1
    obtain ⟨c2, hc2, hn2⟩ := collect_total (fuel + 1) it2 hv2 hle2 hf2
    by_cases he1 : it1.m_pos = it1.m_full_path.length
    · have e1 : equal it1 mk_default = true := by
        rw [equal_mk_default]; exact decide_eq_true he1
      have hc : c1 = [] := hn1.mpr he1
      subst hc
      refine ⟨[], c2, hc1, hc2, ?_⟩
      unfold lexicographical_compare
      rw [e1]
      by_cases he2 : it2.m_pos = it2.m_full_path.length
      · have e2 : equal it2 mk_default = true := by
          rw [equal_mk_default]; exact decide_eq_true he2
        have hc : c2 = [] := hn2.mpr he2
        subst hc
        rw [e2]
        rfl
      · have e2 : equal it2 mk_default = false := by
          rw [equal_mk_default]; exact decide_eq_false he2
        rw [e2]
        cases c2 with
        | nil => exact absurd (hn2.mp rfl) he2
        | cons x r => rfl
    · have e1 : equal it1 mk_default = false := by
        rw [equal_mk_default]; exact decide_eq_false he1
      have hlt1 : it1.m_pos < it1.m_full_path.length := by omega
      by_cases he2 : it2.m_pos = it2.m_full_path.length
      · have e2 : equal it2 mk_default = true := by
          rw [equal_mk_default]; exact decide_eq_true he2
        have hc : c2 = [] := hn2.mpr he2
        subst hc
        refine ⟨c1, [], hc1, hc2, ?_⟩
        unfold lexicographical_compare
        rw [e1, e2]
        cases c1 with
        | nil => exact absurd (hn1.mp rfl) he1
        | cons x r => rfl
      · have e2 : equal it2 mk_default = false := by
          rw [equal_mk_default]; exact decide_eq_false he2
        have hlt2 : it2.m_pos < it2.m_full_path.length := by omega
        obtain ⟨n1, i1, p1, q1, r1, v1⟩ := increment_valid it1 hv1 hlt1
        obtain ⟨n2, i2, p2, q2, r2, v2⟩ := increment_valid it2 hv2 hlt2
        obtain ⟨d1, d2, k1, k2, k3⟩ := ih n1 n2 v1 (by rw [p1]; exact r1) (by rw [p1]; omega)
          v2 (by rw [p2]; exact r2) (by rw [p2]; omega)
        refine ⟨it1.m_name :: d1, it2.m_name :: d2, ?_, ?_, ?_⟩
        · rw [collect_step fuel it1 n1 hlt1 i1, k1]; rfl
        · rw [collect_step fuel it2 n2 hlt2 i2, k2]; rfl
        · have g1 : dereference it1 = some it1.m_name := by
            unfold dereference; rw [if_pos hlt1]
          have g2 : dereference it2 = some it2.m_name := by
            unfold dereference; rw [if_pos hlt2]
          unfold lexicographical_compare
          rw [e1, e2, g1, g2, i1, i2]
          simp only [Bool.not_false, Bool.and_self, if_true]
          rw [k3, lex_lt_cons]
          cases str_lt it1.m_name it2.m_name <;> cases str_lt it2.m_name it1.m_name <;> rfl

theorem begin_of_absolute (doc : basic_compound_document) (p : basic_path) (s : Str)
    (h : absolute p doc = some s) : begin p doc = some (of_string s) := by
  have h2 : doc.absolute_path p = some s := h
  unfold begin
  rw [h2]
  rfl

theorem components_exist (s : Str) (fuel : Nat) (hf : s.length < fuel) :
    ∃ c, collect fuel (of_string s) = some c := by
  obtain ⟨c, h, _⟩ := collect_total fuel (of_string s) (valid_of_string s) (Nat.zero_le _)
    (by show s.length - 0 < fuel; omega)
  exact ⟨c, h⟩

theorem path_lt_value (doc : basic_compound_document) (a b : basic_path) (sa sb : Str)
    (ha : absolute a doc = some sa) (hb : absolute b doc = some sb) (fuel : Nat)
    (hfa : sa.length < fuel) (hfb : sb.length < fuel) (ca cb : List Str)
    (hca : collect fuel (of_string sa) = some ca)
    (hcb : collect fuel (of_string sb) = some cb) :
    basic_path.lt fuel doc a b = some (lex_lt str_lt ca cb) := by
  obtain ⟨c1, c2, h1, h2, h3⟩ := lexicographical_compare_refines fuel (of_string sa)
    (of_string sb) (valid_of_string sa) (Nat.zero_le _) (by show sa.length - 0 < fuel; omega)
    (valid_of_string sb) (Nat.zero_le _) (by show sb.length - 0 < fuel; omega)
  rw [hca] at h1
  rw [hcb] at h2
  have e1 := Option.some.inj h1
  have e2 := Option.some.inj h2
  subst e1
  subst e2
  unfold basic_path.lt
  rw [begin_of_absolute doc a sa ha, begin_of_absolute doc b sb hb]
  exact h3

theorem path_eq_value (doc : basic_compound_document) (a b : basic_path) (fuel : Nat)
    (x y : Bool) (h1 : basic_path.lt fuel doc a b = some x)
    (h2 : basic_path.lt fuel doc b a = some y) :
    basic_path.eq fuel doc a b = some (!x && !y) := by
  unfold basic_path.eq
  rw [h1]
  cases x with
  | true => rfl
  | false => simp only []; rw [h2]; rfl

/-- C6: with the document handed to `begin`, `operator<` on paths is the lexicographic order
of the component sequences of the absolute names; it is irreflexive and transitive; exactly
one of `a < b`, `a == b`, `b < a` holds; `>`, `<=`, `>=` are the derived relations; and for
well-formed absolute names `a == b` holds exactly when the two names are the same string. -/
theorem path_comparison_total_order (doc : basic_compound_document) (a b c : basic_path)
    (sa sb sc : Str) (ha : absolute a doc = some sa) (hb : absolute b doc = some sb)
    (hc : absolute c doc = some sc) (fuel : Nat)
    (hfa : sa.length < fuel) (hfb : sb.length < fuel) (hfc : sc.length < fuel) :
    ∃ ca cb cc,
      collect fuel (of_string sa) = some ca ∧ collect fuel (of_string sb) = some cb ∧
      collect fuel (of_string sc) = some cc ∧
      basic_path.lt fuel doc a b = some (lex_lt str_lt ca cb) ∧
      basic_path.lt fuel doc a a = some false ∧
      (basic_path.lt fuel doc a b = some true → basic_path.lt fuel doc b c = some true →
        basic_path.lt fuel doc a c = some true) ∧
      ((basic_path.lt fuel doc a b = some true ∧ basic_path.eq fuel doc a b = some false ∧
          basic_path.lt fuel doc b a = some false) ∨
        (basic_path.lt fuel doc a b = some false ∧ basic_path.eq fuel doc a b = some true ∧
          basic_path.lt fuel doc b a = some false) ∨
        (basic_path.lt fuel doc a b = some false ∧ basic_path.eq fuel doc a b = some false ∧
          basic_path.lt fuel doc b a = some true)) ∧
      basic_path.gt fuel doc a b = basic_path.lt fuel doc b a ∧
      (basic_path.le fuel doc a b = some true ↔
        basic_path.lt fuel doc a b = some true ∨ basic_path.eq fuel doc a b = some true) ∧
      (basic_path.ge fuel doc a b = some true ↔
        basic_path.gt fuel doc a b = some true ∨ basic_path.eq fuel doc a b = some true) ∧
      (basic_path.ne fuel doc a b = some true ↔ basic_path.eq fuel doc a b = some false) ∧
      basic_path.eq fuel doc a b = some (decide (ca = cb)) ∧
      (∀ nsa nsb : List Str, (∀ n ∈ nsa, is_segment n) → (∀ n ∈ nsb, is_segment n) →
        sa = absolute_name nsa → sb = absolute_name nsb →
        (basic_path.eq fuel doc a b = some true ↔ sa = sb)) := by
  obtain ⟨ca, hca⟩ := components_exist sa fuel hfa
  obtain ⟨cb, hcb⟩ := components_exist sb fuel hfb
  obtain ⟨cc, hcc⟩ := components_exist sc fuel hfc
  have lab := path_lt_value doc a b sa sb ha hb fuel hfa hfb ca cb hca hcb
  have lba := path_lt_value doc b a sb sa hb ha fuel hfb hfa cb ca hcb hca
  have laa := path_lt_value doc a a sa sa ha ha fuel hfa hfa ca ca hca hca
  have lbc := path_lt_value doc b c sb sc hb hc fuel hfb hfc cb cc hcb hcc
  have lac := path_lt_value doc a c sa sc ha hc fuel hfa hfc ca cc hca hcc
  have eab := path_eq_value doc a b fuel _ _ lab lba
  have irr := lex_lt_irrefl str_lt str_lt_irrefl
  have tr := lex_lt_trans str_lt str_lt_trans str_lt_connected
  have con := lex_lt_connected str_lt str_lt_connected
  have asy := lex_lt_asymm str_lt str_lt_irrefl str_lt_trans str_lt_connected
  have heq : basic_path.eq fuel doc a b = some (decide (ca = cb)) := by
    rw [eab]
    congr 1
    by_cases e : ca = cb
    · subst e
      rw [irr ca]
      simp
    · cases h1 : lex_lt str_lt ca cb with
      | true => simp [e]
      | false =>
        cases h2 : lex_lt str_lt cb ca with
        | true => simp [e]
        | false => exact absurd (con ca cb h1 h2) e
  refine ⟨ca, cb, cc, hca, hcb, hcc, lab, ?_, ?_, ?_, rfl, ?_, ?_, ?_, heq, ?_⟩
  · rw [laa, irr ca]
  · intro h1 h2
    rw [lab] at h1
    rw [lbc] at h2
    rw [lac, tr ca cb cc (Option.some.inj h1) (Option.some.inj h2)]
  · rw [lab, lba, eab]
    cases h1 : lex_lt str_lt ca cb with
    | true =>
      left
      rw [asy ca cb h1]
      exact ⟨rfl, rfl, rfl⟩
    | false =>
      cases h2 : lex_lt str_lt cb ca with
      | true => right; right; exact ⟨rfl, rfl, rfl⟩
      | false => right; left; exact ⟨rfl, rfl, rfl⟩
  · unfold basic_path.le
    rw [lab, lba, eab]
    cases h1 : lex_lt str_lt ca cb with
    | true =>
      rw [asy ca cb h1]
      simp
    | false =>
      cases h2 : lex_lt str_lt cb ca <;> simp
  · unfold basic_path.ge basic_path.gt
    rw [lab, lba, eab]
    cases h1 : lex_lt str_lt ca cb with
    | true =>
      rw [asy ca cb h1]
      simp
    | false =>
      cases h2 : lex_lt str_lt cb ca <;> simp
  · unfold basic_path.ne
    rw [eab]
    cases (!lex_lt str_lt ca cb && !lex_lt str_lt cb ca) <;> simp
  · intro nsa nsb hsa hsb ea eb
    rw [heq]
    have ka := collect_root nsa hsa (max fuel (nsa.length + 2)) (Nat.le_max_right _ _)
    have kb := collect_root nsb hsb (max fuel (nsb.length + 2)) (Nat.le_max_right _ _)
    rw [← of_string_absolute_name, ← ea,
      collect_mono fuel _ ca hca _ (Nat.le_max_left _ _)] at ka
    rw [← of_string_absolute_name, ← eb,
      collect_mono fuel _ cb hcb _ (Nat.le_max_left _ _)] at kb
    have e1 := Option.some.inj ka
    have e2 := Option.some.inj kb
    constructor
    · intro h
      have h2 : ca = cb := by simpa using h
      rw [e1, e2] at h2
      rw [ea, eb, List.cons.inj h2 |>.2]
    · intro h
      have h3 : ca = cb := by
        rw [h] at hca
        rw [hca] at hcb
        exact Option.some.inj hcb
      simp [h3]

theorem path_comparison_total_order_witness :
    absolute ⟨sample_macros⟩ sample_doc = some "/Macros".toList ∧
    absolute ⟨sample_vba⟩ sample_doc = some "/Macros/VBA".toList ∧
    basic_path.lt 12 sample_doc ⟨sample_macros⟩ ⟨sample_vba⟩ = some true ∧
    ∃ ca cb cc,
      collect 12 (of_string "/Macros".toList) = some ca ∧
      collect 12 (of_string "/Macros/VBA".toList) = some cb ∧
      collect 12 (of_string "/".toList) = some cc ∧
      basic_path.lt 12 sample_doc ⟨sample_macros⟩ ⟨sample_vba⟩ = some (lex_lt str_lt ca cb) :=
  ⟨by decide, by decide, by decide,
    (path_comparison_total_order sample_doc ⟨sample_macros⟩ ⟨sample_vba⟩ ⟨sample_root⟩
      "/Macros".toList "/Macros/VBA".toList "/".toList (by decide) (by decide) (by decide) 12
      (by decide) (by decide) (by decide)).imp
      (fun _ h => h.imp (fun _ h => h.imp (fun _ h => ⟨h.1, h.2.1, h.2.2.1, h.2.2.2.1⟩)))⟩

end ole

namespace ole
open basic_compound_document basic_compound_document.iterator

/-! ## Directory and document iterators -/

theorem equal_positioned_sentinel (parent : DirEntry) (paths : List basic_path) (k : Nat) :
    equal { m_parent := some parent, m_paths := paths, m_pos := k } mk_default = false := by
  simp [equal, mk_default, ptr_eq]

theorem equal_sentinel_sentinel : equal mk_default mk_default = true := by
  decide

theorem increment_inner (parent : Option DirEntry) (paths : List basic_path) (k : Nat)
    (h : k + 1 < paths.length) :
    increment { m_parent := parent, m_paths := paths, m_pos := k } =
      some { m_parent := parent, m_paths := paths, m_pos := k + 1 } := by
  unfold increment
  rw [if_pos (show k < paths.length by omega)]
  simp only []
  rw [if_neg (show ¬ k + 1 = paths.length by omega)]

theorem increment_final (parent : Option DirEntry) (paths : List basic_path) (k : Nat)
    (h : k + 1 = paths.length) :
    increment { m_parent := parent, m_paths := paths, m_pos := k } = some mk_default := by
  unfold increment
  rw [if_pos (show k < paths.length by omega)]
  simp only []
  rw [if_pos h]
  rfl

theorem dereference_positioned (parent : Option DirEntry) (paths : List basic_path) (k : Nat)
    (h : k < paths.length) :
    dereference { m_parent := parent, m_paths := paths, m_pos := k } = some paths[k] := by
  unfold dereference
  rw [if_pos h]
  exact List.getElem?_eq_getElem h

theorem increment_n_positioned (parent : Option DirEntry) (paths : List basic_path) (k : Nat)
    (h : k < paths.length) :
    increment_n k { m_parent := parent, m_paths := paths, m_pos := 0 } =
      some { m_parent := parent, m_paths := paths, m_pos := k } := by
  induction k with
  | zero => rfl
  | succ k ih =>
    show (increment_n k _).bind increment = _
    rw [ih (by omega)]
    exact increment_inner parent paths k h

theorem increment_n_exhausted (parent : Option DirEntry) (paths : List basic_path)
    (h : 1 ≤ paths.length) :
    increment_n paths.length { m_parent := parent, m_paths := paths, m_pos := 0 } =
      some mk_default := by
  obtain ⟨k, hk⟩ : ∃ k, paths.length = k + 1 := ⟨paths.length - 1, by omega⟩
  rw [hk]
  show (increment_n k _).bind increment = _
  rw [increment_n_positioned parent paths k (by omega)]
  exact increment_final parent paths k hk.symm

theorem mk_from_nonempty (st : Storage) (dir_iterator : Bool)
    (h : (if dir_iterator then st.listEntries else st.listAll) ≠ []) :
    mk_from (some st) dir_iterator =
      some { m_parent := if dir_iterator then st.current_entry else st.root_entry,
             m_paths := (if dir_iterator then st.listEntries else st.listAll).map basic_path.mk,
             m_pos := 0 } := by
  unfold mk_from
  simp only [List.isEmpty_eq_true, List.map_eq_nil_iff]
  rw [if_neg h]

theorem mk_from_empty (st : Storage) (dir_iterator : Bool)
    (h : (if dir_iterator then st.listEntries else st.listAll) = []) :
    mk_from (some st) dir_iterator = some mk_default := by
  unfold mk_from
  simp only [List.isEmpty_eq_true, List.map_eq_nil_iff]
  rw [if_pos h, h]
  rfl

theorem collect_sentinel (fuel : Nat) : collect (fuel + 1) mk_default = some [] := by
  unfold collect
  rw [if_pos equal_sentinel_sentinel]

theorem collect_positioned (parent : DirEntry) (paths : List basic_path) (d : Nat) :
    ∀ k fuel, k < paths.length → paths.length - k = d + 1 → d + 2 ≤ fuel →
      collect fuel { m_parent := some parent, m_paths := paths, m_pos := k } =
        some (paths.drop k) := by
  induction d with
  | zero =>
    intro k fuel hk hd hf
    obtain ⟨f, rfl⟩ : ∃ f, fuel = f + 2 := ⟨fuel - 2, by omega⟩
    rw [collect, equal_positioned_sentinel, dereference_positioned _ paths k hk,
      increment_final _ paths k (by omega)]
    simp only [Bool.false_eq_true, if_false]
    rw [collect_sentinel, List.drop_eq_getElem_cons hk, List.drop_of_length_le (by omega)]
    rfl
  | succ d ih =>
    intro k fuel hk hd hf
    obtain ⟨f, rfl⟩ : ∃ f, fuel = f + 1 := ⟨fuel - 1, by omega⟩
    rw [collect, equal_positioned_sentinel, dereference_positioned _ paths k hk,
      increment_inner _ paths k (by omega)]
    simp only [Bool.false_eq_true, if_false]
    rw [ih (k + 1) f (by omega) (by omega) (by omega), List.drop_eq_getElem_cons hk]
    rfl

/-- Iteration over a non-empty snapshot with a non-null parent. -/
theorem snapshot_walk (st : Storage) (dir_iterator : Bool) (parent : DirEntry)
    (hp : (if dir_iterator then st.current_entry else st.root_entry) = some parent)
    (hn : 1 ≤ (if dir_iterator then st.listEntries else st.listAll).length) :
    ∃ first, mk_from (some st) dir_iterator = some first ∧
      (∀ k (hk : k < (if dir_iterator then st.listEntries else st.listAll).length),
        ∃ it, increment_n k first = some it ∧ equal it mk_default = false ∧
          dereference it =
            some (basic_path.mk ((if dir_iterator then st.listEntries else st.listAll).get
              ⟨k, hk⟩))) ∧
      (∃ last, increment_n (if dir_iterator then st.listEntries else st.listAll).length first =
          some last ∧ equal last mk_default = true) ∧
      (∀ fuel, (if dir_iterator then st.listEntries else st.listAll).length + 1 ≤ fuel →
        collect fuel first =
          some ((if dir_iterator then st.listEntries else st.listAll).map basic_path.mk)) := by
  generalize hent : (if dir_iterator then st.listEntries else st.listAll) = entries at hn
  have hne : (if dir_iterator then st.listEntries else st.listAll) ≠ [] := by
    rw [hent]
    intro h
    rw [h] at hn
    exact absurd hn (by decide)
  have h1 := mk_from_nonempty st dir_iterator hne
  rw [hp, hent] at h1
  have hlen : (entries.map basic_path.mk).length = entries.length := List.length_map _ _
  refine ⟨_, h1, ?_, ?_, ?_⟩
  · intro k hk
    refine ⟨_, increment_n_positioned _ _ k (by rw [hlen]; exact hk),
      equal_positioned_sentinel _ _ _, ?_⟩
    rw [dereference_positioned _ _ k (by rw [hlen]; exact hk)]
    simp
  · refine ⟨mk_default, ?_, equal_sentinel_sentinel⟩
    have := increment_n_exhausted (some parent) (entries.map basic_path.mk)
      (by rw [hlen]; exact hn)
    rw [hlen] at this
    exact this
  · intro fuel hf
    obtain ⟨d, hd⟩ : ∃ d, entries.length = d + 1 := ⟨entries.length - 1, by omega⟩
    have := collect_positioned parent (entries.map basic_path.mk) d 0 fuel
      (by rw [hlen]; omega) (by rw [hlen]; omega) (by omega)
    rw [this]
    rfl

/-- C7: over a snapshot `[e0, ..., e(n-1)]` with `n ≥ 1` and a non-null parent entry (the
current directory for `dir_begin`, the root for `doc_begin`), the iterator after `k < n`
increments is unequal to the end sentinel and dereferences to `Path(ek)`; after `n`
increments it equals `dir_end()` / `doc_end()`; so the loop up to the end visits every
snapshot entry once, in the order of the provider. -/
theorem iteration_visits_snapshot (doc : basic_compound_document) (st : Storage)
    (hs : doc.m_storage = some st) :
    (∀ parent, st.current_entry = some parent → 1 ≤ st.listEntries.length →
      ∃ first, dir_begin doc = some first ∧
        (∀ k (hk : k < st.listEntries.length),
          ∃ it, increment_n k first = some it ∧ equal it (dir_end doc) = false ∧
            dereference it = some (basic_path.mk (st.listEntries.get ⟨k, hk⟩))) ∧
        (∃ last, increment_n st.listEntries.length first = some last ∧
          equal last (dir_end doc) = true) ∧
        (∀ fuel, st.listEntries.length + 1 ≤ fuel →
          collect fuel first = some (st.listEntries.map basic_path.mk))) ∧
    (∀ parent, st.root_entry = some parent → 1 ≤ st.listAll.length →
      ∃ first, doc_begin doc = some first ∧
        (∀ k (hk : k < st.listAll.length),
          ∃ it, increment_n k first = some it ∧ equal it (doc_end doc) = false ∧
            dereference it = some (basic_path.mk (st.listAll.get ⟨k, hk⟩))) ∧
        (∃ last, increment_n st.listAll.length first = some last ∧
          equal last (doc_end doc) = true) ∧
        (∀ fuel, st.listAll.length + 1 ≤ fuel →
          collect fuel first = some (st.listAll.map basic_path.mk))) := by
  constructor
  · intro parent hp hn
    have := snapshot_walk st true parent hp hn
    unfold dir_begin dir_end
    rw [hs]
    exact this
  · intro parent hp hn
    have := snapshot_walk st false parent hp hn
    unfold doc_begin doc_end
    rw [hs]
    exact this

theorem iteration_visits_snapshot_witness :
    sample_doc.m_storage = some sample_storage ∧
    ∃ first, doc_begin sample_doc = some first ∧
      (∀ k (hk : k < sample_storage.listAll.length),
        ∃ it, increment_n k first = some it ∧ equal it (doc_end sample_doc) = false ∧
          dereference it = some (basic_path.mk (sample_storage.listAll.get ⟨k, hk⟩))) ∧
      (∃ last, increment_n sample_storage.listAll.length first = some last ∧
        equal last (doc_end sample_doc) = true) ∧
      (∀ fuel, sample_storage.listAll.length + 1 ≤ fuel →
        collect fuel first = some (sample_storage.listAll.map basic_path.mk)) :=
  ⟨rfl, (iteration_visits_snapshot sample_doc sample_storage rfl).2 sample_root rfl
    (by decide)⟩

theorem find_dir_loop_sentinel (doc : basic_compound_document) (name : Str) (fuel : Nat) :
    find_in_current_directory_loop doc name (fuel + 1) mk_default = some mk_default := by
  unfold find_in_current_directory_loop
  have : equal mk_default (dir_end doc) = true := equal_sentinel_sentinel
  rw [this]
  rfl

theorem find_dir_loop_positioned (doc : basic_compound_document) (name : Str)
    (parent : DirEntry) (paths : List basic_path) (d : Nat) :
    ∀ k fuel, k < paths.length → paths.length - k = d + 1 → d + 2 ≤ fuel →
      ∃ it, find_in_current_directory_loop doc name fuel
          { m_parent := some parent, m_paths := paths, m_pos := k } = some it ∧
        match (paths.drop k).find? (fun p => decide (basic_path.leaf p = name)) with
        | none => it = mk_default
        | some p => equal it mk_default = false ∧ dereference it = some p := by
  induction d with
  | zero =>
    intro k fuel hk hd hf
    obtain ⟨f, rfl⟩ : ∃ f, fuel = f + 2 := ⟨fuel - 2, by omega⟩
    have he : equal { m_parent := some parent, m_paths := paths, m_pos := k } (dir_end doc) =
        false := equal_positioned_sentinel parent paths k
    rw [find_in_current_directory_loop, he, dereference_positioned _ paths k hk,
      List.drop_eq_getElem_cons hk, List.find?_cons]
    simp only [Bool.not_false, if_true]
    by_cases hm : basic_path.leaf paths[k] = name
    · rw [if_pos hm, decide_eq_true hm]
      exact ⟨_, rfl, equal_positioned_sentinel parent paths k,
        dereference_positioned _ paths k hk⟩
    · rw [if_neg hm, decide_eq_false hm, increment_final _ paths k (by omega)]
      simp only []
      rw [find_dir_loop_sentinel, List.drop_of_length_le (by omega)]
      exact ⟨_, rfl, rfl⟩
  | succ d ih =>
    intro k fuel hk hd hf
    obtain ⟨f, rfl⟩ : ∃ f, fuel = f + 1 := ⟨fuel - 1, by omega⟩
    have he : equal { m_parent := some parent, m_paths := paths, m_pos := k } (dir_end doc) =
        false := equal_positioned_sentinel parent paths k
    rw [find_in_current_directory_loop, he, dereference_positioned _ paths k hk,
      List.drop_eq_getElem_cons hk, List.find?_cons]
    simp only [Bool.not_false, if_true]
    by_cases hm : basic_path.leaf paths[k] = name
    · rw [if_pos hm, decide_eq_true hm]
      exact ⟨_, rfl, equal_positioned_sentinel parent paths k,
        dereference_positioned _ paths k hk⟩
    · rw [if_neg hm, decide_eq_false hm, increment_inner _ paths k (by omega)]
      simp only []
      exact ih (k + 1) f (by omega) (by omega) (by omega)

/-- C8: in every provider state with a current directory (the entry `current_entry()` is
not `NULL` unless the snapshot is empty), `find_in_current_directory(name)` equals `dir_end()`
exactly when no child of the current directory has the leaf name `name`, and otherwise
dereferences to the first child, in the order of the provider, whose `leaf()` is `name`; the
comparison key is the leaf name. -/
theorem find_in_current_directory_first_match (doc : basic_compound_document) (st : Storage)
    (hs : doc.m_storage = some st) (hp : st.listEntries = [] ∨ st.current_entry ≠ none)
    (name : Str) (fuel : Nat) (hf : st.listEntries.length + 1 ≤ fuel) :
    ∃ it, find_in_current_directory fuel doc name = some it ∧
      (equal it (dir_end doc) = true ↔
        ∀ e ∈ st.listEntries, basic_path.leaf (basic_path.mk e) ≠ name) ∧
      match (st.listEntries.map basic_path.mk).find?
          (fun p => decide (basic_path.leaf p = name)) with
      | none => it = dir_end doc
      | some p => equal it (dir_end doc) = false ∧ dereference it = some p := by
  have key : ∃ it, find_in_current_directory fuel doc name = some it ∧
      match (st.listEntries.map basic_path.mk).find?
          (fun p => decide (basic_path.leaf p = name)) with
      | none => it = mk_default
      | some p => equal it mk_default = false ∧ dereference it = some p := by
    unfold find_in_current_directory dir_begin
    rw [hs]
    by_cases hn : st.listEntries = []
    · obtain ⟨f, rfl⟩ : ∃ f, fuel = f + 1 := ⟨fuel - 1, by omega⟩
      rw [mk_from_empty st true hn, hn]
      exact ⟨mk_default, find_dir_loop_sentinel doc name f, rfl⟩
    · rw [mk_from_nonempty st true hn]
      simp only [if_true]
      obtain ⟨parent, hparent⟩ := Option.ne_none_iff_exists'.mp (hp.resolve_left hn)
      rw [hparent]
      have hlen : (st.listEntries.map basic_path.mk).length = st.listEntries.length :=
        List.length_map _ _
      have hpos : 0 < st.listEntries.length := List.length_pos.mpr hn
      obtain ⟨d, hd⟩ : ∃ d, st.listEntries.length = d + 1 :=
        ⟨st.listEntries.length - 1, by omega⟩
      exact find_dir_loop_positioned doc name parent (st.listEntries.map basic_path.mk) d 0
        fuel (by rw [hlen]; omega) (by rw [hlen]; omega) (by omega)
  obtain ⟨it, h1, h2⟩ := key
  refine ⟨it, h1, ?_, h2⟩
  show equal it mk_default = true ↔ _
  cases hfind : (st.listEntries.map basic_path.mk).find?
      (fun p => decide (basic_path.leaf p = name)) with
  | none =>
    rw [hfind] at h2
    simp only [] at h2
    rw [h2]
    rw [List.find?_eq_none] at hfind
    constructor
    · intro _ e he
      have := hfind (basic_path.mk e) (List.mem_map_of_mem _ he)
      simpa using this
    · intro _
      exact equal_sentinel_sentinel
  | some p =>
    rw [hfind] at h2
    simp only [] at h2
    rw [h2.1]
    have hmem := List.mem_of_find?_eq_some hfind
    have hsat := List.find?_some hfind
    obtain ⟨e, he, rfl⟩ := List.mem_map.mp hmem
    constructor
    · intro h; exact absurd h (by simp)
    · intro h
      exact absurd (by simpa using hsat) (h e he)

theorem find_in_current_directory_first_match_witness :
    sample_doc.m_storage = some sample_storage ∧
    (sample_storage.listEntries = [] ∨ sample_storage.current_entry ≠ none) ∧
    ∃ it, find_in_current_directory 2 sample_doc "Macros".toList = some it ∧
      (equal it (dir_end sample_doc) = true ↔
        ∀ e ∈ sample_storage.listEntries,
          basic_path.leaf (basic_path.mk e) ≠ "Macros".toList) ∧
      match (sample_storage.listEntries.map basic_path.mk).find?
          (fun p => decide (basic_path.leaf p = "Macros".toList)) with
      | none => it = dir_end sample_doc
      | some p => equal it (dir_end sample_doc) = false ∧ dereference it = some p :=
  ⟨rfl, by decide, find_in_current_directory_first_match sample_doc sample_storage rfl
    (by decide) "Macros".toList 2 (by decide)⟩

theorem find_doc_loop_sentinel (doc : basic_compound_document) (path : Str) (fuel : Nat) :
    find_in_document_loop doc path (fuel + 1) mk_default = some mk_default := by
  unfold find_in_document_loop
  have : equal mk_default (doc_end doc) = true := equal_sentinel_sentinel
  rw [this]
  rfl

theorem absolute_of_storage (doc : basic_compound_document) (st : Storage)
    (hs : doc.m_storage = some st) (p : basic_path) :
    basic_path.absolute p doc = some (st.fullName p.m_entry) := by
  unfold basic_path.absolute absolute_path
  rw [hs]

theorem find_doc_loop_positioned (doc : basic_compound_document) (st : Storage)
    (hs : doc.m_storage = some st) (path : Str)
    (parent : DirEntry) (paths : List basic_path) (d : Nat) :
    ∀ k fuel, k < paths.length → paths.length - k = d + 1 → d + 2 ≤ fuel →
      ∃ it, find_in_document_loop doc path fuel
          { m_parent := some parent, m_paths := paths, m_pos := k } = some it ∧
        match (paths.drop k).find?
            (fun p => decide (basic_path.absolute p doc = some path)) with
        | none => it = mk_default
        | some p => equal it mk_default = false ∧ dereference it = some p := by
  induction d with
  | zero =>
    intro k fuel hk hd hf
    obtain ⟨f, rfl⟩ : ∃ f, fuel = f + 2 := ⟨fuel - 2, by omega⟩
    have he : equal { m_parent := some parent, m_paths := paths, m_pos := k } (doc_end doc) =
        false := equal_positioned_sentinel parent paths k
    rw [find_in_document_loop, he, dereference_positioned _ paths k hk,
      List.drop_eq_getElem_cons hk, List.find?_cons]
    simp only [Bool.not_false, if_true]
    rw [absolute_of_storage doc st hs]
    simp only [Option.some.injEq]
    by_cases hm : st.fullName paths[k].m_entry = path
    · rw [if_pos hm, decide_eq_true hm]
      exact ⟨_, rfl, equal_positioned_sentinel parent paths k,
        dereference_positioned _ paths k hk⟩
    · rw [if_neg hm, decide_eq_false hm, increment_final _ paths k (by omega)]
      simp only []
      rw [find_doc_loop_sentinel, List.drop_of_length_le (by omega)]
      exact ⟨_, rfl, rfl⟩
  | succ d ih =>
    intro k fuel hk hd hf
    obtain ⟨f, rfl⟩ : ∃ f, fuel = f + 1 := ⟨fuel - 1, by omega⟩
    have he : equal { m_parent := some parent, m_paths := paths, m_pos := k } (doc_end doc) =
        false := equal_positioned_sentinel parent paths k
    rw [find_in_document_loop, he, dereference_positioned _ paths k hk,
      List.drop_eq_getElem_cons hk, List.find?_cons]
    simp only [Bool.not_false, if_true]
    rw [absolute_of_storage doc st hs]
    simp only [Option.some.injEq]
    by_cases hm : st.fullName paths[k].m_entry = path
    · rw [if_pos hm, decide_eq_true hm]
      exact ⟨_, rfl, equal_positioned_sentinel parent paths k,
        dereference_positioned _ paths k hk⟩
    · rw [if_neg hm, decide_eq_false hm, increment_inner _ paths k (by omega)]
      simp only []
      exact ih (k + 1) f (by omega) (by omega) (by omega)

/-- C9: if the provider cannot resolve `path`, `find_in_document(path)` is `doc_end()`; if it
resolves, in every provider state with a root (the entry `root_entry()` is not `NULL` unless
the snapshot is empty), the result dereferences to the first entry of the whole-document
snapshot, in the order of the provider, whose absolute name is the string `path`, or is
`doc_end()` when no snapshot entry has that absolute name. -/
theorem find_in_document_first_match (doc : basic_compound_document) (st : Storage)
    (hs : doc.m_storage = some st) (path : Str) (fuel : Nat) :
    (st.getEntry path = none → find_in_document fuel doc path = some (doc_end doc)) ∧
    (∀ target, st.getEntry path = some target → st.listAll = [] ∨ st.root_entry ≠ none →
      st.listAll.length + 1 ≤ fuel →
      ∃ it, find_in_document fuel doc path = some it ∧
        match (st.listAll.map basic_path.mk).find?
            (fun p => decide (basic_path.absolute p doc = some path)) with
        | none => it = doc_end doc
        | some p => equal it (doc_end doc) = false ∧ dereference it = some p) := by
  constructor
  · intro hg
    unfold find_in_document entry_from_string
    rw [hs]
    simp only [Option.map_some', hg]
  · intro target hg hp hf
    unfold find_in_document entry_from_string doc_begin doc_end
    rw [hs]
    simp only [Option.map_some', hg]
    by_cases hn : st.listAll = []
    · obtain ⟨f, rfl⟩ : ∃ f, fuel = f + 1 := ⟨fuel - 1, by omega⟩
      rw [mk_from_empty st false hn, hn]
      exact ⟨mk_default, find_doc_loop_sentinel doc path f, rfl⟩
    · rw [mk_from_nonempty st false hn]
      simp only [Bool.false_eq_true, if_false]
      obtain ⟨root, hroot⟩ := Option.ne_none_iff_exists'.mp (hp.resolve_left hn)
      rw [hroot]
      have hlen : (st.listAll.map basic_path.mk).length = st.listAll.length :=
        List.length_map _ _
      have hpos : 0 < st.listAll.length := List.length_pos.mpr hn
      obtain ⟨d, hd⟩ : ∃ d, st.listAll.length = d + 1 := ⟨st.listAll.length - 1, by omega⟩
      exact find_doc_loop_positioned doc st hs path root (st.listAll.map basic_path.mk) d 0
        fuel (by rw [hlen]; omega) (by rw [hlen]; omega) (by omega)

theorem find_in_document_first_match_witness :
    sample_doc.m_storage = some sample_storage ∧
    sample_storage.getEntry "/Macros/VBA".toList = some sample_vba ∧
    (sample_storage.listAll = [] ∨ sample_storage.root_entry ≠ none) ∧
    ∃ it, find_in_document 3 sample_doc "/Macros/VBA".toList = some it ∧
      match (sample_storage.listAll.map basic_path.mk).find?
          (fun p => decide (basic_path.absolute p sample_doc = some "/Macros/VBA".toList)) with
      | none => it = doc_end sample_doc
      | some p => equal it (doc_end sample_doc) = false ∧ dereference it = some p :=
  ⟨rfl, by decide, by decide,
    (find_in_document_first_match sample_doc sample_storage rfl "/Macros/VBA".toList 3).2
      sample_vba (by decide) (by decide) (by decide)⟩

/-! ## Equality of directory and document iterators -/

theorem reachable_shape (it : iterator) (h : reachable it) :
    it = mk_default ∨ ∃ parent, it.m_parent = some parent ∧ it.m_pos < it.m_paths.length := by
  induction h with
  | sentinel => exact Or.inl rfl
  | constructed st d it hc hr hm =>
    by_cases hn : (if d then st.listEntries else st.listAll) = []
    · rw [mk_from_empty st d hn] at hm
      exact Or.inl (Option.some.inj hm).symm
    · rw [mk_from_nonempty st d hn] at hm
      have e := Option.some.inj hm
      subst e
      right
      have hpar : (if d then st.current_entry else st.root_entry) ≠ none := by
        cases d
        · exact hr
        · exact hc
      obtain ⟨parent, hparent⟩ := Option.ne_none_iff_exists'.mp hpar
      refine ⟨parent, hparent, ?_⟩
      show 0 < ((if d then st.listEntries else st.listAll).map basic_path.mk).length
      rw [List.length_map]
      exact List.length_pos.mpr hn
  | incremented it next _ hi ih =>
    rcases ih with e | ⟨parent, h1, h2⟩
    · subst e
      have hnone : increment mk_default = none := by decide
      rw [hnone] at hi
      exact Option.noConfusion hi
    · unfold increment at hi
      rw [if_pos h2] at hi
      simp only [] at hi
      by_cases h3 : it.m_pos + 1 = it.m_paths.length
      · rw [if_pos h3] at hi
        exact Or.inl (Option.some.inj hi).symm
      · rw [if_neg h3] at hi
        have e := Option.some.inj hi
        subst e
        right
        exact ⟨parent, h1, by show it.m_pos + 1 < it.m_paths.length; omega⟩

/-- C10: two iterator states reachable by construction and increments over providers with
non-null current and root entries compare equal exactly when both are exhausted, or both are
positioned with the same parent entry and the same position; and every exhausted state is
the canonical one (no parent, empty sequence, position 0), which is the sentinel returned by
`dir_end()` and `doc_end()`. -/
theorem iterator_equality (a b : iterator) (ha : reachable a) (hb : reachable b)
    (doc : basic_compound_document) :
    (equal a b = true ↔
      (a.m_paths.length ≤ a.m_pos ∧ b.m_paths.length ≤ b.m_pos) ∨
      (a.m_pos < a.m_paths.length ∧ b.m_pos < b.m_paths.length ∧ a.m_pos = b.m_pos ∧
        ∃ pa pb, a.m_parent = some pa ∧ b.m_parent = some pb ∧ pa.addr = pb.addr)) ∧
    (a.m_paths.length ≤ a.m_pos →
      a = { m_parent := none, m_paths := [], m_pos := 0 } ∧
      a = dir_end doc ∧ a = doc_end doc ∧
      equal a (dir_end doc) = true ∧ equal a (doc_end doc) = true) := by
  have sa := reachable_shape a ha
  have sb := reachable_shape b hb
  constructor
  · rcases sa with ea | ⟨pa, ha1, ha2⟩
    · subst ea
      rcases sb with eb | ⟨pb, hb1, hb2⟩
      · subst eb
        constructor
        · intro _
          exact Or.inl ⟨Nat.le_refl _, Nat.le_refl _⟩
        · intro _
          exact equal_sentinel_sentinel
      · constructor
        · intro h
          exfalso
          simp [equal, mk_default, ptr_eq, hb1] at h
        · rintro (⟨_, h⟩ | ⟨h, _⟩)
          · omega
          · exact absurd h (by decide)
    · rcases sb with eb | ⟨pb, hb1, hb2⟩
      · subst eb
        constructor
        · intro h
          exfalso
          simp [equal, mk_default, ptr_eq, ha1] at h
        · rintro (⟨h, _⟩ | ⟨_, h, _⟩)
          · omega
          · exact absurd h (by decide)
      · constructor
        · intro h
          right
          simp only [equal, ptr_eq, ha1, hb1, Option.map_some', Bool.and_eq_true, beq_iff_eq,
            Option.some.injEq] at h
          exact ⟨ha2, hb2, h.1, pa, pb, ha1, hb1, h.2⟩
        · rintro (⟨h, _⟩ | ⟨_, _, h1, qa, qb, h2, h3, h4⟩)
          · omega
          · simp [equal, ptr_eq, h1, h2, h3, h4]
  · intro h
    rcases sa with ea | ⟨pa, ha1, ha2⟩
    · subst ea
      exact ⟨rfl, rfl, rfl, equal_sentinel_sentinel, equal_sentinel_sentinel⟩
    · omega

theorem iterator_equality_witness :
    reachable { m_parent := some sample_root,
                m_paths := [basic_path.mk sample_macros, basic_path.mk sample_vba],
                m_pos := 0 } ∧
    reachable mk_default ∧
    (equal { m_parent := some sample_root,
             m_paths := [basic_path.mk sample_macros, basic_path.mk sample_vba],
             m_pos := 0 } mk_default = true ↔
      ((2 ≤ 0 ∧ mk_default.m_paths.length ≤ mk_default.m_pos) ∨
       (0 < 2 ∧ mk_default.m_pos < mk_default.m_paths.length ∧ 0 = mk_default.m_pos ∧
         ∃ pa pb, some sample_root = some pa ∧ mk_default.m_parent = some pb ∧
           pa.addr = pb.addr))) :=
  ⟨reachable.constructed sample_storage false _ (by decide) (by decide) rfl,
    reachable.sentinel,
    (iterator_equality _ _
      (reachable.constructed sample_storage false _ (by decide) (by decide) rfl)
      reachable.sentinel sample_doc).1⟩

/-! ## Empty listings and name lookups -/

/-- C11: when the listing of the provider is empty (a current directory without children
for `dir_begin`, a document with only the root for `doc_begin`), the constructed iterator is
the end iterator: `dir_begin()` equals `dir_end()` and `doc_begin()` equals `doc_end()`,
whatever the current or root entry is. -/
theorem empty_listing_begin_is_end (doc : basic_compound_document) (st : Storage)
    (hs : doc.m_storage = some st) :
    (st.listEntries = [] →
      ∃ first, dir_begin doc = some first ∧ first = dir_end doc ∧
        equal first (dir_end doc) = true) ∧
    (st.listAll = [] →
      ∃ first, doc_begin doc = some first ∧ first = doc_end doc ∧
        equal first (doc_end doc) = true) := by
  constructor
  · intro h
    refine ⟨mk_default, ?_, rfl, equal_sentinel_sentinel⟩
    unfold dir_begin
    rw [hs]
    exact mk_from_empty st true h
  · intro h
    refine ⟨mk_default, ?_, rfl, equal_sentinel_sentinel⟩
    unfold doc_begin
    rw [hs]
    exact mk_from_empty st false h

theorem empty_listing_begin_is_end_witness :
    root_only_doc.m_storage = some root_only_storage ∧
    root_only_storage.listAll = [] ∧
    ∃ first, doc_begin root_only_doc = some first ∧ first = doc_end root_only_doc ∧
      equal first (doc_end root_only_doc) = true :=
  ⟨rfl, rfl, (empty_listing_begin_is_end root_only_doc root_only_storage rfl).2 rfl⟩

/-- C12: for a name that the provider cannot resolve, every name-based query returns its
failure value and no assertion fails: `exists` is false, `is_directory` is false, `is_file`
is false, `entry_size` is 0 and `find_in_document` is `doc_end()`; `stream(name, reuse)` is
absent whenever the provider returns no cursor; and `exists(name)` is true exactly when the
provider resolves `name`. -/
theorem unresolved_name_queries (doc : basic_compound_document) (st : Storage)
    (hs : doc.m_storage = some st) (name : Str) :
    (st.getEntry name = none →
      exists_name doc name = some false ∧ is_directory_name doc name = some false ∧
      is_file_name doc name = some false ∧ entry_size_name doc name = some 0 ∧
      ∀ fuel, find_in_document fuel doc name = some (doc_end doc)) ∧
    (∀ reuse, st.stream name reuse = none → stream_name doc name reuse = some none) ∧
    (exists_name doc name = some true ↔ st.getEntry name ≠ none) ∧
    (exists_name doc name = some false ↔ st.getEntry name = none) := by
  have he : entry_from_string doc name = some (st.getEntry name) := by
    unfold entry_from_string
    rw [hs]
    rfl
  refine ⟨?_, ?_, ?_, ?_⟩
  · intro h
    refine ⟨?_, ?_, ?_, ?_, ?_⟩
    · unfold exists_name; rw [he, h]; rfl
    · unfold is_directory_name; rw [he, h]; rfl
    · unfold is_file_name; rw [he, h]; rfl
    · unfold entry_size_name; rw [he, h]; rfl
    · intro fuel
      unfold find_in_document
      rw [he, h]
  · intro reuse h
    unfold stream_name
    rw [hs]
    show some ((st.stream name reuse).map stream.mk) = some none
    rw [h]
    rfl
  · unfold exists_name
    rw [he]
    cases st.getEntry name <;> simp
  · unfold exists_name
    rw [he]
    cases st.getEntry name <;> simp

theorem unresolved_name_queries_witness :
    sample_doc.m_storage = some sample_storage ∧
    sample_storage.getEntry "NOPE".toList = none ∧
    exists_name sample_doc "NOPE".toList = some false ∧
    is_directory_name sample_doc "NOPE".toList = some false ∧
    is_file_name sample_doc "NOPE".toList = some false ∧
    entry_size_name sample_doc "NOPE".toList = some 0 ∧
    ∀ fuel, find_in_document fuel sample_doc "NOPE".toList = some (doc_end sample_doc) :=
  ⟨rfl, by decide,
    (unresolved_name_queries sample_doc sample_storage rfl "NOPE".toList).1 (by decide)⟩

/-- C13: over a provider whose whole-document listing is the directory `/Macros` followed by
the file `/Macros/VBA` of 128 bytes, iterating from `doc_begin()` to `doc_end()` yields
exactly these two paths in that order, and `find_in_document("/Macros/VBA")` returns an
iterator that is not `doc_end()` and dereferences to the second path. -/
theorem macros_vba_scenario (doc : basic_compound_document) (st : Storage)
    (hs : doc.m_storage = some st) (root m v : DirEntry)
    (hroot : st.root_entry = some root) (hall : st.listAll = [m, v])
    (hm : st.fullName m = "/Macros".toList) (hv : st.fullName v = "/Macros/VBA".toList)
    (hmd : m.dir = true) (hvf : v.file = true) (hvs : v.size = 128)
    (hget : st.getEntry "/Macros/VBA".toList = some v) (fuel : Nat) (hf : 3 ≤ fuel) :
    ∃ first, doc_begin doc = some first ∧
      collect fuel first = some [basic_path.mk m, basic_path.mk v] ∧
      basic_path.absolute (basic_path.mk m) doc = some "/Macros".toList ∧
      basic_path.is_directory (basic_path.mk m) = true ∧
      basic_path.absolute (basic_path.mk v) doc = some "/Macros/VBA".toList ∧
      basic_path.is_file (basic_path.mk v) = true ∧
      entry_size_path doc (basic_path.mk v) = 128 ∧
      ∃ it, find_in_document fuel doc "/Macros/VBA".toList = some it ∧
        equal it (doc_end doc) = false ∧ dereference it = some (basic_path.mk v) := by
  have hn : (if false = true then st.listEntries else st.listAll) ≠ [] := by
    simp [hall]
  have hb : doc_begin doc =
      some { m_parent := some root, m_paths := [basic_path.mk m, basic_path.mk v],
             m_pos := 0 } := by
    unfold doc_begin
    rw [hs, mk_from_nonempty st false hn]
    simp [hroot, hall]
  have ham : basic_path.absolute (basic_path.mk m) doc = some "/Macros".toList := by
    rw [absolute_of_storage doc st hs, hm]
  have hav : basic_path.absolute (basic_path.mk v) doc = some "/Macros/VBA".toList := by
    rw [absolute_of_storage doc st hs, hv]
  refine ⟨_, hb, ?_, ham, hmd, hav, hvf, hvs, ?_⟩
  · exact collect_positioned root [basic_path.mk m, basic_path.mk v] 1 0 fuel (by simp)
      (by simp) (by omega)
  · obtain ⟨it, h1, h2⟩ := find_doc_loop_positioned doc st hs "/Macros/VBA".toList root
      [basic_path.mk m, basic_path.mk v] 1 0 fuel (by simp) (by simp) (by omega)
    refine ⟨it, ?_, ?_⟩
    · unfold find_in_document entry_from_string
      rw [hs]
      simp only [Option.map_some', hget]
      rw [hb]
      exact h1
    · have hne : ¬ (some "/Macros".toList = some "/Macros/VBA".toList) := by decide
      simp only [List.drop_zero, List.find?_cons, ham, hav, hne, decide_False, decide_True]
        at h2
      exact h2

theorem macros_vba_scenario_witness :
    sample_doc.m_storage = some sample_storage ∧
    sample_storage.listAll = [sample_macros, sample_vba] ∧
    ∃ first, doc_begin sample_doc = some first ∧
      collect 3 first = some [basic_path.mk sample_macros, basic_path.mk sample_vba] ∧
      basic_path.absolute (basic_path.mk sample_macros) sample_doc = some "/Macros".toList ∧
      basic_path.is_directory (basic_path.mk sample_macros) = true ∧
      basic_path.absolute (basic_path.mk sample_vba) sample_doc =
        some "/Macros/VBA".toList ∧
      basic_path.is_file (basic_path.mk sample_vba) = true ∧
      entry_size_path sample_doc (basic_path.mk sample_vba) = 128 ∧
      ∃ it, find_in_document 3 sample_doc "/Macros/VBA".toList = some it ∧
        equal it (doc_end sample_doc) = false ∧
        dereference it = some (basic_path.mk sample_vba) :=
  ⟨rfl, rfl,
    macros_vba_scenario sample_doc sample_storage rfl sample_root sample_macros sample_vba
      rfl rfl (by decide) (by decide) rfl rfl rfl (by decide) 3 (by decide)⟩

/-- C14: the code at the failing input. In the sample document, with the root as current
directory, the relative name `Macros` resolves to the entry `/Macros`, which is in the
whole-document snapshot, and the name-based queries accept it; `find_in_document("Macros")`
returns `doc_end()`. -/
theorem find_in_document_relative_name :
    sample_storage.getEntry "Macros".toList = some sample_macros ∧
    sample_macros ∈ sample_storage.listAll ∧
    exists_name sample_doc "Macros".toList = some true ∧
    is_directory_name sample_doc "Macros".toList = some true ∧
    find_in_document 3 sample_doc "Macros".toList = some (doc_end sample_doc) ∧
    (find_in_document 3 sample_doc "/Macros".toList).bind dereference =
      some (basic_path.mk sample_macros) := by
  decide

/-- C15, as stated, fails: for the root, whose absolute name is `/`, `branch` returns the
empty string. -/
theorem branch_of_root_counterexample :
    basic_path.absolute (basic_path.mk sample_root) sample_doc = some "/".toList ∧
    basic_path.branch (basic_path.mk sample_root) sample_doc = some [] ∧
    basic_path.branch (basic_path.mk sample_root) sample_doc ≠ some "/".toList := by
  decide

/-- C15, amended: for the root path, whose absolute name is `/`, `branch` returns the empty
string: the name `/` is its own final segment and nothing remains before it. -/
theorem branch_of_root (doc : basic_compound_document) (p : basic_path)
    (h : basic_path.absolute p doc = some ['/']) :
    basic_path.branch p doc = some [] := by
  have h2 : doc.absolute_path p = some ['/'] := h
  unfold basic_path.branch
  rw [h2]
  decide

theorem branch_of_root_witness :
    basic_path.absolute (basic_path.mk sample_root) sample_doc = some ['/'] ∧
    basic_path.branch (basic_path.mk sample_root) sample_doc = some [] :=
  ⟨by decide, branch_of_root sample_doc (basic_path.mk sample_root) (by decide)⟩

/-- C16: for a path `p` whose absolute name the provider resolves back to the entry of `p`
(in particular a path yielded by the document or directory iterator), `exists` of the
absolute name is true, as `exists(p)` is, and `is_directory`, `is_file` and `entry_size` of
the absolute name return what they return for `p`. -/
theorem name_and_path_queries_agree (doc : basic_compound_document) (st : Storage)
    (hs : doc.m_storage = some st) (p : basic_path)
    (hres : st.getEntry (st.fullName p.m_entry) = some p.m_entry) :
    ∃ name, basic_path.absolute p doc = some name ∧
      exists_name doc name = some true ∧ exists_path doc p = true ∧
      is_directory_name doc name = some (is_directory_path doc p) ∧
      is_file_name doc name = some (is_file_path doc p) ∧
      entry_size_name doc name = some (entry_size_path doc p) := by
  have he : entry_from_string doc (st.fullName p.m_entry) = some (some p.m_entry) := by
    unfold entry_from_string
    rw [hs]
    show some (st.getEntry (st.fullName p.m_entry)) = _
    rw [hres]
  refine ⟨st.fullName p.m_entry, absolute_of_storage doc st hs p, ?_, rfl, ?_, ?_, ?_⟩
  · unfold exists_name; rw [he]; rfl
  · unfold is_directory_name; rw [he]; rfl
  · unfold is_file_name; rw [he]; rfl
  · unfold entry_size_name; rw [he]; rfl

theorem name_and_path_queries_agree_witness :
    sample_doc.m_storage = some sample_storage ∧
    sample_storage.getEntry (sample_storage.fullName sample_vba) = some sample_vba ∧
    ∃ name, basic_path.absolute (basic_path.mk sample_vba) sample_doc = some name ∧
      exists_name sample_doc name = some true ∧
      exists_path sample_doc (basic_path.mk sample_vba) = true ∧
      is_directory_name sample_doc name =
        some (is_directory_path sample_doc (basic_path.mk sample_vba)) ∧
      is_file_name sample_doc name =
        some (is_file_path sample_doc (basic_path.mk sample_vba)) ∧
      entry_size_name sample_doc name =
        some (entry_size_path sample_doc (basic_path.mk sample_vba)) :=
  ⟨rfl, by decide,
    name_and_path_queries_agree sample_doc sample_storage rfl (basic_path.mk sample_vba)
      (by decide)⟩

/-! ## Eager listings -/

theorem push_back_all_eq (entries : List DirEntry) (paths : List basic_path) :
    push_back_all entries paths = paths ++ entries.map basic_path.mk := by
  induction entries generalizing paths with
  | nil => simp [push_back_all]
  | cons e es ih => simp [push_back_all, ih]

theorem collect_from_begin (st : Storage) (dir_iterator : Bool) (fuel : Nat)
    (hp : (if dir_iterator then st.listEntries else st.listAll) = [] ∨
      (if dir_iterator then st.current_entry else st.root_entry) ≠ none)
    (hf : (if dir_iterator then st.listEntries else st.listAll).length + 1 ≤ fuel) :
    ∃ first, mk_from (some st) dir_iterator = some first ∧
      collect fuel first =
        some ((if dir_iterator then st.listEntries else st.listAll).map basic_path.mk) := by
  by_cases hn : (if dir_iterator then st.listEntries else st.listAll) = []
  · obtain ⟨f, rfl⟩ : ∃ f, fuel = f + 1 := ⟨fuel - 1, by omega⟩
    refine ⟨mk_default, mk_from_empty st dir_iterator hn, ?_⟩
    rw [collect_sentinel, hn]
    rfl
  · have hpar : (if dir_iterator then st.current_entry else st.root_entry) ≠ none := by
      rcases hp with h | h
      · exact absurd h hn
      · exact h
    obtain ⟨parent, hparent⟩ := Option.ne_none_iff_exists'.mp hpar
    obtain ⟨first, h1, _, _, h4⟩ := snapshot_walk st dir_iterator parent hparent
      (List.length_pos.mpr hn)
    exact ⟨first, h1, h4 fuel hf⟩

/-- C17: for every provider state whose iterated parent entry (the current entry for the
directory iterator, the root entry for the document iterator) is not `NULL` unless the
listing is empty, the sequence of paths visited by iterating from `dir_begin()` to
`dir_end()` is the vector that `entries_in_current_dir` produces on an empty vector, and
likewise `doc_begin()` to `doc_end()` and `entries_in_document`; both are the listing of the
provider wrapped as paths, in the order of the provider. -/
theorem listing_matches_iteration (doc : basic_compound_document) (st : Storage)
    (hs : doc.m_storage = some st) (fuel : Nat) :
    (st.listEntries = [] ∨ st.current_entry ≠ none → st.listEntries.length + 1 ≤ fuel →
      ∃ first, dir_begin doc = some first ∧
        collect fuel first = entries_in_current_dir doc [] ∧
        entries_in_current_dir doc [] = some (st.listEntries.map basic_path.mk)) ∧
    (st.listAll = [] ∨ st.root_entry ≠ none → st.listAll.length + 1 ≤ fuel →
      ∃ first, doc_begin doc = some first ∧
        collect fuel first = entries_in_document doc [] ∧
        entries_in_document doc [] = some (st.listAll.map basic_path.mk)) := by
  have e1 : entries_in_current_dir doc [] = some (st.listEntries.map basic_path.mk) := by
    unfold entries_in_current_dir
    rw [hs]
    simp [push_back_all_eq]
  have e2 : entries_in_document doc [] = some (st.listAll.map basic_path.mk) := by
    unfold entries_in_document
    rw [hs]
    simp [push_back_all_eq]
  constructor
  · intro hp hf
    obtain ⟨first, h1, h2⟩ := collect_from_begin st true fuel hp hf
    refine ⟨first, ?_, ?_, e1⟩
    · unfold dir_begin; rw [hs]; exact h1
    · rw [e1]; exact h2
  · intro hp hf
    obtain ⟨first, h1, h2⟩ := collect_from_begin st false fuel hp hf
    refine ⟨first, ?_, ?_, e2⟩
    · unfold doc_begin; rw [hs]; exact h1
    · rw [e2]; exact h2

theorem listing_matches_iteration_witness :
    sample_doc.m_storage = some sample_storage ∧
    sample_storage.root_entry ≠ none ∧
    ∃ first, doc_begin sample_doc = some first ∧
      collect 3 first = entries_in_document sample_doc [] ∧
      entries_in_document sample_doc [] = some (sample_storage.listAll.map basic_path.mk) :=
  ⟨rfl, by decide,
    (listing_matches_iteration sample_doc sample_storage rfl 3).2 (Or.inr (by decide))
      (by decide)⟩

/-- C18: `entries_in_document` is repeatable. Take the document at the first call and at
the second call, each with a provider handle, such that nothing of the document was mutated
in between: the provider lists the same entries and names each of them as before (as it
does when the state is the same). Then both calls, each on an empty vector, return; the two
sequences have the same length, the number of entries of the provider, and the paths at the
same index have equal absolute names. -/
theorem entries_in_document_repeatable (doc1 doc2 : basic_compound_document)
    (st1 st2 : Storage) (hs1 : doc1.m_storage = some st1) (hs2 : doc2.m_storage = some st2)
    (hl : st2.listAll = st1.listAll)
    (hn : ∀ e ∈ st1.listAll, st2.fullName e = st1.fullName e) :
    ∃ first second, entries_in_document doc1 [] = some first ∧
      entries_in_document doc2 [] = some second ∧
      first.length = second.length ∧ first.length = st1.listAll.length ∧
      ∀ i (hi : i < first.length) (hj : i < second.length),
        ∃ name, basic_path.absolute (first.get ⟨i, hi⟩) doc1 = some name ∧
          basic_path.absolute (second.get ⟨i, hj⟩) doc2 = some name := by
  have e1 : entries_in_document doc1 [] = some (st1.listAll.map basic_path.mk) := by
    unfold entries_in_document
    rw [hs1]
    simp [push_back_all_eq]
  have e2 : entries_in_document doc2 [] = some (st1.listAll.map basic_path.mk) := by
    unfold entries_in_document
    rw [hs2]
    simp [push_back_all_eq, hl]
  refine ⟨_, _, e1, e2, rfl, List.length_map _ _, ?_⟩
  intro i hi _
  refine ⟨st1.fullName ((st1.listAll.map basic_path.mk).get ⟨i, hi⟩).m_entry,
    absolute_of_storage doc1 st1 hs1 _, ?_⟩
  rw [absolute_of_storage doc2 st2 hs2]
  have hmem : ((st1.listAll.map basic_path.mk).get ⟨i, hi⟩).m_entry ∈ st1.listAll := by
    have hm := List.get_mem (st1.listAll.map basic_path.mk) i hi
    obtain ⟨e, he, heq⟩ := List.mem_map.mp hm
    rw [← heq]
    exact he
  rw [hn _ hmem]

theorem entries_in_document_repeatable_witness :
    sample_doc.m_storage = some sample_storage ∧
    macros_current_doc.m_storage = some macros_current_storage ∧
    sample_storage.current_entry ≠ macros_current_storage.current_entry ∧
    macros_current_storage.listAll = sample_storage.listAll ∧
    entries_in_document sample_doc [] =
      some [basic_path.mk sample_macros, basic_path.mk sample_vba] ∧
    entries_in_document macros_current_doc [] =
      some [basic_path.mk sample_macros, basic_path.mk sample_vba] ∧
    basic_path.absolute (basic_path.mk sample_vba) macros_current_doc =
      some "/Macros/VBA".toList ∧
    ∃ first second, entries_in_document sample_doc [] = some first ∧
      entries_in_document macros_current_doc [] = some second ∧
      first.length = second.length ∧ first.length = sample_storage.listAll.length ∧
      ∀ i (hi : i < first.length) (hj : i < second.length),
        ∃ name, basic_path.absolute (first.get ⟨i, hi⟩) sample_doc = some name ∧
          basic_path.absolute (second.get ⟨i, hj⟩) macros_current_doc = some name :=
  ⟨rfl, rfl, by decide, rfl, by decide, by decide, by decide,
    entries_in_document_repeatable sample_doc macros_current_doc sample_storage
      macros_current_storage rfl rfl rfl (fun _ _ => rfl)⟩

/-! ## Navigation -/

/-- C19: when the name `X` resolves to a directory whose parent is the current directory
(an existing immediate subdirectory, which is not the root), `enter_directory(X)` returns
true, and `leave_directory()` right after it makes `current_dir_absolute()` what it was
before `enter_directory`. -/
theorem enter_then_leave_restores (doc : basic_compound_document) (st : Storage)
    (hs : doc.m_storage = some st) (cur sub : DirEntry) (X : Str)
    (hcur : st.current_entry = some cur) (hres : st.getEntry X = some sub)
    (hdir : sub.dir = true) (hpar : st.parent sub = some cur)
    (hnr : ptr_eq (some sub) st.root_entry = false) :
    ∃ entered left, enter_directory doc X = some (true, entered) ∧
      leave_directory entered = some left ∧
      current_dir_absolute left = current_dir_absolute doc ∧
      current_dir_absolute doc = some (st.fullName cur) := by
  have h1 : (st.enterDirectory X).1 = true ∧
      (st.enterDirectory X).2.current_entry = some sub ∧
      (st.enterDirectory X).2.root_entry = st.root_entry ∧
      (st.enterDirectory X).2.parent = st.parent ∧
      (st.enterDirectory X).2.fullName = st.fullName := by
    unfold Storage.enterDirectory
    rw [hres]
    simp only [hdir, if_true, and_self]
  obtain ⟨k1, k2, k3, k4, k5⟩ := h1
  have h2 : (st.enterDirectory X).2.leaveDirectory.current_entry = some cur ∧
      (st.enterDirectory X).2.leaveDirectory.fullName = st.fullName := by
    unfold Storage.leaveDirectory
    rw [k2, k3, hnr, k4]
    simp only [Bool.false_eq_true, if_false, hpar, k5, and_self]
  refine ⟨{ m_storage := some (st.enterDirectory X).2 },
    { m_storage := some (st.enterDirectory X).2.leaveDirectory }, ?_, ?_, ?_, ?_⟩
  · unfold enter_directory
    rw [hs]
    simp only [Option.map_some', k1]
  · rfl
  · unfold current_dir_absolute absolute_path
    simp only [hs, hcur, h2.1, h2.2]
  · unfold current_dir_absolute absolute_path
    simp only [hs, hcur]

theorem enter_then_leave_restores_witness :
    sample_doc.m_storage = some sample_storage ∧
    sample_storage.getEntry "Macros".toList = some sample_macros ∧
    sample_storage.parent sample_macros = some sample_root ∧
    ∃ entered left, enter_directory sample_doc "Macros".toList = some (true, entered) ∧
      leave_directory entered = some left ∧
      current_dir_absolute left = current_dir_absolute sample_doc ∧
      current_dir_absolute sample_doc = some (sample_storage.fullName sample_root) :=
  ⟨rfl, by decide, by decide,
    enter_then_leave_restores sample_doc sample_storage rfl sample_root sample_macros
      "Macros".toList rfl (by decide) (by decide) (by decide) (by decide)⟩

/-! ## Streams -/

theorem stream_write_read (st : Stream) (n : Nat) (b : Str) (hb : b.length = n)
    (hlen : n ≤ st.content.length) :
    ((st.seekp 0 seekdir.beg).write b n).1 = n ∧
    ((((st.seekp 0 seekdir.beg).write b n).2.seekg 0 seekdir.beg).read n).1 = n ∧
    ((((st.seekp 0 seekdir.beg).write b n).2.seekg 0 seekdir.beg).read n).2.1 = b := by
  have h1 : (b.take n).take (st.content.length - 0) = b := by
    have e1 : b.take n = b := List.take_of_length_le (by omega)
    rw [e1]
    exact List.take_of_length_le (by omega)
  have h2 : ((b ++ st.content.drop n).drop 0).take n = b := by
    rw [List.drop_zero, ← hb, List.take_left']
    rfl
  simp only [Stream.seekp, Stream.seekg, Stream.write, Stream.read, Stream.seek_target,
    Int.toNat_zero, h1, hb, List.take_zero, List.nil_append, Nat.zero_add, h2, and_self]

theorem resize_length (st : Stream) (size : Nat) (val : Char) :
    (st.resize size val true).2.content.length = size := by
  simp only [Stream.resize, if_true, List.length_append, List.length_take,
    List.length_replicate]
  omega

theorem reserve_length (st : Stream) (size : Nat) (junk : Nat → Char) (ok : Bool)
    (h : (st.reserve size junk ok).1 = true) :
    size ≤ (st.reserve size junk ok).2.content.length := by
  unfold Stream.reserve at h ⊢
  by_cases h1 : size ≤ st.content.length
  · rw [if_pos h1]
    exact h1
  · rw [if_neg h1] at h ⊢
    cases ok with
    | false => exact absurd h (by simp)
    | true =>
      simp only [if_true, List.length_append, List.length_map, List.length_range]
      omega

/-- C20: after `resize` or `reserve` has succeeded with a size of at least `n`, positioning
the put cursor at offset 0 and writing the `n` bytes `b`, then positioning the get cursor at
offset 0 and reading `n` bytes, returns the count `n` and exactly the bytes `b`. -/
theorem stream_round_trip (s : stream) (n : Nat) (b : Str) (hb : b.length = n)
    (size : Nat) (hsz : n ≤ size) (val : Char) (junk : Nat → Char) (ok : Bool)
    (grown : stream)
    (hgrow : s.resize size val ok = (true, grown) ∨ s.reserve size junk ok = (true, grown)) :
    ((grown.seekp 0 seekdir.beg).write b n).1 = n ∧
    ((((grown.seekp 0 seekdir.beg).write b n).2.seekg 0 seekdir.beg).read n).1 = n ∧
    ((((grown.seekp 0 seekdir.beg).write b n).2.seekg 0 seekdir.beg).read n).2.1 = b := by
  have hlen : n ≤ grown.m_stream.content.length := by
    rcases hgrow with h | h
    · unfold stream.resize at h
      have h1 := congrArg Prod.fst h
      have h2 := congrArg Prod.snd h
      simp only [] at h1 h2
      cases ok with
      | false => exact absurd h1 (by simp [Stream.resize])
      | true =>
        rw [← h2]
        show n ≤ (s.m_stream.resize size val true).2.content.length
        rw [resize_length]
        exact hsz
    · unfold stream.reserve at h
      have h1 := congrArg Prod.fst h
      have h2 := congrArg Prod.snd h
      simp only [] at h1 h2
      rw [← h2]
      exact Nat.le_trans hsz (reserve_length s.m_stream size junk ok h1)
  exact stream_write_read grown.m_stream n b hb hlen

theorem stream_round_trip_witness :
    (empty_stream.resize 3 'x' true).1 = true ∧
    ((((empty_stream.resize 3 'x' true).2.seekp 0 seekdir.beg).write "VBA".toList 3).2.seekg
      0 seekdir.beg).read 3 =
      (3, "VBA".toList,
        { m_stream := { content := "VBA".toList, get_pos := 3, put_pos := 3,
                        eof_bit := false, fail_bit := false } }) ∧
    (((((empty_stream.resize 3 'x' true).2.seekp 0 seekdir.beg).write "VBA".toList 3).2.seekg
      0 seekdir.beg).read 3).2.1 = "VBA".toList :=
  ⟨by decide, by decide,
    (stream_round_trip empty_stream 3 "VBA".toList (by decide) 3 (by decide) 'x'
      (fun _ => 'y') true _ (Or.inl rfl)).2.2⟩

/-! ## Validity, iterator states and the eager listings -/

/-- C21: `good()` is true exactly when the provider handle exists and the last result of the
provider is `Ok`; a document constructed from the empty file name has no provider handle, so
`good()` is false; construction always yields a document, with the handle of the provider
for a non-empty file name. -/
theorem good_iff_handle_and_ok (doc : basic_compound_document)
    (open_storage : Str → Nat → Bool → Storage) (mode : Nat) (create : Bool) :
    (good doc = true ↔ ∃ st, doc.m_storage = some st ∧ st.result = StorageResult.Ok) ∧
    (of_filename open_storage [] mode create).m_storage = none ∧
    good (of_filename open_storage [] mode create) = false ∧
    (∀ filename, filename ≠ [] →
      (of_filename open_storage filename mode create).m_storage =
        some (open_storage filename mode create) ∧
      good (of_filename open_storage filename mode create) =
        decide ((open_storage filename mode create).result = StorageResult.Ok)) := by
  refine ⟨?_, rfl, rfl, ?_⟩
  · unfold good
    cases h : doc.m_storage with
    | none => simp
    | some st => simp
  · intro filename hne
    have h : filename.isEmpty = false := by
      cases filename with
      | nil => exact absurd rfl hne
      | cons c cs => rfl
    unfold of_filename
    rw [h]
    exact ⟨rfl, rfl⟩

/-- C24: every state of a directory or document iterator reachable from construction (over
providers with non-null current and root entries) by increments is the canonical exhausted
state (no parent, empty sequence, position 0) or has a non-null parent and a position below
the length of its snapshot; hence on every iterator that compares unequal to the end
sentinel the assertions of `dereference` and of `increment` hold. -/
theorem iterator_state_invariant (it : iterator) (h : reachable it) :
    (it = { m_parent := none, m_paths := [], m_pos := 0 } ∨
      ∃ parent, it.m_parent = some parent ∧ it.m_pos < it.m_paths.length) ∧
    (equal it mk_default = false →
      it.m_pos < it.m_paths.length ∧ (∃ p, dereference it = some p) ∧
      ∃ next, increment it = some next ∧ reachable next) := by
  have hs := reachable_shape it h
  refine ⟨hs, ?_⟩
  intro hne
  rcases hs with e | ⟨parent, _, hlt⟩
  · rw [e, equal_sentinel_sentinel] at hne
    exact absurd hne (by decide)
  · refine ⟨hlt, ⟨it.m_paths[it.m_pos], ?_⟩, ?_⟩
    · unfold dereference
      rw [if_pos hlt]
      exact List.getElem?_eq_getElem hlt
    · have hsome : ∃ next, increment it = some next := by
        unfold increment
        rw [if_pos hlt]
        simp only []
        split
        · exact ⟨_, rfl⟩
        · exact ⟨_, rfl⟩
      obtain ⟨next, hn⟩ := hsome
      exact ⟨next, hn, reachable.incremented it next h hn⟩

theorem iterator_state_invariant_witness :
    reachable { m_parent := some sample_root,
                m_paths := [basic_path.mk sample_macros, basic_path.mk sample_vba],
                m_pos := 0 } ∧
    dereference { m_parent := some sample_root,
                  m_paths := [basic_path.mk sample_macros, basic_path.mk sample_vba],
                  m_pos := 0 } = some (basic_path.mk sample_macros) ∧
    (0 : Nat) < [basic_path.mk sample_macros, basic_path.mk sample_vba].length :=
  ⟨reachable.constructed sample_storage false _ (by decide) (by decide) rfl, by decide,
    ((iterator_state_invariant _
      (reachable.constructed sample_storage false _ (by decide) (by decide) rfl)).2
      (by decide)).1⟩

/-- C26: equality of directory and document iterators ignores the snapshot and the kind of
iterator: when the current directory is the root and the root has a child (so that both
listings are non-empty), `dir_begin()` compares equal to `doc_begin()`, and after the same
number `k` of increments, `k` below both snapshot lengths, the two iterators still compare
equal, while they dereference to the `k`-th entry of their own listing. -/
theorem begin_iterators_compare_equal (doc : basic_compound_document) (st : Storage)
    (hs : doc.m_storage = some st) (hroot : ptr_eq st.current_entry st.root_entry = true)
    (hdir : st.listEntries ≠ []) (hall : st.listAll ≠ []) :
    ∃ a b, dir_begin doc = some a ∧ doc_begin doc = some b ∧ equal a b = true ∧
      ∀ k (hk : k < st.listEntries.length) (hj : k < st.listAll.length),
        ∃ ak bk, increment_n k a = some ak ∧ increment_n k b = some bk ∧
          equal ak bk = true ∧ equal bk ak = true ∧
          dereference ak = some (basic_path.mk (st.listEntries.get ⟨k, hk⟩)) ∧
          dereference bk = some (basic_path.mk (st.listAll.get ⟨k, hj⟩)) := by
  have h1 := mk_from_nonempty st true (by simpa using hdir)
  have h2 := mk_from_nonempty st false (by simpa using hall)
  simp only [if_true, Bool.false_eq_true, if_false] at h1 h2
  have hroot2 : ptr_eq st.root_entry st.current_entry = true := by
    unfold ptr_eq at hroot ⊢
    rw [beq_iff_eq] at hroot ⊢
    exact hroot.symm
  refine ⟨{ m_parent := st.current_entry, m_paths := st.listEntries.map basic_path.mk,
            m_pos := 0 },
    { m_parent := st.root_entry, m_paths := st.listAll.map basic_path.mk, m_pos := 0 },
    ?_, ?_, ?_, ?_⟩
  · unfold dir_begin; rw [hs]; exact h1
  · unfold doc_begin; rw [hs]; exact h2
  · simp [equal, hroot]
  · intro k hk hj
    have l1 : k < (st.listEntries.map basic_path.mk).length := by
      rw [List.length_map]; exact hk
    have l2 : k < (st.listAll.map basic_path.mk).length := by
      rw [List.length_map]; exact hj
    refine ⟨_, _, increment_n_positioned _ _ k l1, increment_n_positioned _ _ k l2, ?_, ?_,
      ?_, ?_⟩
    · simp [equal, hroot]
    · simp [equal, hroot2]
    · rw [dereference_positioned _ _ k l1]
      simp
    · rw [dereference_positioned _ _ k l2]
      simp

theorem begin_iterators_compare_equal_witness :
    reordered_doc.m_storage = some reordered_storage ∧
    ptr_eq reordered_storage.current_entry reordered_storage.root_entry = true ∧
    reordered_storage.listEntries ≠ [] ∧ reordered_storage.listAll ≠ [] ∧
    (dir_begin reordered_doc).bind dereference = some (basic_path.mk sample_macros) ∧
    (doc_begin reordered_doc).bind dereference = some (basic_path.mk sample_vba) ∧
    ∃ a b, dir_begin reordered_doc = some a ∧ doc_begin reordered_doc = some b ∧
      equal a b = true ∧
      ∀ k (hk : k < reordered_storage.listEntries.length)
        (hj : k < reordered_storage.listAll.length),
        ∃ ak bk, increment_n k a = some ak ∧ increment_n k b = some bk ∧
          equal ak bk = true ∧ equal bk ak = true ∧
          dereference ak =
            some (basic_path.mk (reordered_storage.listEntries.get ⟨k, hk⟩)) ∧
          dereference bk = some (basic_path.mk (reordered_storage.listAll.get ⟨k, hj⟩)) :=
  ⟨rfl, by decide, by decide, by decide, by decide, by decide,
    begin_iterators_compare_equal reordered_doc reordered_storage rfl (by decide) (by decide)
      (by decide)⟩

/-- C27: `entries_in_current_dir` and `entries_in_document` append to the vector of the
caller: for every input vector `v` and listing `[e0, ..., e(n-1)]` the vector after the call
is `v` followed by `Path(e0), ..., Path(e(n-1))`, the elements of `v` keeping their
positions; so two calls on the same vector yield the listing twice. -/
theorem entries_append_to_vector (doc : basic_compound_document) (st : Storage)
    (hs : doc.m_storage = some st) (v : List basic_path) :
    entries_in_current_dir doc v = some (v ++ st.listEntries.map basic_path.mk) ∧
    entries_in_document doc v = some (v ++ st.listAll.map basic_path.mk) ∧
    (∀ out, entries_in_current_dir doc v = some out ∨ entries_in_document doc v = some out →
      v.length ≤ out.length ∧ ∀ i (hi : i < v.length), out[i]? = some (v.get ⟨i, hi⟩)) ∧
    (entries_in_current_dir doc v).bind (entries_in_current_dir doc) =
      some (v ++ st.listEntries.map basic_path.mk ++ st.listEntries.map basic_path.mk) ∧
    (entries_in_document doc v).bind (entries_in_document doc) =
      some (v ++ st.listAll.map basic_path.mk ++ st.listAll.map basic_path.mk) := by
  have e1 : ∀ w, entries_in_current_dir doc w = some (w ++ st.listEntries.map basic_path.mk) := by
    intro w
    unfold entries_in_current_dir
    rw [hs]
    simp [push_back_all_eq]
  have e2 : ∀ w, entries_in_document doc w = some (w ++ st.listAll.map basic_path.mk) := by
    intro w
    unfold entries_in_document
    rw [hs]
    simp [push_back_all_eq]
  refine ⟨e1 v, e2 v, ?_, ?_, ?_⟩
  · intro out h
    have key : ∃ tail, out = v ++ tail := by
      rcases h with h | h
      · rw [e1 v] at h
        exact ⟨_, (Option.some.inj h).symm⟩
      · rw [e2 v] at h
        exact ⟨_, (Option.some.inj h).symm⟩
    obtain ⟨tail, rfl⟩ := key
    refine ⟨by rw [List.length_append]; omega, ?_⟩
    intro i hi
    rw [List.getElem?_append_left hi]
    exact List.getElem?_eq_getElem hi
  · rw [e1 v]
    exact e1 _
  · rw [e2 v]
    exact e2 _

theorem entries_append_to_vector_witness :
    sample_doc.m_storage = some sample_storage ∧
    entries_in_document sample_doc [basic_path.mk sample_root] =
      some [basic_path.mk sample_root, basic_path.mk sample_macros,
            basic_path.mk sample_vba] ∧
    entries_in_document sample_doc [basic_path.mk sample_root] =
      some ([basic_path.mk sample_root] ++ sample_storage.listAll.map basic_path.mk) :=
  ⟨rfl, by decide,
    (entries_append_to_vector sample_doc sample_storage rfl [basic_path.mk sample_root]).2.1⟩

end ole

namespace ole
open basic_path basic_path.iterator

/-! ## Termination and the cached component -/

/-- C22: iteration over the components terminates on every string: every increment applied
to a position reached from `begin(s)` that is not the end succeeds, strictly increases
`m_pos` and keeps `m_pos ≤ |s|`; so `begin(s)` reaches a position equal to `end()` after at
most `|s|` increments, and the loop up to `end()` returns. -/
theorem path_iteration_terminates (s : Str) :
    (∀ k it, increment_n k (of_string s) = some it → equal it mk_default = false →
      ∃ next, increment it = some next ∧ it.m_pos < next.m_pos ∧
        next.m_pos ≤ s.length) ∧
    (∃ j last, j ≤ s.length ∧ increment_n j (of_string s) = some last ∧
      equal last mk_default = true) ∧
    (∀ fuel, s.length < fuel → ∃ comps, collect fuel (of_string s) = some comps) := by
  refine ⟨?_, ?_, ?_⟩
  · intro k it hr hne
    obtain ⟨hv, hs, hle⟩ := reached_valid s k it hr
    rw [equal_mk_default, hs] at hne
    have hlt : it.m_pos < it.m_full_path.length := by
      rw [hs]
      have := of_decide_eq_false hne
      omega
    obtain ⟨next, h1, _, h3, h4, _⟩ := increment_valid it hv hlt
    exact ⟨next, h1, h3, by rw [← hs]; exact h4⟩
  · obtain ⟨j, last, h1, h2, h3, h4⟩ :=
      exhaust s.length (of_string s) (valid_of_string s) (Nat.zero_le _) (Nat.sub_le _ _)
    refine ⟨j, last, h1, h2, ?_⟩
    rw [equal_mk_default, h3]
    exact decide_eq_true h4
  · intro fuel hf
    obtain ⟨c, h, _⟩ := collect_total fuel (of_string s) (valid_of_string s) (Nat.zero_le _)
      (by show s.length - 0 < fuel; omega)
    exact ⟨c, h⟩

theorem last_index_lt (c : Char) (l : Str) (i : Nat) (h : last_index c l = some i) :
    i < l.length := by
  induction l generalizing i with
  | nil => exact Option.noConfusion h
  | cons x xs ih =>
    unfold last_index at h
    cases hl : last_index c xs with
    | some k =>
      rw [hl] at h
      simp only [Option.some.injEq] at h
      subst h
      have := ih k hl
      simp only [List.length_cons]
      omega
    | none =>
      rw [hl] at h
      simp only [] at h
      by_cases hx : x = c
      · rw [if_pos hx] at h
        simp only [Option.some.injEq] at h
        subst h
        simp
      · rw [if_neg hx] at h
        exact Option.noConfusion h

theorem leaf_pos_le (s : Str) (e : Nat) (he : 0 < e) : leaf_pos s e ≤ e := by
  unfold leaf_pos
  split
  · omega
  · have hz : ¬ e = 0 := by omega
    rw [if_neg hz]
    cases hf : find_last_of s '/' (e - 1) with
    | none => simp only []; omega
    | some i =>
      simp only []
      unfold find_last_of at hf
      have h1 := last_index_lt _ _ _ hf
      rw [List.length_take] at h1
      have h2 : e - 1 + 1 = e := by omega
      rw [h2] at h1
      have h3 : i < e := lt_of_lt_of_le h1 (Nat.min_le_left _ _)
      omega

theorem first_name_take (s : Str) : first_name s = s.take (first_name s).length := by
  cases s with
  | nil => rfl
  | cons c rest =>
    by_cases hc : c = '/'
    · subst hc
      simp [first_name]
    · have hp : (c :: rest).takeWhile (fun ch => decide (ch ≠ '/')) <+: c :: rest :=
        List.takeWhile_prefix _
      have ht := List.prefix_iff_eq_take.mp hp
      have hne : ((c :: rest).takeWhile (fun ch => decide (ch ≠ '/'))).length ≠ 0 := by
        simp [List.takeWhile_cons, hc]
      unfold first_name
      simp only []
      split_ifs
      all_goals exact ht

theorem substr_length (s : Str) (p e : Nat) (h1 : p ≤ e) (h2 : e ≤ s.length) :
    (substr s p (e - p)).length = e - p := by
  unfold substr
  rw [List.length_take, List.length_drop]
  omega

/-- The cached component of the iterator is the substring of the path at its position. -/
theorem component_of_string (s : Str) :
    (of_string s).m_full_path = s ∧
    (of_string s).m_pos + (of_string s).m_name.length ≤ s.length ∧
    (of_string s).m_name = substr s (of_string s).m_pos (of_string s).m_name.length := by
  refine ⟨rfl, ?_, ?_⟩
  · show 0 + (first_name s).length ≤ s.length
    have := first_name_length_le s
    omega
  · show first_name s = (s.drop 0).take (first_name s).length
    rw [List.drop_zero]
    exact first_name_take s

theorem component_increment (s : Str) (it next : iterator)
    (hK : it.m_full_path = s ∧ it.m_pos + it.m_name.length ≤ s.length ∧
      it.m_name = substr s it.m_pos it.m_name.length)
    (h : increment it = some next) :
    next.m_full_path = s ∧ next.m_pos + next.m_name.length ≤ s.length ∧
      next.m_name = substr s next.m_pos next.m_name.length := by
  obtain ⟨k1, k2, _⟩ := hK
  have hlt : it.m_pos < it.m_full_path.length := by
    by_contra hn
    unfold increment at h
    rw [if_neg hn] at h
    exact Option.noConfusion h
  by_cases h2 : it.m_pos + it.m_name.length = it.m_full_path.length
  · have e : increment it =
        some (iterator.mk [] it.m_full_path (it.m_pos + it.m_name.length)) := by
      unfold increment
      rw [if_pos hlt]
      simp only []
      rw [if_pos h2]
    rw [e] at h
    have := Option.some.inj h
    subst this
    refine ⟨k1, ?_, ?_⟩
    · show it.m_pos + it.m_name.length + 0 ≤ s.length
      omega
    · show [] = substr s (it.m_pos + it.m_name.length) 0
      simp [substr]
  · obtain ⟨p, hp⟩ : ∃ p, (if char_at it.m_full_path (it.m_pos + it.m_name.length) = '/'
        then it.m_pos + it.m_name.length + 1 else it.m_pos + it.m_name.length) = p := ⟨_, rfl⟩
    obtain ⟨e, he⟩ : ∃ e, (match find it.m_full_path '/' p with
        | none => it.m_full_path.length
        | some e => e) = e := ⟨_, rfl⟩
    have key := increment_eq_of it p e hlt h2 hp he
    rw [key] at h
    have := Option.some.inj h
    subst this
    have hp1 : p ≤ it.m_full_path.length := by
      rw [k1] at h2 ⊢
      split at hp <;> omega
    have he1 : p ≤ e ∧ e ≤ it.m_full_path.length := by
      cases hf : find it.m_full_path '/' p with
      | none =>
        rw [hf] at he
        simp only [] at he
        omega
      | some k =>
        rw [hf] at he
        simp only [] at he
        subst he
        obtain ⟨b1, b2, _⟩ := find_bound _ _ _ hf
        omega
    have hlen := substr_length it.m_full_path p e he1.1 he1.2
    refine ⟨k1, ?_, ?_⟩
    · show p + (substr it.m_full_path p (e - p)).length ≤ s.length
      rw [hlen, ← k1]
      omega
    · show substr it.m_full_path p (e - p) =
        substr s p (substr it.m_full_path p (e - p)).length
      rw [hlen, k1]

theorem component_decrement (s : Str) (it prev : iterator)
    (hK : it.m_full_path = s ∧ it.m_pos + it.m_name.length ≤ s.length ∧
      it.m_name = substr s it.m_pos it.m_name.length)
    (h : decrement it = some prev) :
    prev.m_full_path = s ∧ prev.m_pos + prev.m_name.length ≤ s.length ∧
      prev.m_name = substr s prev.m_pos prev.m_name.length := by
  obtain ⟨k1, k2, _⟩ := hK
  have h0 : it.m_pos ≠ 0 := by
    intro hn
    unfold decrement at h
    rw [if_neg (not_not.mpr hn)] at h
    exact Option.noConfusion h
  obtain ⟨ep, hep⟩ : ∃ ep, (if char_at it.m_full_path (it.m_pos - 1) = '/' ∧ it.m_pos ≠ 1
      then it.m_pos - 1 else it.m_pos) = ep := ⟨_, rfl⟩
  have key := decrement_eq_of it ep (leaf_pos it.m_full_path ep) h0 hep rfl
  rw [key] at h
  have := Option.some.inj h
  subst this
  have hep1 : 0 < ep ∧ ep ≤ it.m_full_path.length := by
    rw [k1]
    split at hep
    · next hc => have := hc.2; omega
    · omega
  have hm := leaf_pos_le it.m_full_path ep hep1.1
  have hlen := substr_length it.m_full_path (leaf_pos it.m_full_path ep) ep hm hep1.2
  refine ⟨k1, ?_, ?_⟩
  · show leaf_pos it.m_full_path ep + (substr it.m_full_path _ _).length ≤ s.length
    rw [hlen, ← k1]
    omega
  · show substr it.m_full_path _ _ = substr s _ (substr it.m_full_path _ _).length
    rw [hlen, k1]

/-- C23: in every state reached from `begin(s)` by increments and decrements, each applied
where its assertion holds, the cached component is the substring of `s` that starts at
`m_pos` and has the length of the component, which lies inside `s`; so on every such
position that compares unequal to `end()` the assertion `m_pos < |s|` of `dereference`
holds. -/
theorem cached_component_invariant (s : Str) (it : iterator) (h : visited s it) :
    it.m_full_path = s ∧ it.m_pos + it.m_name.length ≤ s.length ∧
    it.m_name = substr s it.m_pos it.m_name.length ∧
    (equal it mk_default = false →
      it.m_pos < s.length ∧ dereference it = some it.m_name) := by
  have hK : it.m_full_path = s ∧ it.m_pos + it.m_name.length ≤ s.length ∧
      it.m_name = substr s it.m_pos it.m_name.length := by
    induction h with
    | start => exact component_of_string s
    | forward it next _ hi ih => exact component_increment s it next ih hi
    | backward it prev _ hd ih => exact component_decrement s it prev ih hd
  refine ⟨hK.1, hK.2.1, hK.2.2, ?_⟩
  intro hne
  rw [equal_mk_default, hK.1] at hne
  have hlt : it.m_pos < s.length := by
    have := of_decide_eq_false hne
    have := hK.2.1
    omega
  refine ⟨hlt, ?_⟩
  unfold dereference
  rw [hK.1, if_pos hlt]

theorem cached_component_invariant_witness :
    visited "/Macros/VBA".toList (iterator.mk "Macros".toList "/Macros/VBA".toList 1) ∧
    "Macros".toList = substr "/Macros/VBA".toList 1 6 :=
  ⟨visited.backward (iterator.mk "VBA".toList "/Macros/VBA".toList 8) _
      (visited.forward (iterator.mk "Macros".toList "/Macros/VBA".toList 1) _
        (visited.forward (of_string "/Macros/VBA".toList) _ visited.start (by decide))
        (by decide))
      (by decide),
    (cached_component_invariant "/Macros/VBA".toList
      (iterator.mk "Macros".toList "/Macros/VBA".toList 1)
      (visited.backward (iterator.mk "VBA".toList "/Macros/VBA".toList 8) _
        (visited.forward (iterator.mk "Macros".toList "/Macros/VBA".toList 1) _
          (visited.forward (of_string "/Macros/VBA".toList) _ visited.start (by decide))
          (by decide))
        (by decide))).2.2.1⟩

/-! ## The end position and reverse iteration -/

theorem first_index_spec (c : Char) (l : Str) (i : Nat) (h : first_index c l = some i) :
    c ∉ l.take i ∧ char_at l i = c := by
  induction l generalizing i with
  | nil => exact Option.noConfusion h
  | cons x xs ih =>
    unfold first_index at h
    by_cases hx : x = c
    · rw [if_pos hx] at h
      simp only [Option.some.injEq] at h
      subst h
      exact ⟨by simp, by simpa [char_at] using hx⟩
    · rw [if_neg hx] at h
      cases hf : first_index c xs with
      | none => rw [hf] at h; exact Option.noConfusion h
      | some k =>
        rw [hf] at h
        simp only [Option.map_some', Option.some.injEq] at h
        subst h
        obtain ⟨h1, h2⟩ := ih k hf
        refine ⟨?_, by simpa [char_at] using h2⟩
        simp only [List.take_succ_cons, List.mem_cons, not_or]
        exact ⟨fun e => hx e.symm, h1⟩

theorem first_index_none_spec (c : Char) (l : Str) (h : first_index c l = none) : c ∉ l := by
  induction l with
  | nil => simp
  | cons x xs ih =>
    unfold first_index at h
    by_cases hx : x = c
    · rw [if_pos hx] at h
      exact Option.noConfusion h
    · rw [if_neg hx] at h
      cases hf : first_index c xs with
      | none =>
        simp only [List.mem_cons, not_or]
        exact ⟨fun e => hx e.symm, ih hf⟩
      | some k =>
        rw [hf] at h
        exact Option.noConfusion h

theorem char_at_drop (s : Str) (p i : Nat) : char_at (s.drop p) i = char_at s (p + i) := by
  simp [char_at, List.getD_eq_getElem?_getD, List.getElem?_drop]

theorem find_spec (s : Str) (p e : Nat) (h : find s '/' p = some e) :
    '/' ∉ substr s p (e - p) ∧ char_at s e = '/' := by
  unfold find at h
  cases hf : first_index '/' (s.drop p) with
  | none => rw [hf] at h; exact Option.noConfusion h
  | some k =>
    rw [hf] at h
    simp only [Option.map_some', Option.some.injEq] at h
    subst h
    obtain ⟨h1, h2⟩ := first_index_spec _ _ _ hf
    rw [char_at_drop] at h2
    refine ⟨?_, by rw [Nat.add_comm]; exact h2⟩
    unfold substr
    rw [Nat.add_sub_cancel]
    exact h1

theorem find_none_spec (s : Str) (p : Nat) (h : find s '/' p = none) :
    '/' ∉ substr s p (s.length - p) := by
  unfold find at h
  cases hf : first_index '/' (s.drop p) with
  | some k => rw [hf] at h; exact Option.noConfusion h
  | none =>
    have := first_index_none_spec _ _ hf
    unfold substr
    intro hm
    exact this (List.mem_of_mem_take hm)

theorem take_while_spec (l : Str) :
    '/' ∉ l.takeWhile (fun ch => decide (ch ≠ '/')) ∧
    ∃ d, l = l.takeWhile (fun ch => decide (ch ≠ '/')) ++ d ∧ (d = [] ∨ ∃ r, d = '/' :: r) := by
  induction l with
  | nil => exact ⟨by simp, [], rfl, Or.inl rfl⟩
  | cons x xs ih =>
    by_cases hx : x = '/'
    · subst hx
      exact ⟨by simp, '/' :: xs, by simp, Or.inr ⟨xs, rfl⟩⟩
    · obtain ⟨h1, d, h2, h3⟩ := ih
      have e : (x :: xs).takeWhile (fun ch => decide (ch ≠ '/')) =
          x :: xs.takeWhile (fun ch => decide (ch ≠ '/')) := by
        simp [List.takeWhile_cons, hx]
      rw [e]
      refine ⟨?_, d, ?_, h3⟩
      · simp only [List.mem_cons, not_or]
        exact ⟨fun e => hx e.symm, h1⟩
      · rw [List.cons_append, ← h2]

theorem at_token_of_string (s : Str) : at_token (of_string s) := by
  obtain ⟨k1, k2, k3⟩ := component_of_string s
  refine ⟨Or.inl rfl, ?_, ?_, ?_, ?_⟩
  · cases s with
    | nil => left; simp [of_string, first_name]
    | cons c rest =>
      by_cases hc : c = '/'
      · subst hc
        right
        exact ⟨rfl, by simp [of_string, first_name]⟩
      · left
        obtain ⟨h1, _⟩ := take_while_spec (c :: rest)
        have hne : ((c :: rest).takeWhile (fun ch => decide (ch ≠ '/'))).length ≠ 0 := by
          simp [List.takeWhile_cons, hc]
        show '/' ∉ first_name (c :: rest)
        unfold first_name
        simp only []
        split_ifs
        all_goals exact h1
  · cases s with
    | nil => left; rfl
    | cons c rest =>
      by_cases hc : c = '/'
      · subst hc
        right; right
        exact ⟨rfl, by simp [of_string, first_name]⟩
      · obtain ⟨_, d, h2, h3⟩ := take_while_spec (c :: rest)
        have hne : ((c :: rest).takeWhile (fun ch => decide (ch ≠ '/'))).length ≠ 0 := by
          simp [List.takeWhile_cons, hc]
        have hfn : first_name (c :: rest) =
            (c :: rest).takeWhile (fun ch => decide (ch ≠ '/')) := by
          unfold first_name
          simp only []
          split_ifs
          all_goals rfl
        show 0 + (first_name (c :: rest)).length = (c :: rest).length ∨
          char_at (c :: rest) (0 + (first_name (c :: rest)).length) = '/' ∨ _
        rw [hfn, Nat.zero_add]
        rcases h3 with e | ⟨r, e⟩
        · left
          rw [e, List.append_nil] at h2
          rw [← h2]
        · right; left
          rw [e] at h2
          have := char_at_append_cons
            ((c :: rest).takeWhile (fun ch => decide (ch ≠ '/'))) '/' r
          rw [← h2] at this
          exact this
  · exact k3
  · rw [k1]
    exact k2

theorem char_at_zero_of_take (s : Str) (h : ['/'] = substr s 0 1) : char_at s 0 = '/' := by
  cases s with
  | nil => simp [substr] at h
  | cons c rest =>
    simp only [substr, List.drop_zero, List.take_succ_cons, List.take_zero, List.cons.injEq,
      and_true] at h
    simpa [char_at] using h.symm

/-- One increment that does not reach the end leads from a token to the next token. -/
theorem at_token_increment (it next : iterator) (ht : at_token it)
    (h : increment it = some next) (hn : next.m_pos < next.m_full_path.length) :
    at_token next := by
  obtain ⟨_, t2, t3, t4, t5⟩ := ht
  obtain ⟨k1, k2, k3⟩ := component_increment it.m_full_path it next ⟨rfl, t5, t4⟩ h
  have hlt : it.m_pos < it.m_full_path.length := by
    by_contra hc
    unfold increment at h
    rw [if_neg hc] at h
    exact Option.noConfusion h
  have h2 : it.m_pos + it.m_name.length ≠ it.m_full_path.length := by
    intro h2
    have e : increment it =
        some (iterator.mk [] it.m_full_path (it.m_pos + it.m_name.length)) := by
      unfold increment
      rw [if_pos hlt]
      simp only []
      rw [if_pos h2]
    rw [e] at h
    have := Option.some.inj h
    subst this
    have : it.m_pos + it.m_name.length < it.m_full_path.length := hn
    omega
  obtain ⟨p, hp⟩ : ∃ p, (if char_at it.m_full_path (it.m_pos + it.m_name.length) = '/'
      then it.m_pos + it.m_name.length + 1 else it.m_pos + it.m_name.length) = p := ⟨_, rfl⟩
  obtain ⟨e, he⟩ : ∃ e, (match find it.m_full_path '/' p with
      | none => it.m_full_path.length
      | some e => e) = e := ⟨_, rfl⟩
  have key := increment_eq_of it p e hlt h2 hp he
  rw [key] at h
  have hnext := Option.some.inj h
  subst hnext
  have hp_lt : p < it.m_full_path.length := hn
  refine ⟨?_, ?_, ?_, ?_, ?_⟩
  · show p = 0 ∨ char_at it.m_full_path (p - 1) = '/'
    by_cases hc : char_at it.m_full_path (it.m_pos + it.m_name.length) = '/'
    · rw [if_pos hc] at hp
      right
      rw [← hp, Nat.add_sub_cancel]
      exact hc
    · rw [if_neg hc] at hp
      rcases t3 with a | a | ⟨a, b⟩
      · exact absurd a h2
      · exact absurd a hc
      · right
        rw [← hp, a, b]
        rw [a, b] at t4
        exact char_at_zero_of_take _ t4
  · left
    show '/' ∉ substr it.m_full_path p (e - p)
    cases hf : find it.m_full_path '/' p with
    | none =>
      rw [hf] at he
      simp only [] at he
      rw [← he]
      exact find_none_spec _ _ hf
    | some k =>
      rw [hf] at he
      simp only [] at he
      subst he
      exact (find_spec _ _ _ hf).1
  · have hpe : p ≤ e ∧ e ≤ it.m_full_path.length ∧
        (e = it.m_full_path.length ∨ char_at it.m_full_path e = '/') := by
      cases hf : find it.m_full_path '/' p with
      | none =>
        rw [hf] at he
        simp only [] at he
        exact ⟨by omega, by omega, Or.inl he.symm⟩
      | some k =>
        rw [hf] at he
        simp only [] at he
        subst he
        obtain ⟨b1, b2, _⟩ := find_bound _ _ _ hf
        exact ⟨b1, by omega, Or.inr (find_spec _ _ _ hf).2⟩
    have hlen := substr_length it.m_full_path p e hpe.1 hpe.2.1
    show p + (substr it.m_full_path p (e - p)).length = it.m_full_path.length ∨
      char_at it.m_full_path (p + (substr it.m_full_path p (e - p)).length) = '/' ∨ _
    rw [hlen]
    have e2 : p + (e - p) = e := by omega
    rw [e2]
    rcases hpe.2.2 with a | a
    · exact Or.inl a
    · exact Or.inr (Or.inl a)
  · exact k3
  · exact k2

theorem reached_at_token (s : Str) (k : Nat) :
    ∀ it, increment_n k (of_string s) = some it → it.m_pos < s.length → at_token it := by
  induction k with
  | zero =>
    intro it h _
    have : some (of_string s) = some it := h
    have := Option.some.inj this
    subst this
    exact at_token_of_string s
  | succ k ih =>
    intro it h hlt
    rw [increment_n_succ] at h
    cases hp : increment_n k (of_string s) with
    | none => rw [hp] at h; exact Option.noConfusion h
    | some prev =>
      rw [hp] at h
      have h1 : increment prev = some it := h
      obtain ⟨_, hs, _⟩ := reached_valid s k prev hp
      have hprev : prev.m_pos < s.length := by
        by_contra hn
        unfold increment at h1
        rw [hs] at h1
        rw [if_neg hn] at h1
        exact Option.noConfusion h1
      have hit := (reached_valid s (k + 1) it (by rw [increment_n_succ, hp]; exact h1)).2.1
      exact at_token_increment prev it (ih prev hp hprev) h1 (by rw [hit]; exact hlt)

theorem leaf_pos_first (n rest : Str) (h : is_segment n) :
    leaf_pos (n ++ rest) n.length = 0 := by
  have hpos : n.length ≠ 0 := by
    intro h0
    exact h.1 (List.length_eq_zero.mp h0)
  have h1 : char_at (n ++ rest) (n.length - 1) ≠ '/' := by
    have := char_at_segment_last [] n rest h
    simpa using this
  have h3 : find_last_of (n ++ rest) '/' (n.length - 1) = none := by
    unfold find_last_of
    have e : n.length - 1 + 1 = n.length := by omega
    rw [e, List.take_left']
    · exact last_index_none _ _ h.2
    · rfl
  simp only [leaf_pos, hpos, if_false, h1, and_false, h3]

theorem decrement_first (nm n : Str) (hn : is_segment n) :
    decrement { m_name := nm, m_full_path := n, m_pos := n.length } =
      some { m_name := n, m_full_path := n, m_pos := 0 } := by
  have hpos : n.length ≠ 0 := by
    intro h0
    exact hn.1 (List.length_eq_zero.mp h0)
  have h1 : char_at n (n.length - 1) ≠ '/' := by
    have := char_at_segment_last [] n [] hn
    simpa using this
  have h4 := leaf_pos_first n [] hn
  rw [List.append_nil] at h4
  have key := decrement_eq_of
    { m_name := nm, m_full_path := n, m_pos := n.length } n.length 0 hpos
    (by
      show (if char_at n (n.length - 1) = '/' ∧ n.length ≠ 1 then _ else _) = _
      rw [if_neg (fun h => h1 h.1)])
    h4
  rw [key]
  show some _ = some _
  have : substr n 0 (n.length - 0) = n := by simp [substr]
  rw [this]

theorem decrement_first_slash (nm n : Str) (hn : is_segment n) :
    decrement { m_name := nm, m_full_path := n ++ ['/'], m_pos := n.length + 1 } =
      some { m_name := n, m_full_path := n ++ ['/'], m_pos := 0 } := by
  have hpos : n.length ≠ 0 := by
    intro h0
    exact hn.1 (List.length_eq_zero.mp h0)
  have h1 : char_at (n ++ ['/']) n.length = '/' := char_at_append_cons n '/' []
  have h4 := leaf_pos_first n ['/'] hn
  have key := decrement_eq_of
    { m_name := nm, m_full_path := n ++ ['/'], m_pos := n.length + 1 } n.length 0
    (by show n.length + 1 ≠ 0; omega)
    (by
      show (if char_at (n ++ ['/']) (n.length + 1 - 1) = '/' ∧ n.length + 1 ≠ 1
        then _ else _) = _
      rw [Nat.add_sub_cancel, if_pos ⟨h1, by omega⟩])
    h4
  rw [key]
  show some _ = some _
  have : substr (n ++ ['/']) 0 (n.length - 0) = n := by simp [substr]
  rw [this]

/-- Decrementing the end of a path whose last token is `n`, possibly followed by one
slash, gives that token. -/
theorem decrement_token (en pre n rest : Str) (hn : n ≠ [])
    (h1 : pre = [] ∨ ∃ front, pre = front ++ ['/'])
    (h2 : '/' ∉ n ∨ (pre = [] ∧ n = ['/']))
    (h3 : rest = [] ∨ rest = ['/']) :
    decrement { m_name := en, m_full_path := pre ++ n ++ rest,
                m_pos := (pre ++ n ++ rest).length } =
      some { m_name := n, m_full_path := pre ++ n ++ rest, m_pos := pre.length } := by
  rcases h2 with h2 | ⟨hp, hn1⟩
  · have hseg : is_segment n := ⟨hn, h2⟩
    rcases h1 with hp | ⟨front, hp⟩
    · subst hp
      rcases h3 with hr | hr
      · subst hr
        have := decrement_first en n hseg
        simpa using this
      · subst hr
        have := decrement_first_slash en n hseg
        simpa using this
    · subst hp
      rcases h3 with hr | hr
      · subst hr
        have := decrement_from_end en front n hseg
        simpa [Nat.add_assoc, Nat.add_comm, Nat.add_left_comm] using this
      · subst hr
        have := decrement_step en front n [] hseg
        simpa [Nat.add_assoc, Nat.add_comm, Nat.add_left_comm] using this
  · subst hp
    subst hn1
    rcases h3 with hr | hr
    · subst hr
      simp [decrement, leaf_pos, char_at, substr]
    · subst hr
      simp [decrement, leaf_pos, char_at, substr]

theorem increment_end_cases (it e : iterator)
    (h : increment it = some e) (he : e.m_pos = it.m_full_path.length) :
    it.m_pos + it.m_name.length = it.m_full_path.length ∨
    (it.m_pos + it.m_name.length + 1 = it.m_full_path.length ∧
      char_at it.m_full_path (it.m_pos + it.m_name.length) = '/') := by
  have hlt : it.m_pos < it.m_full_path.length := by
    by_contra hc
    unfold increment at h
    rw [if_neg hc] at h
    exact Option.noConfusion h
  by_cases h2 : it.m_pos + it.m_name.length = it.m_full_path.length
  · exact Or.inl h2
  · right
    obtain ⟨p, hp⟩ : ∃ p, (if char_at it.m_full_path (it.m_pos + it.m_name.length) = '/'
        then it.m_pos + it.m_name.length + 1 else it.m_pos + it.m_name.length) = p := ⟨_, rfl⟩
    obtain ⟨en, hen⟩ : ∃ en, (match find it.m_full_path '/' p with
        | none => it.m_full_path.length
        | some en => en) = en := ⟨_, rfl⟩
    have key := increment_eq_of it p en hlt h2 hp hen
    rw [key] at h
    have hnext := Option.some.inj h
    subst hnext
    have hpe : p = it.m_full_path.length := he
    by_cases hc : char_at it.m_full_path (it.m_pos + it.m_name.length) = '/'
    · rw [if_pos hc] at hp
      exact ⟨by omega, hc⟩
    · rw [if_neg hc] at hp
      exact absurd (hp.trans hpe) h2

theorem split_at_component (s : Str) (p k : Nat) :
    s = s.take p ++ substr s p k ++ s.drop (p + k) := by
  unfold substr
  rw [List.append_assoc, ← List.drop_drop, List.take_append_drop, List.take_append_drop]

theorem last_char_slash (pre tail : Str) (h0 : pre ≠ [])
    (hc : char_at (pre ++ tail) (pre.length - 1) = '/') : ∃ front, pre = front ++ ['/'] := by
  rcases List.eq_nil_or_concat pre with e | ⟨front, c, e⟩
  · exact absurd e h0
  · rw [List.concat_eq_append] at e
    subst e
    have h1 := char_at_append_cons front c tail
    have e1 : front ++ [c] ++ tail = front ++ c :: tail := by simp
    have e2 : (front ++ [c]).length - 1 = front.length := by simp
    rw [e1, e2, h1] at hc
    rw [hc]
    exact ⟨front, rfl⟩

theorem single_slash_tail (pre rest : Str) (hl : rest.length = 1)
    (hc : char_at (pre ++ rest) pre.length = '/') : rest = ['/'] := by
  cases rest with
  | nil => simp at hl
  | cons c tail =>
    cases tail with
    | cons d tl => simp at hl
    | nil =>
      rw [char_at_append_cons] at hc
      rw [hc]

/-- Decrementing the position produced by the last increment gives back the last token of
the forward iteration when that token is not empty. -/
theorem decrement_last (last e : iterator) (ht : at_token last)
    (h : increment last = some e) (he : e.m_pos = last.m_full_path.length)
    (hne : last.m_name ≠ []) : decrement e = some last := by
  obtain ⟨t1, t2, t3, t4, t5⟩ := ht
  obtain ⟨k1, _, _⟩ := component_increment last.m_full_path last e ⟨rfl, t5, t4⟩ h
  have hc := increment_end_cases last e h he
  rcases last with ⟨n, s, p⟩
  rcases e with ⟨en, es, ep⟩
  simp only [] at t1 t2 t3 t4 t5 k1 hc he hne
  subst k1
  subst he
  have hs := split_at_component es p n.length
  rw [← t4] at hs
  obtain ⟨pre, hpre⟩ : ∃ pre, pre = es.take p := ⟨_, rfl⟩
  obtain ⟨rest, hrest⟩ : ∃ rest, rest = es.drop (p + n.length) := ⟨_, rfl⟩
  rw [← hpre, ← hrest] at hs
  have hplen : pre.length = p := by
    rw [hpre, List.length_take]
    omega
  have hrlen : rest.length = es.length - (p + n.length) := by
    rw [hrest, List.length_drop]
  subst hplen
  have h1 : pre = [] ∨ ∃ front, pre = front ++ ['/'] := by
    by_cases hp0 : pre = []
    · exact Or.inl hp0
    · right
      rcases t1 with a | a
      · exact absurd (List.length_eq_zero.mp a) hp0
      · rw [hs, List.append_assoc] at a
        exact last_char_slash pre _ hp0 a
  have h2 : '/' ∉ n ∨ (pre = [] ∧ n = ['/']) := by
    rcases t2 with a | ⟨a, b⟩
    · exact Or.inl a
    · exact Or.inr ⟨List.length_eq_zero.mp a, b⟩
  have h3 : rest = [] ∨ rest = ['/'] := by
    rcases hc with a | ⟨a, b⟩
    · left
      exact List.length_eq_zero.mp (by omega)
    · right
      have hl : rest.length = 1 := by omega
      have e1 : pre.length + n.length = (pre ++ n).length := by simp
      rw [hs, e1] at b
      exact single_slash_tail (pre ++ n) rest hl b
  have key := decrement_token en pre n rest hne h1 h2 h3
  rw [← hs] at key
  exact key

/-- From a valid position before the end, finitely many increments reach the last position
before the end, whose increment is the end of the path. -/
theorem last_step (bound : Nat) :
    ∀ it : iterator, valid it → it.m_pos < it.m_full_path.length →
      it.m_full_path.length - it.m_pos ≤ bound →
      ∃ j last e, increment_n j it = some last ∧ last.m_pos < it.m_full_path.length ∧
        increment last = some e ∧ e.m_full_path = it.m_full_path ∧
        e.m_pos = it.m_full_path.length := by
  induction bound with
  | zero =>
    intro it _ hlt hb
    omega
  | succ bound ih =>
    intro it hv hlt hb
    obtain ⟨next, h1, h2, h3, h4, h5⟩ := increment_valid it hv hlt
    by_cases hn : next.m_pos = it.m_full_path.length
    · exact ⟨0, it, next, rfl, hlt, h1, h2, hn⟩
    · obtain ⟨j, last, e, h6, h7, h8, h9, h10⟩ := ih next h5 (by rw [h2]; omega)
        (by rw [h2]; omega)
      refine ⟨j + 1, last, e, ?_, by rw [← h2]; exact h7, h8, by rw [h9, h2],
        by rw [h10, h2]⟩
      rw [increment_n_front, h1]
      exact h6

/-- The last component pushed by the forward loop is the component of the last position
before the end. -/
theorem collect_last (j : Nat) :
    ∀ (it last e : iterator) (fuel : Nat) (comps : List Str),
      increment_n j it = some last → increment last = some e →
      e.m_pos = e.m_full_path.length → collect fuel it = some comps →
      comps.getLast? = some last.m_name := by
  induction j with
  | zero =>
    intro it last e fuel comps h1 h2 h3 h4
    have : some it = some last := h1
    have := Option.some.inj this
    subst this
    have hlt : it.m_pos < it.m_full_path.length := by
      by_contra hc
      unfold increment at h2
      rw [if_neg hc] at h2
      exact Option.noConfusion h2
    cases fuel with
    | zero => exact Option.noConfusion h4
    | succ fuel =>
      rw [collect_step fuel it e hlt h2] at h4
      cases fuel with
      | zero => exact Option.noConfusion h4
      | succ fuel =>
        rw [collect_at_end fuel e h3] at h4
        simp only [Option.map_some', Option.some.injEq] at h4
        rw [← h4]
        rfl
  | succ j ih =>
    intro it last e fuel comps h1 h2 h3 h4
    rw [increment_n_front] at h1
    cases hi : increment it with
    | none => rw [hi] at h1; exact Option.noConfusion h1
    | some next =>
      rw [hi] at h1
      have h1n : increment_n j next = some last := h1
      have hlt : it.m_pos < it.m_full_path.length := by
        by_contra hc
        unfold increment at hi
        rw [if_neg hc] at hi
        exact Option.noConfusion hi
      cases fuel with
      | zero => exact Option.noConfusion h4
      | succ fuel =>
        rw [collect_step fuel it next hlt hi] at h4
        cases hr : collect fuel next with
        | none => rw [hr] at h4; exact Option.noConfusion h4
        | some r =>
          rw [hr] at h4
          simp only [Option.map_some', Option.some.injEq] at h4
          have hl := ih next last e fuel r h1n h2 h3 hr
          rw [← h4]
          cases r with
          | nil => exact Option.noConfusion hl
          | cons x xs =>
            rw [List.getLast?_cons_cons]
            exact hl

/-- C25 as stated fails on the string `a//`: the forward loop pushes the components `a` and
the empty component at position 2, the increment of that position is the end position
`m_pos = 3`, and decrementing the end position gives the token `/` at position 1, which is not
the last component. -/
theorem end_decrement_counterexample :
    increment_n 1 (of_string "a//".toList) = some (iterator.mk [] "a//".toList 2) ∧
    dereference (iterator.mk [] "a//".toList 2) = some [] ∧
    increment (iterator.mk [] "a//".toList 2) = some (iterator.mk [] "a//".toList 3) ∧
    equal (iterator.mk [] "a//".toList 3) mk_default = true ∧
    collect 4 (of_string "a//".toList) = some ["a".toList, []] ∧
    decrement (iterator.mk [] "a//".toList 3) =
      some (iterator.mk "/".toList "a//".toList 1) := by
  decide

/-- C25 (amended): for every non-empty string `s`, finitely many increments of `begin(s)`
reach a last position before the end whose increment is the end position `e` of `s`; the last
component pushed by the forward loop is the component of that last position; `e` has
`m_pos = |s| > 0`, so `decrement` succeeds on it, and it gives back the last position with the
last component whenever that component is not empty; the sentinel `iterator()` compares equal
to `e` in both directions, has `m_pos = 0`, and `decrement` fails on it. -/
theorem end_decrement_last_component (s : Str) (hne : s ≠ []) :
    ∃ j last e, increment_n j (of_string s) = some last ∧ last.m_pos < s.length ∧
      increment last = some e ∧ e.m_full_path = s ∧ e.m_pos = s.length ∧ 0 < e.m_pos ∧
      (∀ fuel comps, collect fuel (of_string s) = some comps →
        comps.getLast? = some last.m_name) ∧
      (∃ comps, collect (s.length + 1) (of_string s) = some comps) ∧
      (∃ prev, decrement e = some prev) ∧
      (last.m_name ≠ [] → decrement e = some last) ∧
      equal e mk_default = true ∧ equal mk_default e = true ∧
      mk_default.m_pos = 0 ∧ decrement mk_default = none := by
  have hpos : 0 < s.length := List.length_pos.mpr hne
  obtain ⟨j, last, e, h1, h2, h3, h4, h5⟩ := last_step s.length (of_string s)
    (valid_of_string s) hpos (by show s.length - 0 ≤ s.length; omega)
  have h4s : e.m_full_path = s := h4
  have h5s : e.m_pos = s.length := h5
  have h2s : last.m_pos < s.length := h2
  have ht := reached_at_token s j last h1 h2s
  have hls := (reached_valid s j last h1).2.1
  have hend : e.m_pos = e.m_full_path.length := by rw [h5s, h4s]
  refine ⟨j, last, e, h1, h2s, h3, h4s, h5s, by rw [h5s]; exact hpos, ?_, ?_, ?_, ?_, ?_, ?_,
    rfl, rfl⟩
  · intro fuel comps hc
    exact collect_last j (of_string s) last e fuel comps h1 h3 hend hc
  · obtain ⟨c, hc, _⟩ := collect_total (s.length + 1) (of_string s) (valid_of_string s)
      (Nat.zero_le _) (by show s.length - 0 < s.length + 1; omega)
    exact ⟨c, hc⟩
  · have h0 : e.m_pos ≠ 0 := by omega
    unfold decrement
    rw [if_pos h0]
    exact ⟨_, rfl⟩
  · intro hn
    exact decrement_last last e ht h3 (by rw [h5s, hls]) hn
  · exact equal_of_end e mk_default hend rfl
  · exact equal_of_end mk_default e rfl hend

/-- Witness of C25 (amended) on the name `/Macros/VBA`. -/
theorem end_decrement_last_component_witness :
    "/Macros/VBA".toList ≠ [] ∧
    ∃ j last e, increment_n j (of_string "/Macros/VBA".toList) = some last ∧
      last.m_pos < "/Macros/VBA".toList.length ∧
      increment last = some e ∧ e.m_full_path = "/Macros/VBA".toList ∧
      e.m_pos = "/Macros/VBA".toList.length ∧ 0 < e.m_pos ∧
      (∀ fuel comps, collect fuel (of_string "/Macros/VBA".toList) = some comps →
        comps.getLast? = some last.m_name) ∧
      (∃ comps, collect ("/Macros/VBA".toList.length + 1) (of_string "/Macros/VBA".toList) =
        some comps) ∧
      (∃ prev, decrement e = some prev) ∧
      (last.m_name ≠ [] → decrement e = some last) ∧
      equal e mk_default = true ∧ equal mk_default e = true ∧
      mk_default.m_pos = 0 ∧ decrement mk_default = none :=
  ⟨by decide, end_decrement_last_component "/Macros/VBA".toList (by decide)⟩

end ole
